/- Verification development for the protosmt repository (an experimental SMT
solver: expression kernel, Tseitin CNF translation, CDCL SAT engine, and
transactional memory).  Each component below is a shallow embedding of the
corresponding Python source file, and the theorems at the end of the file
settle the frozen claims about the spec. -/
import Mathlib

set_option maxRecDepth 4000

namespace Protosmt

/-! # Transactional memory (src/smt/util/transactional.py)

A memory arena owns an ordered stack of transactions (bottom first, the top
transaction is the last element).  Each transaction stores, per handle, a
chunk.  `smt/util/transactional.py` has three chunk kinds used by the claims:
value cells, set chunks (`removed`/`added`) and mapping chunks
(`removed`/`unique`/`overriding`).  Handles are modelled as natural numbers;
the weak dictionaries of the source are modelled as association lists.  Python
sets of keys are modelled as duplicate-free lists (the insertion guards of the
source never insert a key twice, so only membership matters). -/

inductive Chunk (K V : Type) where
  | value (v : V)
  | setChunk (removed added : List K)
  | mapChunk (removed : List K) (uniq overriding : List (K × V))
deriving DecidableEq

/-- One transaction: its `storage`, an association list from handle to chunk
(mirroring `Transaction.storage : MutableMapping[_Handle, _Chunk]`). -/
abbrev Trans (K V : Type) : Type := List (Nat × Chunk K V)

/-- A memory arena: the stack of transactions, bottom first, exactly as
`Memory.transactions`.  The top transaction is the last list element. -/
abbrev Memory (K V : Type) : Type := List (Trans K V)

/-- `Memory()` starts with a single (base) transaction. -/
def Memory.init (K V : Type) : Memory K V := [[]]

/-- `begin_transaction`: push a fresh transaction on top of the stack. -/
def beginT {K V : Type} (m : Memory K V) : Memory K V := m ++ [[]]

/-- Association-list lookup used for `storage.get(handle)`. -/
def lookupChunk {K V : Type} (h : Nat) : Trans K V → Option (Chunk K V)
  | [] => none
  | (h', c) :: rest => if h' = h then some c else lookupChunk h rest

/-- Association-list update used for `storage[handle] = chunk`. -/
def storeChunk {K V : Type} (h : Nat) (c : Chunk K V) : Trans K V → Trans K V
  | [] => [(h, c)]
  | (h', c') :: rest =>
      if h' = h then (h, c) :: rest else (h', c') :: storeChunk h c rest

/-- `_get_chunks`: the chunks recorded for a handle, walking the transaction
stack from the top (most recent) down. -/
def getChunks {K V : Type} (h : Nat) (m : Memory K V) : List (Chunk K V) :=
  m.reverse.filterMap (lookupChunk h)

/-- Replace the top transaction of the arena by `f` applied to it (all cell
mutations of the source target the top transaction only). -/
def updateTop {K V : Type} (f : Trans K V → Trans K V) : Memory K V → Memory K V
  | [] => []
  | [t] => [f t]
  | t :: rest => t :: updateTop f rest

/-- `_get_top_chunk` for a handle: the chunk stored in the top transaction. -/
def getTopChunk {K V : Type} (h : Nat) (m : Memory K V) : Option (Chunk K V) :=
  match m.getLast? with
  | none => none
  | some t => lookupChunk h t

/-! ## TransactionalSet -/

/-- `TransactionalSet.__contains__`: walk the chunks top-down; `true` at the
first chunk whose `added` holds the key, `false` at the first chunk whose
`removed` holds it, `false` when the chunks are exhausted.  A chunk of the
wrong kind is a broken cast (an assertion failure in the source): `none`. -/
def setContainsChunks {K V : Type} [DecidableEq K] (x : K) :
    List (Chunk K V) → Option Bool
  | [] => some false
  | Chunk.setChunk removed added :: rest =>
      if x ∈ added then some true
      else if x ∈ removed then some false
      else setContainsChunks x rest
  | _ => none

def setContains {K V : Type} [DecidableEq K] (h : Nat) (x : K) (m : Memory K V) :
    Option Bool :=
  setContainsChunks x (getChunks h m)

/-- `TransactionalSet.__len__`: the sum over all chunks of
`len(added) - len(removed)` (an integer in the source). -/
def setLenChunks {K V : Type} : List (Chunk K V) → Option Int
  | [] => some 0
  | Chunk.setChunk removed added :: rest =>
      (setLenChunks rest).map (fun n => (added.length : Int) - removed.length + n)
  | _ => none

def setLen {K V : Type} (h : Nat) (m : Memory K V) : Option Int :=
  setLenChunks (getChunks h m)

/-- The set chunk of the top transaction, created empty if absent
(`_force_get_top_chunk`); `none` when the stored chunk has the wrong kind. -/
def forceTopSet {K V : Type} (h : Nat) (m : Memory K V) :
    Option (List K × List K) :=
  match getTopChunk h m with
  | none => some ([], [])
  | some (Chunk.setChunk removed added) => some (removed, added)
  | some _ => none

/-- `TransactionalSet.add`. -/
def setAdd {K V : Type} [DecidableEq K] (h : Nat) (x : K) (m : Memory K V) :
    Option (Memory K V) := do
  let b ← setContains h x m
  if b then
    pure m
  else
    let (removed, added) ← forceTopSet h m
    let c :=
      if x ∈ removed then Chunk.setChunk (K := K) (V := V) (removed.erase x) added
      else Chunk.setChunk removed (added ++ [x])
    pure (updateTop (storeChunk h c) m)

/-- `TransactionalSet.discard`. -/
def setDiscard {K V : Type} [DecidableEq K] (h : Nat) (x : K) (m : Memory K V) :
    Option (Memory K V) := do
  let b ← setContains h x m
  if !b then
    pure m
  else
    let (removed, added) ← forceTopSet h m
    let c :=
      if x ∈ added then Chunk.setChunk (K := K) (V := V) removed (added.erase x)
      else Chunk.setChunk (removed ++ [x]) added
    pure (updateTop (storeChunk h c) m)

/-! ## TransactionalMapping -/

/-- Association-list lookup for `unique.get` / `overriding.get`. -/
def lookupPair {K V : Type} [DecidableEq K] (k : K) : List (K × V) → Option V
  | [] => none
  | (k', v) :: rest => if k' = k then some v else lookupPair k rest

/-- Association-list insert-or-replace for `d[k] = v` on a Python dict. -/
def insertPair {K V : Type} [DecidableEq K] (k : K) (v : V) :
    List (K × V) → List (K × V)
  | [] => [(k, v)]
  | (k', v') :: rest =>
      if k' = k then (k, v) :: rest else (k', v') :: insertPair k v rest

/-- Association-list delete for `del d[k]`. -/
def erasePair {K V : Type} [DecidableEq K] (k : K) :
    List (K × V) → List (K × V)
  | [] => []
  | (k', v') :: rest =>
      if k' = k then rest else (k', v') :: erasePair k rest

/-- `TransactionalMapping.__getitem__`: walk the chunks top-down, stop at a
`removed` hit (a `KeyError` in the source, hence `none`), return the first
`unique`/`overriding` hit. -/
def mapGetChunks {K V : Type} [DecidableEq K] (k : K) :
    List (Chunk K V) → Option V
  | [] => none
  | Chunk.mapChunk removed uniq overriding :: rest =>
      if k ∈ removed then none
      else
        match lookupPair k uniq with
        | some v => some v
        | none =>
          match lookupPair k overriding with
          | some v => some v
          | none => mapGetChunks k rest
  | _ => none

def mapGet {K V : Type} [DecidableEq K] (h : Nat) (k : K) (m : Memory K V) :
    Option V :=
  mapGetChunks k (getChunks h m)

/-- The mapping chunk of the top transaction, created empty if absent. -/
def forceTopMap {K V : Type} (h : Nat) (m : Memory K V) :
    Option (List K × List (K × V) × List (K × V)) :=
  match getTopChunk h m with
  | none => some ([], [], [])
  | some (Chunk.mapChunk removed uniq overriding) => some (removed, uniq, overriding)
  | some _ => none

/-- `TransactionalMapping.__setitem__`: the `chunk.removed.discard(k)`
mutation happens first, so the `k in self` test runs against the memory with
`k` already erased from the top chunk's `removed` set. -/
def mapPut {K V : Type} [DecidableEq K] (h : Nat) (k : K) (v : V)
    (m : Memory K V) : Option (Memory K V) := do
  let (removed, uniq, overriding) ← forceTopMap h m
  let removed := removed.erase k
  let m1 := updateTop (storeChunk h (Chunk.mapChunk removed uniq overriding)) m
  let present := (mapGet h k m1).isSome
  let c :=
    if present ∧ (lookupPair k uniq).isNone then
      Chunk.mapChunk removed uniq (insertPair k v overriding)
    else
      Chunk.mapChunk removed (insertPair k v uniq) overriding
  pure (updateTop (storeChunk h c) m)

/-- `TransactionalMapping.__delitem__`; deleting an absent key raises
(`none`). -/
def mapDel {K V : Type} [DecidableEq K] (h : Nat) (k : K) (m : Memory K V) :
    Option (Memory K V) := do
  let (removed, uniq, overriding) ← forceTopMap h m
  if (lookupPair k uniq).isSome then
    pure (updateTop (storeChunk h (Chunk.mapChunk (K := K) (V := V) removed (erasePair k uniq) overriding)) m)
  else if (mapGet h k m).isSome then
    let overriding := erasePair k overriding
    pure (updateTop (storeChunk h (Chunk.mapChunk (K := K) (V := V) (removed ++ [k]) uniq overriding)) m)
  else
    none

/-! ## Transactions: rollback, and op sequences -/

/-- `Transaction.rollback` for the transaction whose index in the stack is
`idx`: assert the index is in range, then truncate the stack at it. -/
def rollbackAt {K V : Type} (idx : Nat) (m : Memory K V) :
    Option (Memory K V) :=
  if idx < m.length then some (m.take idx) else none

/-- The operations a client may perform inside a transaction, per the claim:
set adds/discards, map writes/deletes, and beginning nested transactions. -/
inductive TOp (K V : Type) where
  | nestedBegin
  | opSetAdd (h : Nat) (x : K)
  | opSetDiscard (h : Nat) (x : K)
  | opMapPut (h : Nat) (k : K) (v : V)
  | opMapDel (h : Nat) (k : K)

def runOp {K V : Type} [DecidableEq K] (m : Memory K V) :
    TOp K V → Option (Memory K V)
  | TOp.nestedBegin => some (beginT m)
  | TOp.opSetAdd h x => setAdd h x m
  | TOp.opSetDiscard h x => setDiscard h x m
  | TOp.opMapPut h k v => mapPut h k v m
  | TOp.opMapDel h k => mapDel h k m

def runOps {K V : Type} [DecidableEq K] (ops : List (TOp K V)) (m : Memory K V) :
    Option (Memory K V) :=
  match ops with
  | [] => some m
  | op :: rest => do
      let m' ← runOp m op
      runOps rest m'

/-! # Expression kernel (src/smt/logic/symbols_base.py, builtin_symbols.py)

Expressions are hash-consed in the source: two expressions with equal symbol
and argument tuple are the same object, and equality is identity.  The shallow
embedding therefore represents an expression as a tree `Expr.node sym args`,
and Python object identity becomes structural equality.  Two deviations, both
documented where they matter:

* `WrapperSymbol` is not interned in the source (every construction is fresh),
  so two wrapper-headed expressions are never equal in Python.  The embedding
  gives wrapper symbols an `id` field; the claims below only quantify over
  wrapper-free expressions wherever equality of wrappers could be observed.
* `VariableSymbol` is not interned either; distinct variables of one sort are
  distinguished only by their creation serial, modelled as the `id` field.

The total order on interned objects is `(priority, class name, key, serial)`
(`smt/util/unique.py`).  For cached classes the key determines the object, so
the order is structural; the embedding's `cmpSym`/`cmpE` realise it with the
class-name comparisons resolved (alphabetical), and variable serials given by
`id`. -/

/-- The `Sort` enumeration of `symbols_base.py` (named `SSort` because `Sort`
is reserved in Lean). -/
inductive SSort where
  | unknown
  | bool
  | int
deriving DecidableEq, Repr

mutual
/-- The symbol variants that can label expression nodes (plus `impl`, which
never labels a node because `BooleanImplicationSymbol._binary_reduce` always
reduces, but which can sit inside a wrapper).  `MacroSymbol`,
`BooleanEqSymbol`, `BooleanXorSymbol` and `IntegerDiffSymbol` always reduce as
well and are not needed by any claim, so they are omitted. -/
inductive Sym where
  | negator (s : SSort)
  | boolConst (b : Bool)
  | intConst (n : Int)
  | varSym (s : SSort) (id : Nat)
  | tseitin (of : Expr)
  | fnSym (s : SSort) (argSorts : List SSort) (id : Nat)
  | conn (neutral : Bool)
  | impl
  | intEq
  | sum
  | wrapper (inner : Option Sym) (id : Nat)

/-- An expression node `(symbol, args)` (`_ExprImpl`). -/
inductive Expr where
  | node (sym : Sym) (args : List Expr)
end

mutual
/-- `Symbol.sort` for each variant. -/
def symSort : Sym → SSort
  | Sym.negator s => s
  | Sym.boolConst _ => SSort.bool
  | Sym.intConst _ => SSort.int
  | Sym.varSym s _ => s
  | Sym.tseitin _ => SSort.bool
  | Sym.fnSym s _ _ => s
  | Sym.conn _ => SSort.bool
  | Sym.impl => SSort.bool
  | Sym.intEq => SSort.bool
  | Sym.sum => SSort.int
  | Sym.wrapper inner _ => wrapSort inner

def wrapSort : Option Sym → SSort
  | none => SSort.unknown
  | some s => symSort s
end

/-- The sort of an expression (the sort of its head symbol). -/
def sortOf : Expr → SSort
  | Expr.node s _ => symSort s

/-- `WrapperSymbol` is the only symbol that is not a `ValencySymbol`. -/
def isValencySym : Sym → Bool
  | Sym.wrapper _ _ => false
  | _ => true

mutual
/-- `Expr.has_wrappers`: the node is wrapper-headed or some argument is
tainted (precomputed in `_ExprImpl.__init__`). -/
def hasWrappers : Expr → Bool
  | Expr.node s args => !isValencySym s || anyWrappers args

def anyWrappers : List Expr → Bool
  | [] => false
  | e :: rest => hasWrappers e || anyWrappers rest
end

/-! ## The total order on expressions -/

/-- Numeric priority of a symbol class (`Unique.priority` decorations):
negator 0; const symbols 1; variable and Tseitin symbols 2; functions 3;
everything else the default 1000. -/
def symPrio : Sym → Nat
  | Sym.negator _ => 0
  | Sym.boolConst _ => 1
  | Sym.intConst _ => 1
  | Sym.varSym _ _ => 2
  | Sym.tseitin _ => 2
  | Sym.fnSym _ _ _ => 3
  | _ => 1000

/-- Tie-break inside one priority level: the alphabetical order of the Python
class names (e.g. `BooleanConstSymbol < IntegerConstSymbol`,
`TseitinVarSymbol < VariableSymbol`, `BooleanConnectiveSymbol <
BooleanImplicationSymbol < IntegerEqSymbol < IntegerSumSymbol <
WrapperSymbol`). -/
def symClassIdx : Sym → Nat
  | Sym.negator _ => 0
  | Sym.boolConst _ => 0
  | Sym.intConst _ => 1
  | Sym.tseitin _ => 0
  | Sym.varSym _ _ => 1
  | Sym.fnSym _ _ _ => 0
  | Sym.conn _ => 0
  | Sym.impl => 1
  | Sym.intEq => 2
  | Sym.sum => 3
  | Sym.wrapper _ _ => 4

def cmpNat (a b : Nat) : Ordering := compare a b

def cmpBool : Bool → Bool → Ordering
  | false, false => Ordering.eq
  | false, true => Ordering.lt
  | true, false => Ordering.gt
  | true, true => Ordering.eq

def cmpSSort (a b : SSort) : Ordering :=
  let idx : SSort → Nat
    | SSort.unknown => 0
    | SSort.bool => 1
    | SSort.int => 2
  cmpNat (idx a) (idx b)

def cmpSSortList : List SSort → List SSort → Ordering
  | [], [] => Ordering.eq
  | [], _ :: _ => Ordering.lt
  | _ :: _, [] => Ordering.gt
  | a :: as', b :: bs' => (cmpSSort a b).then (cmpSSortList as' bs')

mutual
/-- Comparison of symbols following `(priority, class name, key, serial)`:
the priority and the alphabetical class index first, then — for two symbols
of the same class — the constructor key. -/
def cmpSym (a b : Sym) : Ordering :=
  (cmpNat (symPrio a) (symPrio b)).then <|
    (cmpNat (symClassIdx a) (symClassIdx b)).then <|
      match a, b with
      | Sym.negator s, Sym.negator t => cmpSSort s t
      | Sym.boolConst x, Sym.boolConst y => cmpBool x y
      | Sym.intConst x, Sym.intConst y => compare x y
      | Sym.varSym s i, Sym.varSym t j => (cmpSSort s t).then (cmpNat i j)
      | Sym.tseitin e, Sym.tseitin f => cmpE e f
      | Sym.fnSym s xs i, Sym.fnSym t ys j =>
          (cmpSSort s t).then <| (cmpSSortList xs ys).then (cmpNat i j)
      | Sym.conn x, Sym.conn y => cmpBool x y
      | Sym.impl, Sym.impl => Ordering.eq
      | Sym.intEq, Sym.intEq => Ordering.eq
      | Sym.sum, Sym.sum => Ordering.eq
      | Sym.wrapper oa i, Sym.wrapper ob j =>
          (cmpOptSym oa ob).then (cmpNat i j)
      | _, _ => Ordering.eq
termination_by structural a

def cmpOptSym : Option Sym → Option Sym → Ordering
  | none, none => Ordering.eq
  | none, some _ => Ordering.lt
  | some _, none => Ordering.gt
  | some a, some b => cmpSym a b

/-- Comparison of expressions: every expression is an `_ExprImpl` (priority
1000), so the comparison goes straight to the key `(symbol, args)`. -/
def cmpE : Expr → Expr → Ordering
  | Expr.node s as', Expr.node t bs' => (cmpSym s t).then (cmpEList as' bs')

def cmpEList : List Expr → List Expr → Ordering
  | [], [] => Ordering.eq
  | [], _ :: _ => Ordering.lt
  | _ :: _, [] => Ordering.gt
  | a :: as', b :: bs' => (cmpE a b).then (cmpEList as' bs')
end

/-- `a < b` in the expression order. -/
def ltE (a b : Expr) : Bool := cmpE a b == Ordering.lt

/-- `a ≤ b` in the expression order. -/
def leE (a b : Expr) : Bool := cmpE a b != Ordering.gt

/-- Insert into a `leE`-sorted list (Python's `sorted` produces the unique
ascending arrangement; elements compared equal are identical objects). -/
def insE (x : Expr) : List Expr → List Expr
  | [] => [x]
  | y :: rest => if leE x y then x :: y :: rest else y :: insE x rest

/-- `sorted(...)` on expressions. -/
def sortE : List Expr → List Expr
  | [] => []
  | x :: rest => insE x (sortE rest)

/-! ## Negation

Every `_ExprImpl` stores a pre-materialized `negated` field computed at
construction as `NegatorSymbol(sort).apply(self)`.  On the expressions the
kernel actually builds, that computation is structural: `¬¬a → a`, constants
flip, `¬and(xs) → or(¬xs)`, `¬or(xs) → and(¬xs)`, `¬sum(xs) → sum(¬xs)` (with
the connective/sum case re-sorted, and — by the duality of the reduction rules,
proved below as `connReduce_dual_normal` — no further reduction fires), and
everything else is wrapped in a fresh `Negator` node.  `negateE` is that
structural computation; the agreement with the `apply`-based field on
canonical expressions is stated by `negated_matches_apply` below. -/

mutual
def negateE : Expr → Expr
  | Expr.node (Sym.negator _) (a :: _) => a
  | Expr.node (Sym.boolConst b) _ => Expr.node (Sym.boolConst !b) []
  | Expr.node (Sym.intConst n) _ => Expr.node (Sym.intConst (-n)) []
  | Expr.node (Sym.conn ne) args => Expr.node (Sym.conn !ne) (sortE (negList args))
  | Expr.node Sym.sum args => Expr.node Sym.sum (sortE (negList args))
  | e => Expr.node (Sym.negator (sortOf e)) [e]

def negList : List Expr → List Expr
  | [] => []
  | e :: rest => negateE e :: negList rest
end

/-- The interned boolean constants. -/
def boolE (b : Bool) : Expr := Expr.node (Sym.boolConst b) []

/-- The interned integer constants. -/
def intE (n : Int) : Expr := Expr.node (Sym.intConst n) []

/-! ## Equality helpers

Object identity of the source is structural equality of the embedding; all
definitions use the boolean test `beqE` derived from the comparison (the
`DecidableEq` instance is provided with the lemmas, after `cmpE_eq_iff`). -/

def beqE (a b : Expr) : Bool := cmpE a b == Ordering.eq

def beqSym (a b : Sym) : Bool := cmpSym a b == Ordering.eq

def memE (x : Expr) (l : List Expr) : Bool := l.any (beqE x)

/-- `set(...)` on expressions: deduplicate, keeping first occurrences.  CPython
set iteration order (hash order) is not modellable; argument order stands in
for it.  None of the claims depends on this order. -/
def dedupAux : List Expr → List Expr → List Expr
  | _, [] => []
  | seen, e :: rest =>
    if memE e seen then dedupAux seen rest
    else e :: dedupAux (seen ++ [e]) rest

def dedupE (l : List Expr) : List Expr := dedupAux [] l

def subsetE (l1 l2 : List Expr) : Bool := l1.all (fun y => memE y l2)

def headSym : Expr → Sym
  | Expr.node s _ => s

def headConn : Expr → Option Bool
  | Expr.node (Sym.conn ne) _ => some ne
  | _ => none

/-- `MultiaryValencyMixin` + `ValencyTrait.check_args` for a homogeneous
argument sort: at least one argument, and every argument's sort is the
expected one or `UNKNOWN` (unknown-sorted arguments always pass the check). -/
def sortOkFor (argSort : SSort) (e : Expr) : Bool :=
  sortOf e = argSort || sortOf e = SSort.unknown

def checkMultiary (argSort : SSort) (args : List Expr) : Bool :=
  !args.isEmpty && args.all (sortOkFor argSort)

/-- The homogeneous argument sort of an AC symbol. -/
def acArgSort : Sym → SSort
  | Sym.conn _ => SSort.bool
  | s => symSort s

/-- `IntegerSumSymbol._binary_reduce`: `a + (−a) → 0`, `0 + b → b`, constant
folding. -/
def binReduceSum (a b : Expr) : Option Expr :=
  if beqE a (negateE b) then some (intE 0)
  else if beqE a (intE 0) then some b
  else
    match a, b with
    | Expr.node (Sym.intConst x) _, Expr.node (Sym.intConst y) _ => some (intE (x + y))
    | _, _ => none

/-- The `eqs` accumulator of `to_cnf` is a Python `set`; modelled as an
insertion-ordered duplicate-free list. -/
def addEq (l : List Expr) (e : Expr) : List Expr := if memE e l then l else l ++ [e]

def addEqs (l : List Expr) (es : List Expr) : List Expr := es.foldl addEq l

/-- `second_list[i] = second_list[-1]; second_list.pop()`. -/
def swapPopAt (i : Nat) (l : List Nat) : List Nat :=
  match l.getLast? with
  | none => l
  | some last => (l.set i last).dropLast

/-! ## `AssociativeCommutativeSymbol._reduce`

The reduction loop of `symbols_base.py:383-428`, fuelled.  `index_to_expr` is
the append-only list `exprs`; the Python sets of small integer indices (`res`,
`first`, `second`, `created`) iterate in ascending order in CPython, which the
embedding realises by keeping them as ascending lists.  The task worklist is a
stack (`tasks.pop()` takes the most recently pushed pair). -/

/-- `flatten(*es)`: spill nested applications of the same AC symbol, assign
fresh indices to everything else.  `stack` holds the pending expressions with
the next one to pop at the head (the source pops from the end of its list, so
callers pass the reversed argument order). -/
def flattenF : Nat → Sym → List Expr → List Expr → List Nat →
    Option (List Expr × List Nat)
  | 0, _, _, _, _ => none
  | n + 1, acs, stack, exprs, dest =>
    match stack with
    | [] => some (exprs, dest)
    | e :: rest =>
      match e with
      | Expr.node s args =>
        if beqSym s acs then
          flattenF n acs (args.reverse ++ rest) exprs dest
        else
          flattenF n acs rest (exprs ++ [e]) (dest ++ [exprs.length])

mutual

/-- `ValencySymbol.apply` for an AC symbol: sort check (failure produces a
wrapper-headed node marking the result tainted), then the reduction.  The
application cache of the source only ever stores and returns results equal to
a recomputation, so it is transparent and not modelled. -/
def applyAcF : Nat → Sym → List Expr → Option Expr
  | 0, _, _ => none
  | n + 1, acs, args =>
    if checkMultiary (acArgSort acs) args then reduceAcF n acs args
    else some (Expr.node (Sym.wrapper (some acs) 0) args)

/-- `AssociativeCommutativeSymbol._reduce`. -/
def reduceAcF : Nat → Sym → List Expr → Option Expr
  | 0, _, _ => none
  | n + 1, acs, args => do
    let (exprs, res) ← flattenF n acs args.reverse [] []
    let (exprs, res) ← acTasksF n acs exprs res [(res, res)]
    let newArgs := sortE (res.filterMap (fun i => exprs.get? i))
    match newArgs with
    | [e] => if isValencySym (headSym e) then pure e else pure (Expr.node acs newArgs)
    | _ => pure (Expr.node acs newArgs)

/-- The `while len(tasks) > 0` worklist loop. -/
def acTasksF : Nat → Sym → List Expr → List Nat →
    List (List Nat × List Nat) → Option (List Expr × List Nat)
  | 0, _, _, _, _ => none
  | n + 1, acs, exprs, res, tasks =>
    match tasks with
    | [] => some (exprs, res)
    | (first, second) :: tasks' => do
      let secondL := second.filter (fun i => i ∈ res)
      let (exprs, res, _, created) ← acFirstF n acs first secondL exprs res []
      if created.isEmpty then
        acTasksF n acs exprs res tasks'
      else
        acTasksF n acs exprs (res ++ created)
          ((created, created) :: (created, res) :: (res, created) :: tasks')

/-- The `for a in first` loop of one task. -/
def acFirstF : Nat → Sym → List Nat → List Nat → List Expr → List Nat →
    List Nat → Option (List Expr × List Nat × List Nat × List Nat)
  | 0, _, _, _, _, _, _ => none
  | n + 1, acs, first, secondL, exprs, res, created =>
    match first with
    | [] => some (exprs, res, secondL, created)
    | a :: first' =>
      if a ∈ res then do
        let (exprs, res, secondL, created, _) ← acInnerF n acs a 0 secondL exprs res created
        acFirstF n acs first' secondL exprs res created
      else
        acFirstF n acs first' secondL exprs res created

/-- The `for i in range(len(second_list))` loop: try `_binary_reduce` on
`(exprs[a], exprs[b])`; on success remove both indices from `res`, flatten the
result into `created`, swap-pop the candidate list and stop (`break`). -/
def acInnerF : Nat → Sym → Nat → Nat → List Nat → List Expr → List Nat →
    List Nat → Option (List Expr × List Nat × List Nat × List Nat × Bool)
  | 0, _, _, _, _, _, _, _ => none
  | n + 1, acs, a, i, secondL, exprs, res, created =>
    match secondL.get? i with
    | none => some (exprs, res, secondL, created, false)
    | some b =>
      if a ≠ b ∧ b ∈ res then do
        let ea ← exprs.get? a
        let eb ← exprs.get? b
        let c? ← acBinF n acs ea eb
        match c? with
        | none => acInnerF n acs a (i + 1) secondL exprs res created
        | some c => do
          let res := (res.erase a).erase b
          let (exprs, created) ← flattenF n acs [c] exprs created
          some (exprs, res, swapPopAt i secondL, created, true)
      else
        acInnerF n acs a (i + 1) secondL exprs res created

/-- `_binary_reduce` dispatch on the AC symbol. -/
def acBinF : Nat → Sym → Expr → Expr → Option (Option Expr)
  | 0, _, _, _ => none
  | n + 1, acs, a, b =>
    match acs with
    | Sym.conn ne => connBinF n ne a b
    | Sym.sum => some (binReduceSum a b)
    | _ => some none

/-- `BooleanConnectiveSymbol._binary_reduce` for the connective with neutral
element `ne` (`and` when `ne = true`, `or` when `ne = false`): idempotence,
complement to the dominator, neutral elimination, domination, then the
opposite-connective block (argument-removal, subset absorption, consensus
cancellation).  `π.negated` field reads are `negateE`. -/
def connBinF : Nat → Bool → Expr → Expr → Option (Option Expr)
  | 0, _, _, _ => none
  | n + 1, ne, a, b =>
    if beqE a b then some (some a)
    else if beqE a (negateE b) then some (some (boolE (!ne)))
    else if beqE a (boolE ne) then some (some b)
    else if beqE a (boolE (!ne)) then some (some a)
    else
      match b with
      | Expr.node (Sym.conn ne') bargs =>
        if ne' = !ne then
          let bSet := dedupE bargs
          if memE (negateE a) bSet then do
            let r ← applyAcF n (Sym.conn ne)
              (a :: bSet.filter (fun y => !(beqE y (negateE a))))
            some (some r)
          else
            let aSet :=
              match a with
              | Expr.node (Sym.conn ne'') aargs =>
                if ne'' = !ne then dedupE aargs else [a]
              | _ => [a]
            if subsetE aSet bSet then some (some a)
            else
              let common := aSet.filter (fun y => memE y bSet)
              if common.isEmpty then some none
              else do
                let ra ← applyAcF n (Sym.conn (!ne)) (aSet.filter (fun y => !(memE y bSet)))
                let rb ← applyAcF n (Sym.conn (!ne)) (bSet.filter (fun y => !(memE y aSet)))
                if beqE ra (negateE rb) then do
                  let rc ← applyAcF n (Sym.conn (!ne)) common
                  some (some rc)
                else some none
        else some none
      | _ => some none

end

/-- `NegatorSymbol(sort).apply`: unary sort check, then `_unary_reduce`,
which dispatches to the argument symbol's `_negate` and falls back to a fresh
`Negator` node.  The `_negate` of a connective or sum applies the opposite
symbol to the stored negations of the arguments. -/
def negatorApplyF : Nat → SSort → List Expr → Option Expr
  | 0, _, _ => none
  | n + 1, s, args =>
    match args with
    | [a] =>
      if sortOkFor s a then
        match a with
        | Expr.node (Sym.negator _) xs =>
          match xs with
          | [x] => some x
          | _ => none
        | Expr.node (Sym.boolConst b) xs =>
          if xs.isEmpty then some (boolE (!b)) else none
        | Expr.node (Sym.intConst m) xs =>
          if xs.isEmpty then some (intE (-m)) else none
        | Expr.node (Sym.conn ne) xs => applyAcF n (Sym.conn (!ne)) (negList xs)
        | Expr.node Sym.sum xs => applyAcF n Sym.sum (negList xs)
        | Expr.node (Sym.wrapper _ _) _ => some (Expr.node (Sym.negator s) [a])
        | _ => some (Expr.node (Sym.negator s) [a])
      else some (Expr.node (Sym.wrapper (some (Sym.negator s)) 0) args)
    | _ => some (Expr.node (Sym.wrapper (some (Sym.negator s)) 0) args)

/-- `boolean_implies`: binary boolean sort check, then the reduction
`or(¬a, b)`. -/
def impliesF : Nat → Expr → Expr → Option Expr
  | 0, _, _ => none
  | n + 1, a, b =>
    if sortOkFor SSort.bool a && sortOkFor SSort.bool b then
      applyAcF n (Sym.conn false) [negateE a, b]
    else some (Expr.node (Sym.wrapper (some Sym.impl) 0) [a, b])

/-- `e.symbol.apply(*args)` for the symbols a rebuilt node can be headed by.
`IntegerEqSymbol._reduce` returns `None` on its own normal forms (sorted,
deduplicated arguments without shared summands), which are the only
integer-equality nodes that ever exist, so rebuilding an `intEq` node with
unchanged canonical arguments is the node itself. -/
def applySymF : Nat → Sym → List Expr → Option Expr
  | 0, _, _ => none
  | n + 1, s, args =>
    match s with
    | Sym.conn _ => applyAcF n s args
    | Sym.sum => applyAcF n s args
    | Sym.negator t => negatorApplyF n t args
    | Sym.impl =>
      match args with
      | [a, b] => impliesF n a b
      | _ => some (Expr.node (Sym.wrapper (some Sym.impl) 0) args)
    | Sym.boolConst b =>
      if args.isEmpty then some (boolE b)
      else some (Expr.node (Sym.wrapper (some s) 0) args)
    | Sym.intConst m =>
      if args.isEmpty then some (intE m)
      else some (Expr.node (Sym.wrapper (some s) 0) args)
    | Sym.varSym _ _ =>
      if args.isEmpty then some (Expr.node s [])
      else some (Expr.node (Sym.wrapper (some s) 0) args)
    | Sym.tseitin _ =>
      if args.isEmpty then some (Expr.node s [])
      else some (Expr.node (Sym.wrapper (some s) 0) args)
    | Sym.fnSym _ argSorts _ =>
      if args.length = argSorts.length
          && (List.zip argSorts args).all (fun p => sortOkFor p.1 p.2) then
        some (Expr.node s args)
      else some (Expr.node (Sym.wrapper (some s) 0) args)
    | Sym.intEq =>
      if checkMultiary SSort.int args then some (Expr.node s args)
      else some (Expr.node (Sym.wrapper (some s) 0) args)
    | Sym.wrapper _ _ => some (Expr.node s args)

/-! ## `to_cnf` (builtin_symbols.py:201-218)

`bottom_up_transform` memoizes per distinct subexpression; on the tree
representation the memoization is transparent (the same subtree transforms to
the same result, and the `eqs` set deduplicates the repeated definitional
clauses), so the embedding is the plain structural fold. -/

mutual

/-- The `transform` closure of `to_cnf`: rebuild the node on transformed
children; if the rebuilt node is a connective application and the original
subexpression is not the top one, replace it by its Tseitin variable and
record the definitional clauses. -/
def tfF : Nat → Expr → Expr → Option (Expr × List Expr)
  | 0, _, _ => none
  | n + 1, top, e =>
    match e with
    | Expr.node s args => do
      let (args', eqs) ← tfListF n top args
      if isValencySym s then do
        let w ← applySymF n s args'
        match headConn w with
        | some ne' =>
          if !(beqE e top) then do
            let wv := Expr.node (Sym.tseitin w) []
            if ne' then do
              let conj ← applyAcF n (Sym.conn true) args'
              let e1 ← impliesF n conj wv
              let rest ← impListF n wv args' true
              pure (wv, addEqs eqs (e1 :: rest))
            else do
              let disj ← applyAcF n (Sym.conn false) args'
              let e1 ← impliesF n wv disj
              let rest ← impListF n wv args' false
              pure (wv, addEqs eqs (e1 :: rest))
          else pure (w, eqs)
        | none => pure (w, eqs)
      else pure (Expr.node s args', eqs)

/-- The per-argument definitional clauses: `implies(w, π)` for `and`
(`toArg = true`), `implies(π, w)` for `or`. -/
def impListF : Nat → Expr → List Expr → Bool → Option (List Expr)
  | 0, _, _, _ => none
  | _ + 1, _, [], _ => some []
  | n + 1, wv, e :: rest, toArg => do
    let h ← if toArg then impliesF n wv e else impliesF n e wv
    let t ← impListF n wv rest toArg
    pure (h :: t)

def tfListF : Nat → Expr → List Expr → Option (List Expr × List Expr)
  | 0, _, _ => none
  | _ + 1, _, [] => some ([], [])
  | n + 1, top, e :: rest => do
    let (e', eqs1) ← tfF n top e
    let (rest', eqs2) ← tfListF n top rest
    pure (e' :: rest', addEqs eqs1 eqs2)

end

/-- `to_cnf(expr)`: assert the input is boolean, transform bottom-up, and
return `and(transformed_top, *eqs)`. -/
def toCnfF (n : Nat) (e : Expr) : Option Expr :=
  if sortOf e = SSort.bool then do
    let (t, eqs) ← tfF n e e
    applyAcF n (Sym.conn true) (t :: eqs)
  else none

/-! ## Concrete expression builders used by the statements -/

/-- A boolean variable (`VariableSymbol(BOOLEAN, name)` with serial `i`). -/
def varB (i : Nat) : Expr := Expr.node (Sym.varSym SSort.bool i) []

/-- The negation node of a boolean atom. -/
def negE (e : Expr) : Expr := Expr.node (Sym.negator SSort.bool) [e]

/-- An `and`-headed node with the given argument tuple. -/
def andE (args : List Expr) : Expr := Expr.node (Sym.conn true) args

/-- An `or`-headed node with the given argument tuple. -/
def orE (args : List Expr) : Expr := Expr.node (Sym.conn false) args

/-! # The CDCL engine (src/smt/logic/dpll.py)

Shallow embedding of the SAT core.  A `Literal` of the source is an interned
object determined by its boolean expression; each expression/negation pair
shares one `LiteralPos` cell (keyed by the smaller of the two expressions in
the total order).  `Lit pid pos` stands for the literal of pair `pid`, with
`pos = true` for the pair's plain (non-negator) expression and `pos = false`
for its negation; pair ids are assigned in ascending expression order of the
plain forms (equivalently of the negated forms, since `Negator` nodes compare
by their single argument once their equal head symbols cancel).  The sentinel
literal `Literal(mem, boolean(False))` is pair `0` with `pos = true`; its
pair behaves differently under the order (constant symbols have `Unique`
priority 1, negators 0), but the sentinel never enters a clause, so the
solver theorems assume every formula pair id is positive — the source's own
open `TODO: what if formula contains False?`.

Transactional cells never roll back during `solve` (no transaction is ever
begun there), so they embed as plain state fields.  Python `assert` failures
and raised `IndexError`s are `none`. -/

structure Lit where
  pid : Nat
  pos : Bool
deriving DecidableEq

def Lit.negated (l : Lit) : Lit := ⟨l.pid, !l.pos⟩

/-- The sentinel `Literal(mem, boolean(False))`. -/
def sentinelLit : Lit := ⟨0, true⟩

/-- The `Unique` total order restricted to literals.  Literal objects compare
by their expressions, and expressions compare head symbol first: a negated
literal is a `Negator` node (`Unique` priority 0) while a plain literal is a
variable or Tseitin atom (priority 2), so EVERY negated literal precedes
every plain one; two literals of equal polarity compare by their underlying
atoms, i.e. by pair id. -/
def ltLit (a b : Lit) : Bool :=
  (!a.pos && b.pos) || (a.pos == b.pos && a.pid < b.pid)

def leLit (a b : Lit) : Bool := ltLit a b || a == b

/-- Insertion into a `sorted(...)`-ascending list of literals. -/
def insLit (x : Lit) : List Lit → List Lit
  | [] => [x]
  | y :: rest => if leLit x y then x :: y :: rest else y :: insLit x rest

/-- Python's `sorted` on literals. -/
def sortLit : List Lit → List Lit
  | [] => []
  | x :: rest => insLit x (sortLit rest)

/-- The shared `LiteralPos` cell of one expression/negation pair:
`index`, `link` and `antecedent` (an antecedent is a clause id). -/
structure PairSt where
  index : Nat
  link : Lit
  antecedent : Option Nat
deriving DecidableEq

/-- A clause record: the sorted literal tuple and the two watched literals
(`__a.literal.value` and `__b.literal.value`).  For a singleton clause the
two `Watch` objects of the source are the same object; `wb` mirrors `wa` and
is never written. -/
structure Clause where
  lits : List Lit
  wa : Lit
  wb : Lit
deriving DecidableEq

def Clause.single (c : Clause) : Bool := c.lits.length == 1

/-- The whole solver state: the clause store (interned; a clause id is its
index), the learnt-clause ids, the per-pair cells, the per-literal watch
lists (a watch is `(clause id, master flag)`), and the `Assignment` fields
`literals` (the trail vector, position 0 the sentinel), `border`,
`top_decision` and the scan cursor `(i, j)`. -/
structure Model where
  clauses : List Clause
  learnt : List Nat
  pairs : Nat → PairSt
  watches : Lit → List (Nat × Bool)
  literals : List Lit
  border : Nat
  topDecision : Lit
  i : Nat
  j : Nat

/-- `Assignment.__getitem__`: the stored literal of the pair's trail position
decides the value; a failing assert (index out of range, or a foreign literal
stored at the position) is a crash.  Note the code returns **true** exactly
when the stored literal is `lit.negated`. -/
def getA (st : Model) (l : Lit) : Option (Option Bool) :=
  let idx := (st.pairs l.pid).index
  match st.literals.get? idx with
  | none => none
  | some stored =>
    if 0 < idx ∧ (stored = l ∨ stored = l.negated) then
      some (if idx < st.border then some (stored == l.negated) else none)
    else none

/-- Intern lookup: the index of the clause whose sorted tuple is `key`. -/
def findClause (cs : List Clause) (key : List Lit) : Option Nat :=
  match cs.findIdx? (fun c => c.lits == key) with
  | some i => some i
  | none => none

/-- Append a watch reference to one literal's watch list. -/
def addWatch (w : Lit → List (Nat × Bool)) (v : Lit) (r : Nat × Bool) :
    Lit → List (Nat × Bool) :=
  fun u => if u = v then w u ++ [r] else w u

/-- `Clause(mem, *literals)`: interning keyed on the sorted tuple; a fresh
clause stores the sorted tuple but hangs its watches on the **original**
first and second arguments.  An empty argument tuple raises `IndexError`. -/
def mkClause (st : Model) (args : List Lit) : Option (Nat × Model) :=
  let key := sortLit args
  match findClause st.clauses key with
  | some cid => some (cid, st)
  | none =>
    match args with
    | [] => none
    | [a] =>
      let cid := st.clauses.length
      some (cid,
        { st with
          clauses := st.clauses ++ [⟨key, a, a⟩],
          watches := addWatch st.watches a (cid, true) })
    | a :: b :: _ =>
      let cid := st.clauses.length
      some (cid,
        { st with
          clauses := st.clauses ++ [⟨key, a, b⟩],
          watches := addWatch (addWatch st.watches a (cid, true)) b (cid, false) })

/-- One watched literal of a clause (`master = true` for `__a`). -/
def watchLit (c : Clause) (master : Bool) : Lit :=
  if master then c.wa else c.wb

/-- `Clause.is_conflict` (with the source's short-circuit evaluation of the
second lookup). -/
def isConflict (st : Model) (c : Clause) : Option Bool := do
  let pa ← getA st c.wa
  if pa = some false then do
    let qa ← getA st c.wb
    pure (qa = some false)
  else pure false

/-- `Clause.derive`. -/
def derive (st : Model) (c : Clause) : Option (Option Lit) := do
  let pa ← getA st c.wa
  let qa ← getA st c.wb
  if (pa = some false ∨ c.wa = c.wb) ∧ qa = none then pure (some c.wb)
  else if qa = some false ∧ pa = none then pure (some c.wa)
  else pure none

/-- The scan of `Watch.update`: the first clause literal that is not the
neighbour's value and not assigned false. -/
def findMove (st : Model) (nb : Lit) : List Lit → Option (Option Lit)
  | [] => some none
  | l :: rest =>
    if l = nb then findMove st nb rest
    else do
      let v ← getA st l
      if v ≠ some false then some (some l) else findMove st nb rest

/-- `Watch.update` for the watch `(cid, master)`: assert the watched literal
is false, then move the watch to a movable literal if any.  Returns the
literal the watch moved to. -/
def watchUpdate (st : Model) (cid : Nat) (master : Bool) :
    Option (Option Lit × Model) := do
  let c ← st.clauses.get? cid
  let wl := watchLit c master
  let a ← getA st wl
  if a = some false then do
    let nb := watchLit c (if c.single then master else !master)
    match ← findMove st nb c.lits with
    | none => some (none, st)
    | some l =>
      let c' := if master then { c with wa := l } else { c with wb := l }
      some (some l, { st with clauses := st.clauses.set cid c' })
  else none

/-- `VectorBase.remove_by_pop`: swap in the last element, drop the tail;
out-of-range indices raise. -/
def removeByPop {A : Type} (i : Nat) (l : List A) : Option (List A) :=
  match l.getLast? with
  | none => none
  | some last => if i < l.length then some ((l.set i last).dropLast) else none

/-- `Assignment.get_suspicious_clause`: the resumable two-watch scan.  The
result is `none` for "no suspicious clause" and `some cid` for a clause whose
watch could not be moved. -/
def getSuspicious (st : Model) : Nat → Option (Option Nat × Model)
  | 0 => none
  | n + 1 =>
    if st.i = st.border then some (none, st)
    else do
      let lit ← st.literals.get? st.i
      let wlist := st.watches lit
      if st.j = wlist.length then
        getSuspicious { st with i := st.i + 1, j := 0 } n
      else do
        let w ← wlist.get? st.j
        let c ← st.clauses.get? w.1
        let wLitOld := watchLit c w.2
        let (moved, st') ← watchUpdate st w.1 w.2
        match moved with
        | none => some (some w.1, { st' with j := st'.j + 1 })
        | some newLit => do
          let plist ← removeByPop st'.j (st'.watches wLitOld)
          let st'' := { st' with
            watches := addWatch (fun u => if u = wLitOld then plist else st'.watches u)
              newLit (w.1, w.2) }
          getSuspicious st'' n

/-- `Assignment.__place_literal`. -/
def placeLit (st : Model) (lit : Lit) : Option Model := do
  let a ← getA st lit
  if a = none then
    let idx := (st.pairs lit.pid).index
    let st ←
      if idx ≠ st.border then do
        let borderLit ← st.literals.get? st.border
        pure { st with
          literals := st.literals.set idx borderLit,
          pairs := fun p =>
            if p = lit.pid then { st.pairs p with index := st.border }
            else if p = borderLit.pid then { st.pairs p with index := idx }
            else st.pairs p }
      else pure st
    if st.border < st.literals.length then
      some { st with
        literals := st.literals.set st.border lit,
        border := st.border + 1 }
    else none
  else none

/-- Overwrite one pair's cell. -/
def setPair (ps : Nat → PairSt) (p : Nat) (c : PairSt) : Nat → PairSt :=
  fun q => if q = p then c else ps q

/-- `Assignment.make_decision`. -/
def makeDecision (st : Model) (lit : Lit) : Option Model := do
  let st ← placeLit st lit
  let ps := setPair st.pairs lit.pid
    { st.pairs lit.pid with link := lit, antecedent := none }
  let ps := setPair ps st.topDecision.pid
    { ps st.topDecision.pid with link := lit }
  pure { st with pairs := ps, topDecision := lit }

/-- `Assignment.make_implication`. -/
def makeImplication (st : Model) (lit : Lit) (cid : Nat) : Option Model := do
  let st ← placeLit st lit
  pure { st with
    pairs := setPair st.pairs lit.pid
      { st.pairs lit.pid with link := st.topDecision, antecedent := some cid } }

/-- `Assignment.backtrack`. -/
def backtrack (st : Model) (lit : Lit) : Option Model := do
  let a ← getA st lit
  if a = some false ∧ (st.pairs lit.pid).antecedent = none then
    let idx := (st.pairs lit.pid).index
    let st := { st with
      border := idx,
      i := if idx ≤ st.i then idx else st.i,
      j := if idx ≤ st.i then 0 else st.j }
    let last ← st.literals.get? (idx - 1)
    let top := (st.pairs last.pid).link
    let top := if top = lit then last else top
    pure { st with
      pairs := setPair st.pairs top.pid { st.pairs top.pid with link := top },
      topDecision := top }
  else none

/-! ## `Assignment.analyze_conflict` -/

/-- `heappush(heap, -λ.index)` on the max-heap of trail indices, modelled as
a descending-sorted list (duplicates kept, as in a Python heap). -/
def heapPush (x : Nat) : List Nat → List Nat
  | [] => [x]
  | y :: rest => if y ≤ x then x :: y :: rest else y :: heapPush x rest

/-- The `push_literals` closure: push every unvisited literal of the clause
(skipping ones whose negation is visited), counting the ones at the top
decision level. -/
def pushLiterals (st : Model) (top : Lit) (cl : List Lit)
    (heap : List Nat) (visited : List Lit) (n : Int) :
    List Nat × List Lit × Int :=
  match cl with
  | [] => (heap, visited, n)
  | l :: rest =>
    if l ∈ visited ∨ l.negated ∈ visited then
      pushLiterals st top rest heap visited n
    else
      let heap := heapPush (st.pairs l.pid).index heap
      let n := if (st.pairs l.pid).link = top ∨ l = top then n + 1 else n
      pushLiterals st top rest heap (visited ++ [l]) n

/-- The main loop of `analyze_conflict`. -/
def analyzeLoop (st : Model) (top : Lit) :
    Nat → List Nat → List Lit → Int → List Lit → Option (List Lit)
  | 0, _, _, _, _ => none
  | _ + 1, [], _, _, res => some res
  | n + 1, idx :: heap, visited, count, res => do
    let lit ← st.literals.get? idx
    if (st.pairs lit.pid).link ≠ top ∨ count = 1 then
      analyzeLoop st top n heap visited count (res ++ [lit])
    else do
      let acid ← (st.pairs lit.pid).antecedent
      let c ← st.clauses.get? acid
      let (heap, visited, m) := pushLiterals st top c.lits heap visited 0
      analyzeLoop st top n heap visited (count + m - 1) res

/-- `Assignment.analyze_conflict` on a conflicting clause. -/
def analyzeConflict (st : Model) (cid : Nat) (fuel : Nat) :
    Option (List Lit) := do
  let c ← st.clauses.get? cid
  let conflict ← isConflict st c
  if conflict then
    let top := st.topDecision
    let (heap, visited, count) := pushLiterals st top c.lits [] [] 0
    analyzeLoop st top fuel heap visited count []
  else none

/-! ## `Model.solve` -/

inductive Status where
  | SAT
  | UNSAT
deriving DecidableEq

/-- One recorded `analyze_conflict` call: the solver state at the call, the
conflicting clause and the returned literal list. -/
structure AnalyzeRec where
  st : Model
  cid : Nat
  res : List Lit

/-- Insert into the learnt-clause set. -/
def addLearnt (l : List Nat) (c : Nat) : List Nat :=
  if c ∈ l then l else l ++ [c]

/-- `Model.solve`, both nested `while` loops flattened into one fueled
recursion; every `analyze_conflict` call is recorded on the returned trace.
`none` is a crash or fuel exhaustion — a run the source never completes. -/
def solveLoop (fuel : Nat) (st : Model) (trace : List AnalyzeRec) :
    Option (Status × Model × List AnalyzeRec) :=
  match fuel with
  | 0 => none
  | n + 1 => do
    let (sus, st) ← getSuspicious st (n + 1)
    match sus with
    | none =>
      if st.border = st.literals.length then some (Status.SAT, st, trace)
      else do
        let declit ← st.literals.get? st.border
        let st ← makeDecision st declit
        solveLoop n st trace
    | some cid => do
      let c ← st.clauses.get? cid
      let conflict ← isConflict st c
      if conflict then do
        let lits ← analyzeConflict st cid (n + 1)
        let trace := trace ++ [⟨st, cid, lits⟩]
        let x ← lits.get? 0
        if lits.length = 1 then
          if (st.pairs x.pid).link = sentinelLit then
            some (Status.UNSAT, st, trace)
          else do
            let blit := (st.pairs sentinelLit.pid).link
            let st ←
              if blit ≠ sentinelLit then backtrack st blit else pure st
            let (acid, st) ← mkClause st lits
            let st := { st with learnt := addLearnt st.learnt acid }
            let st ← makeImplication st x.negated acid
            solveLoop n st trace
        else do
          let y ← lits.get? 1
          let blit :=
            if (st.pairs y.pid).antecedent = none then (st.pairs y.pid).link
            else (st.pairs ((st.pairs y.pid).link).pid).link
          if blit = sentinelLit then none
          else do
            let st ← backtrack st blit
            let (acid, st) ← mkClause st lits
            let st := { st with learnt := addLearnt st.learnt acid }
            let st ← makeImplication st x.negated acid
            solveLoop n st trace
      else do
        match ← derive st c with
        | some z => do
          let st ← makeImplication st z.negated cid
          solveLoop n st trace
        | none => solveLoop n st trace

/-! ## `Model.__init__`: clause construction and the literal order -/

/-- The minimal form of a literal's pair (`lit if lit < lit.negated else
lit.negated`): the negator-headed form, since a `Negator` node precedes its
argument in the expression order. -/
def minForm (l : Lit) : Lit := ⟨l.pid, false⟩

/-- `Counter` update preserving first-insertion order. -/
def bumpCount (counts : List (Nat × Nat)) (p : Nat) : List (Nat × Nat) :=
  match counts with
  | [] => [(p, 1)]
  | (q, n) :: rest =>
    if q = p then (q, n + 1) :: rest else (q, n) :: bumpCount rest p

def countAll (counts : List (Nat × Nat)) : List (List Lit) → List (Nat × Nat)
  | [] => counts
  | cl :: rest => countAll (cl.foldl (fun cs l => bumpCount cs (minForm l).pid) counts) rest

/-- Stable descending insertion for `sorted(counter.items, key=-count)`. -/
def insByCount (x : Nat × Nat) : List (Nat × Nat) → List (Nat × Nat)
  | [] => [x]
  | y :: rest => if x.2 ≤ y.2 then y :: insByCount x rest else x :: y :: rest

def sortByCount : List (Nat × Nat) → List (Nat × Nat)
  | [] => []
  | x :: rest => insByCount x (sortByCount rest)

def foldClauses (st : Model) (cids : List Nat) :
    List (List Lit) → Option (List Nat × Model)
  | [] => some (cids, st)
  | cl :: rest => do
    let (cid, st) ← mkClause st cl
    foldClauses st (addLearnt cids cid) rest

/-- The solver state before any clause is added: empty store, all pair cells
at their `LiteralPos` defaults. -/
def emptyModel : Model :=
  { clauses := []
    learnt := []
    pairs := fun p => ⟨0, if p = 0 then sentinelLit else ⟨p, false⟩, none⟩
    watches := fun _ => []
    literals := []
    border := 0
    topDecision := sentinelLit
    i := 0
    j := 0 }

/-- Index the trail: pair `pid` placed at trail position `k`. -/
def indexTrail (ps : Nat → PairSt) : List Lit → Nat → Nat → PairSt
  | [], _, p => ps p
  | l :: rest, k, p =>
    indexTrail (fun q => if q = l.pid then { ps q with index := k } else ps q)
      rest (k + 1) p

/-- `Model.__init__` from the input CNF given as a list of literal clauses:
build (intern) the clauses, count the minimal forms, and lay the trail out in
stable descending count order after the sentinel.  Returns the ready state
and the set of input clause ids. -/
def mkModel (clausesIn : List (List Lit)) : Option (List Nat × Model) := do
  let (cids, st) ← foldClauses emptyModel [] clausesIn
  let order := (sortByCount (countAll [] clausesIn)).map (fun p => (⟨p.1, false⟩ : Lit))
  let trail := sentinelLit :: order
  pure (cids,
    { st with
      literals := trail
      pairs := indexTrail st.pairs trail 0
      border := 1
      topDecision := sentinelLit
      i := 1
      j := 0 })

/-- `Model.solve` from the input CNF. -/
def solveModel (clausesIn : List (List Lit)) (fuel : Nat) :
    Option (List Nat × Status × Model × List AnalyzeRec) := do
  let (cids, st) ← mkModel clausesIn
  let (status, st, trace) ← solveLoop fuel st []
  pure (cids, status, st, trace)

/-- A tiny concrete assignment state: the sentinel plus pair `1`, whose
minimal form is stored (assigned) at trail position 1. -/
def demoSt : Model :=
  { clauses := [], learnt := [],
    pairs := fun p => ⟨if p = 1 then 1 else 0, ⟨p, true⟩, none⟩,
    watches := fun _ => [], literals := [sentinelLit, ⟨1, true⟩],
    border := 2, topDecision := sentinelLit, i := 1, j := 0 }

/-! ## Canonical expressions

`canonE` is the statement-side characterization of the shapes the kernel's
`apply` actually produces and that the negation claims range over: constants
are leafless; a `Negator` node wraps a single non-constant, non-connective
atom of its own sort (`_unary_reduce` defers every other head to `_negate`);
a connective or sum node is flat (no argument with the same head), has at
least two arguments of the right sort, argument tuple sorted, and no argument
pair on which `_binary_reduce` fires — the reduction, run at fuel ample for
the pair (`pairFuel`), declines with `some none`.  This admits every exit of
the opposite-connective block, including the consensus failure on pairs with
a non-empty common argument set such as `and(or(A,B), or(A,C))`.  Because the
kernel interns each expression together with its pre-computed `negated` form,
the stored negations of the arguments of a kernel connective/sum node are
pairwise irreducible under the opposite symbol as well; `canonE` records that
too, which is what makes negation an involution on these shapes. -/

def atomHead : Sym → Bool
  | Sym.varSym _ _ => true
  | Sym.tseitin _ => true
  | Sym.fnSym _ _ _ => true
  | Sym.intEq => true
  | Sym.impl => true
  | Sym.wrapper _ _ => true
  | _ => false

def argsOf : Expr → List Expr
  | Expr.node _ args => args

mutual

def sizeE : Expr → Nat
  | Expr.node _ args => 1 + sizeList args

def sizeList : List Expr → Nat
  | [] => 0
  | e :: rest => sizeE e + sizeList rest

end

/-- Fuel ample for one `_binary_reduce` call on the pair, including the
recursive `apply` calls of the opposite-connective block. -/
def pairFuel (a b : Expr) : Nat := 3 * (sizeE a + sizeE b) + 30

/-- `_binary_reduce` declines on the pair: running the source's binary
reduction for the AC symbol at ample fuel returns `some none` (no
reduction). -/
def strongIrredAC (acs : Sym) (a b : Expr) : Bool :=
  match acBinF (pairFuel a b) acs a b with
  | some none => true
  | _ => false

/-- The `a_args` set of the opposite-connective block of `_binary_reduce`. -/
def aSetE (ne : Bool) (a : Expr) : List Expr :=
  match a with
  | Expr.node (Sym.conn ne2) aargs => if ne2 = !ne then dedupE aargs else [a]
  | _ => [a]

def chainLeE : List Expr → Bool
  | [] => true
  | [_] => true
  | a :: b :: rest => leE a b && chainLeE (b :: rest)

def pairwiseIrred (acs : Sym) : List Expr → Bool
  | [] => true
  | a :: rest =>
    rest.all (fun b => strongIrredAC acs a b && strongIrredAC acs b a) &&
    pairwiseIrred acs rest

def beqSSort (a b : SSort) : Bool := cmpSSort a b == Ordering.eq

mutual

def canonE : Expr → Bool
  | Expr.node (Sym.boolConst _) args => args.isEmpty
  | Expr.node (Sym.intConst _) args => args.isEmpty
  | Expr.node (Sym.negator s) args =>
    match args with
    | [x] => atomHead (headSym x) && beqSSort (sortOf x) s && canonE x
    | _ => false
  | Expr.node (Sym.conn ne) args =>
    decide (2 ≤ args.length) && canonList args &&
    args.all (fun a => beqSSort (sortOf a) SSort.bool && !(headConn a == some ne)) &&
    chainLeE args && pairwiseIrred (Sym.conn ne) args &&
    pairwiseIrred (Sym.conn !ne) (negList args)
  | Expr.node Sym.sum args =>
    decide (2 ≤ args.length) && canonList args &&
    args.all (fun a => beqSSort (sortOf a) SSort.int && !(beqSym (headSym a) Sym.sum)) &&
    chainLeE args && pairwiseIrred Sym.sum args &&
    pairwiseIrred Sym.sum (negList args)
  | Expr.node _ args => canonList args

def canonList : List Expr → Bool
  | [] => true
  | e :: rest => canonE e && canonList rest

end

/-- The pre-materialized `negated` field of `_ExprImpl`
(`symbols_base.py:167`): `NegatorSymbol(π.symbol.sort).apply(π)`, fuelled. -/
def negatedF (n : Nat) (e : Expr) : Option Expr := negatorApplyF n (sortOf e) [e]

/-- Fuel sufficient for one `negated` computation: the connective/sum cases
recurse into the AC reduction loop on the negated arguments, whose binary
reduction attempts need fuel bounded by the negated arguments' total size;
everything else is answered in one step. -/
def negFuel : Expr → Nat
  | Expr.node (Sym.conn _) args => 3 * args.length + 6 * sizeList (negList args) + 43
  | Expr.node Sym.sum args => 3 * args.length + 6 * sizeList (negList args) + 43
  | _ => 1

/-! # Lemmas: the expression order is a total order -/

theorem Ordering_then_eq_iff (o p : Ordering) :
    o.then p = Ordering.eq ↔ o = Ordering.eq ∧ p = Ordering.eq := by
  cases o <;> simp [Ordering.then]

theorem cmpNat_refl (a : Nat) : cmpNat a a = Ordering.eq := by
  simp [cmpNat, compare_eq_iff_eq]

theorem natCompare_refl (a : Nat) : compare a a = Ordering.eq := by
  simp [compare_eq_iff_eq]

theorem cmpNat_eq_iff (a b : Nat) : cmpNat a b = Ordering.eq ↔ a = b := by
  simp [cmpNat, compare_eq_iff_eq]

theorem cmpBool_eq_iff (a b : Bool) : cmpBool a b = Ordering.eq ↔ a = b := by
  cases a <;> cases b <;> simp [cmpBool]

theorem cmpInt_eq_iff (a b : Int) : compare a b = Ordering.eq ↔ a = b := by
  simp [compare_eq_iff_eq]

theorem cmpSSort_eq_iff (a b : SSort) : cmpSSort a b = Ordering.eq ↔ a = b := by
  cases a <;> cases b <;> simp [cmpSSort, cmpNat, compare_eq_iff_eq]

theorem cmpSSortList_eq_iff (a b : List SSort) :
    cmpSSortList a b = Ordering.eq ↔ a = b := by
  induction a generalizing b with
  | nil => cases b <;> simp [cmpSSortList]
  | cons x xs ih =>
    cases b with
    | nil => simp [cmpSSortList]
    | cons y ys =>
      simp [cmpSSortList, Ordering_then_eq_iff, cmpSSort_eq_iff, ih]

theorem Ordering_then_then_eq (o p q : Ordering)
    (h : (o.then (p.then q)) = Ordering.eq) :
    o = Ordering.eq ∧ p = Ordering.eq := by
  cases o <;> cases p <;> simp_all [Ordering.then]

theorem cmpSym_ne_of_key (a b : Sym)
    (h : ¬(symPrio a = symPrio b ∧ symClassIdx a = symClassIdx b)) :
    cmpSym a b ≠ Ordering.eq := by
  intro he
  rw [cmpSym.eq_def] at he
  obtain ⟨h1, h2⟩ := Ordering_then_then_eq _ _ _ he
  exact h ⟨(cmpNat_eq_iff _ _).1 h1, (cmpNat_eq_iff _ _).1 h2⟩

mutual

theorem cmpSym_eq_iff : ∀ a b : Sym, cmpSym a b = Ordering.eq ↔ a = b
  | Sym.negator s, Sym.negator t => by
    simp [cmpSym, symPrio, symClassIdx, cmpNat, natCompare_refl,
      Ordering.then, cmpSSort_eq_iff]
  | Sym.boolConst x, Sym.boolConst y => by
    simp [cmpSym, symPrio, symClassIdx, cmpNat, natCompare_refl,
      Ordering.then, cmpBool_eq_iff]
  | Sym.intConst x, Sym.intConst y => by
    simp [cmpSym, symPrio, symClassIdx, cmpNat, natCompare_refl,
      Ordering.then, cmpInt_eq_iff]
  | Sym.varSym s i, Sym.varSym t j => by
    simp [cmpSym, symPrio, symClassIdx, cmpNat, natCompare_refl,
      Ordering_then_eq_iff, cmpSSort_eq_iff, cmpNat_eq_iff, compare_eq_iff_eq]
  | Sym.tseitin e, Sym.tseitin f => by
    simp [cmpSym, symPrio, symClassIdx, cmpNat, natCompare_refl,
      Ordering.then, cmpE_eq_iff e f]
  | Sym.fnSym s xs i, Sym.fnSym t ys j => by
    simp [cmpSym, symPrio, symClassIdx, cmpNat, natCompare_refl,
      Ordering_then_eq_iff, cmpSSort_eq_iff, cmpSSortList_eq_iff, cmpNat_eq_iff, compare_eq_iff_eq]
  | Sym.conn x, Sym.conn y => by
    simp [cmpSym, symPrio, symClassIdx, cmpNat, natCompare_refl,
      Ordering.then, cmpBool_eq_iff]
  | Sym.impl, Sym.impl => by
    simp [cmpSym, symPrio, symClassIdx, cmpNat, natCompare_refl,
      Ordering.then]
  | Sym.intEq, Sym.intEq => by
    simp [cmpSym, symPrio, symClassIdx, cmpNat, natCompare_refl,
      Ordering.then]
  | Sym.sum, Sym.sum => by
    simp [cmpSym, symPrio, symClassIdx, cmpNat, natCompare_refl,
      Ordering.then]
  | Sym.wrapper oa i, Sym.wrapper ob j => by
    simp [cmpSym, symPrio, symClassIdx, cmpNat, natCompare_refl,
      Ordering_then_eq_iff, cmpOptSym_eq_iff oa ob, cmpNat_eq_iff, compare_eq_iff_eq]
  | Sym.negator _, Sym.boolConst _ => ⟨fun h => absurd h (cmpSym_ne_of_key _ _ (by simp [symPrio, symClassIdx])), fun h => Sym.noConfusion h⟩
  | Sym.negator _, Sym.intConst _ => ⟨fun h => absurd h (cmpSym_ne_of_key _ _ (by simp [symPrio, symClassIdx])), fun h => Sym.noConfusion h⟩
  | Sym.negator _, Sym.varSym _ _ => ⟨fun h => absurd h (cmpSym_ne_of_key _ _ (by simp [symPrio, symClassIdx])), fun h => Sym.noConfusion h⟩
  | Sym.negator _, Sym.tseitin _ => ⟨fun h => absurd h (cmpSym_ne_of_key _ _ (by simp [symPrio, symClassIdx])), fun h => Sym.noConfusion h⟩
  | Sym.negator _, Sym.fnSym _ _ _ => ⟨fun h => absurd h (cmpSym_ne_of_key _ _ (by simp [symPrio, symClassIdx])), fun h => Sym.noConfusion h⟩
  | Sym.negator _, Sym.conn _ => ⟨fun h => absurd h (cmpSym_ne_of_key _ _ (by simp [symPrio, symClassIdx])), fun h => Sym.noConfusion h⟩
  | Sym.negator _, Sym.impl => ⟨fun h => absurd h (cmpSym_ne_of_key _ _ (by simp [symPrio, symClassIdx])), fun h => Sym.noConfusion h⟩
  | Sym.negator _, Sym.intEq => ⟨fun h => absurd h (cmpSym_ne_of_key _ _ (by simp [symPrio, symClassIdx])), fun h => Sym.noConfusion h⟩
  | Sym.negator _, Sym.sum => ⟨fun h => absurd h (cmpSym_ne_of_key _ _ (by simp [symPrio, symClassIdx])), fun h => Sym.noConfusion h⟩
  | Sym.negator _, Sym.wrapper _ _ => ⟨fun h => absurd h (cmpSym_ne_of_key _ _ (by simp [symPrio, symClassIdx])), fun h => Sym.noConfusion h⟩
  | Sym.boolConst _, Sym.negator _ => ⟨fun h => absurd h (cmpSym_ne_of_key _ _ (by simp [symPrio, symClassIdx])), fun h => Sym.noConfusion h⟩
  | Sym.boolConst _, Sym.intConst _ => ⟨fun h => absurd h (cmpSym_ne_of_key _ _ (by simp [symPrio, symClassIdx])), fun h => Sym.noConfusion h⟩
  | Sym.boolConst _, Sym.varSym _ _ => ⟨fun h => absurd h (cmpSym_ne_of_key _ _ (by simp [symPrio, symClassIdx])), fun h => Sym.noConfusion h⟩
  | Sym.boolConst _, Sym.tseitin _ => ⟨fun h => absurd h (cmpSym_ne_of_key _ _ (by simp [symPrio, symClassIdx])), fun h => Sym.noConfusion h⟩
  | Sym.boolConst _, Sym.fnSym _ _ _ => ⟨fun h => absurd h (cmpSym_ne_of_key _ _ (by simp [symPrio, symClassIdx])), fun h => Sym.noConfusion h⟩
  | Sym.boolConst _, Sym.conn _ => ⟨fun h => absurd h (cmpSym_ne_of_key _ _ (by simp [symPrio, symClassIdx])), fun h => Sym.noConfusion h⟩
  | Sym.boolConst _, Sym.impl => ⟨fun h => absurd h (cmpSym_ne_of_key _ _ (by simp [symPrio, symClassIdx])), fun h => Sym.noConfusion h⟩
  | Sym.boolConst _, Sym.intEq => ⟨fun h => absurd h (cmpSym_ne_of_key _ _ (by simp [symPrio, symClassIdx])), fun h => Sym.noConfusion h⟩
  | Sym.boolConst _, Sym.sum => ⟨fun h => absurd h (cmpSym_ne_of_key _ _ (by simp [symPrio, symClassIdx])), fun h => Sym.noConfusion h⟩
  | Sym.boolConst _, Sym.wrapper _ _ => ⟨fun h => absurd h (cmpSym_ne_of_key _ _ (by simp [symPrio, symClassIdx])), fun h => Sym.noConfusion h⟩
  | Sym.intConst _, Sym.negator _ => ⟨fun h => absurd h (cmpSym_ne_of_key _ _ (by simp [symPrio, symClassIdx])), fun h => Sym.noConfusion h⟩
  | Sym.intConst _, Sym.boolConst _ => ⟨fun h => absurd h (cmpSym_ne_of_key _ _ (by simp [symPrio, symClassIdx])), fun h => Sym.noConfusion h⟩
  | Sym.intConst _, Sym.varSym _ _ => ⟨fun h => absurd h (cmpSym_ne_of_key _ _ (by simp [symPrio, symClassIdx])), fun h => Sym.noConfusion h⟩
  | Sym.intConst _, Sym.tseitin _ => ⟨fun h => absurd h (cmpSym_ne_of_key _ _ (by simp [symPrio, symClassIdx])), fun h => Sym.noConfusion h⟩
  | Sym.intConst _, Sym.fnSym _ _ _ => ⟨fun h => absurd h (cmpSym_ne_of_key _ _ (by simp [symPrio, symClassIdx])), fun h => Sym.noConfusion h⟩
  | Sym.intConst _, Sym.conn _ => ⟨fun h => absurd h (cmpSym_ne_of_key _ _ (by simp [symPrio, symClassIdx])), fun h => Sym.noConfusion h⟩
  | Sym.intConst _, Sym.impl => ⟨fun h => absurd h (cmpSym_ne_of_key _ _ (by simp [symPrio, symClassIdx])), fun h => Sym.noConfusion h⟩
  | Sym.intConst _, Sym.intEq => ⟨fun h => absurd h (cmpSym_ne_of_key _ _ (by simp [symPrio, symClassIdx])), fun h => Sym.noConfusion h⟩
  | Sym.intConst _, Sym.sum => ⟨fun h => absurd h (cmpSym_ne_of_key _ _ (by simp [symPrio, symClassIdx])), fun h => Sym.noConfusion h⟩
  | Sym.intConst _, Sym.wrapper _ _ => ⟨fun h => absurd h (cmpSym_ne_of_key _ _ (by simp [symPrio, symClassIdx])), fun h => Sym.noConfusion h⟩
  | Sym.varSym _ _, Sym.negator _ => ⟨fun h => absurd h (cmpSym_ne_of_key _ _ (by simp [symPrio, symClassIdx])), fun h => Sym.noConfusion h⟩
  | Sym.varSym _ _, Sym.boolConst _ => ⟨fun h => absurd h (cmpSym_ne_of_key _ _ (by simp [symPrio, symClassIdx])), fun h => Sym.noConfusion h⟩
  | Sym.varSym _ _, Sym.intConst _ => ⟨fun h => absurd h (cmpSym_ne_of_key _ _ (by simp [symPrio, symClassIdx])), fun h => Sym.noConfusion h⟩
  | Sym.varSym _ _, Sym.tseitin _ => ⟨fun h => absurd h (cmpSym_ne_of_key _ _ (by simp [symPrio, symClassIdx])), fun h => Sym.noConfusion h⟩
  | Sym.varSym _ _, Sym.fnSym _ _ _ => ⟨fun h => absurd h (cmpSym_ne_of_key _ _ (by simp [symPrio, symClassIdx])), fun h => Sym.noConfusion h⟩
  | Sym.varSym _ _, Sym.conn _ => ⟨fun h => absurd h (cmpSym_ne_of_key _ _ (by simp [symPrio, symClassIdx])), fun h => Sym.noConfusion h⟩
  | Sym.varSym _ _, Sym.impl => ⟨fun h => absurd h (cmpSym_ne_of_key _ _ (by simp [symPrio, symClassIdx])), fun h => Sym.noConfusion h⟩
  | Sym.varSym _ _, Sym.intEq => ⟨fun h => absurd h (cmpSym_ne_of_key _ _ (by simp [symPrio, symClassIdx])), fun h => Sym.noConfusion h⟩
  | Sym.varSym _ _, Sym.sum => ⟨fun h => absurd h (cmpSym_ne_of_key _ _ (by simp [symPrio, symClassIdx])), fun h => Sym.noConfusion h⟩
  | Sym.varSym _ _, Sym.wrapper _ _ => ⟨fun h => absurd h (cmpSym_ne_of_key _ _ (by simp [symPrio, symClassIdx])), fun h => Sym.noConfusion h⟩
  | Sym.tseitin _, Sym.negator _ => ⟨fun h => absurd h (cmpSym_ne_of_key _ _ (by simp [symPrio, symClassIdx])), fun h => Sym.noConfusion h⟩
  | Sym.tseitin _, Sym.boolConst _ => ⟨fun h => absurd h (cmpSym_ne_of_key _ _ (by simp [symPrio, symClassIdx])), fun h => Sym.noConfusion h⟩
  | Sym.tseitin _, Sym.intConst _ => ⟨fun h => absurd h (cmpSym_ne_of_key _ _ (by simp [symPrio, symClassIdx])), fun h => Sym.noConfusion h⟩
  | Sym.tseitin _, Sym.varSym _ _ => ⟨fun h => absurd h (cmpSym_ne_of_key _ _ (by simp [symPrio, symClassIdx])), fun h => Sym.noConfusion h⟩
  | Sym.tseitin _, Sym.fnSym _ _ _ => ⟨fun h => absurd h (cmpSym_ne_of_key _ _ (by simp [symPrio, symClassIdx])), fun h => Sym.noConfusion h⟩
  | Sym.tseitin _, Sym.conn _ => ⟨fun h => absurd h (cmpSym_ne_of_key _ _ (by simp [symPrio, symClassIdx])), fun h => Sym.noConfusion h⟩
  | Sym.tseitin _, Sym.impl => ⟨fun h => absurd h (cmpSym_ne_of_key _ _ (by simp [symPrio, symClassIdx])), fun h => Sym.noConfusion h⟩
  | Sym.tseitin _, Sym.intEq => ⟨fun h => absurd h (cmpSym_ne_of_key _ _ (by simp [symPrio, symClassIdx])), fun h => Sym.noConfusion h⟩
  | Sym.tseitin _, Sym.sum => ⟨fun h => absurd h (cmpSym_ne_of_key _ _ (by simp [symPrio, symClassIdx])), fun h => Sym.noConfusion h⟩
  | Sym.tseitin _, Sym.wrapper _ _ => ⟨fun h => absurd h (cmpSym_ne_of_key _ _ (by simp [symPrio, symClassIdx])), fun h => Sym.noConfusion h⟩
  | Sym.fnSym _ _ _, Sym.negator _ => ⟨fun h => absurd h (cmpSym_ne_of_key _ _ (by simp [symPrio, symClassIdx])), fun h => Sym.noConfusion h⟩
  | Sym.fnSym _ _ _, Sym.boolConst _ => ⟨fun h => absurd h (cmpSym_ne_of_key _ _ (by simp [symPrio, symClassIdx])), fun h => Sym.noConfusion h⟩
  | Sym.fnSym _ _ _, Sym.intConst _ => ⟨fun h => absurd h (cmpSym_ne_of_key _ _ (by simp [symPrio, symClassIdx])), fun h => Sym.noConfusion h⟩
  | Sym.fnSym _ _ _, Sym.varSym _ _ => ⟨fun h => absurd h (cmpSym_ne_of_key _ _ (by simp [symPrio, symClassIdx])), fun h => Sym.noConfusion h⟩
  | Sym.fnSym _ _ _, Sym.tseitin _ => ⟨fun h => absurd h (cmpSym_ne_of_key _ _ (by simp [symPrio, symClassIdx])), fun h => Sym.noConfusion h⟩
  | Sym.fnSym _ _ _, Sym.conn _ => ⟨fun h => absurd h (cmpSym_ne_of_key _ _ (by simp [symPrio, symClassIdx])), fun h => Sym.noConfusion h⟩
  | Sym.fnSym _ _ _, Sym.impl => ⟨fun h => absurd h (cmpSym_ne_of_key _ _ (by simp [symPrio, symClassIdx])), fun h => Sym.noConfusion h⟩
  | Sym.fnSym _ _ _, Sym.intEq => ⟨fun h => absurd h (cmpSym_ne_of_key _ _ (by simp [symPrio, symClassIdx])), fun h => Sym.noConfusion h⟩
  | Sym.fnSym _ _ _, Sym.sum => ⟨fun h => absurd h (cmpSym_ne_of_key _ _ (by simp [symPrio, symClassIdx])), fun h => Sym.noConfusion h⟩
  | Sym.fnSym _ _ _, Sym.wrapper _ _ => ⟨fun h => absurd h (cmpSym_ne_of_key _ _ (by simp [symPrio, symClassIdx])), fun h => Sym.noConfusion h⟩
  | Sym.conn _, Sym.negator _ => ⟨fun h => absurd h (cmpSym_ne_of_key _ _ (by simp [symPrio, symClassIdx])), fun h => Sym.noConfusion h⟩
  | Sym.conn _, Sym.boolConst _ => ⟨fun h => absurd h (cmpSym_ne_of_key _ _ (by simp [symPrio, symClassIdx])), fun h => Sym.noConfusion h⟩
  | Sym.conn _, Sym.intConst _ => ⟨fun h => absurd h (cmpSym_ne_of_key _ _ (by simp [symPrio, symClassIdx])), fun h => Sym.noConfusion h⟩
  | Sym.conn _, Sym.varSym _ _ => ⟨fun h => absurd h (cmpSym_ne_of_key _ _ (by simp [symPrio, symClassIdx])), fun h => Sym.noConfusion h⟩
  | Sym.conn _, Sym.tseitin _ => ⟨fun h => absurd h (cmpSym_ne_of_key _ _ (by simp [symPrio, symClassIdx])), fun h => Sym.noConfusion h⟩
  | Sym.conn _, Sym.fnSym _ _ _ => ⟨fun h => absurd h (cmpSym_ne_of_key _ _ (by simp [symPrio, symClassIdx])), fun h => Sym.noConfusion h⟩
  | Sym.conn _, Sym.impl => ⟨fun h => absurd h (cmpSym_ne_of_key _ _ (by simp [symPrio, symClassIdx])), fun h => Sym.noConfusion h⟩
  | Sym.conn _, Sym.intEq => ⟨fun h => absurd h (cmpSym_ne_of_key _ _ (by simp [symPrio, symClassIdx])), fun h => Sym.noConfusion h⟩
  | Sym.conn _, Sym.sum => ⟨fun h => absurd h (cmpSym_ne_of_key _ _ (by simp [symPrio, symClassIdx])), fun h => Sym.noConfusion h⟩
  | Sym.conn _, Sym.wrapper _ _ => ⟨fun h => absurd h (cmpSym_ne_of_key _ _ (by simp [symPrio, symClassIdx])), fun h => Sym.noConfusion h⟩
  | Sym.impl, Sym.negator _ => ⟨fun h => absurd h (cmpSym_ne_of_key _ _ (by simp [symPrio, symClassIdx])), fun h => Sym.noConfusion h⟩
  | Sym.impl, Sym.boolConst _ => ⟨fun h => absurd h (cmpSym_ne_of_key _ _ (by simp [symPrio, symClassIdx])), fun h => Sym.noConfusion h⟩
  | Sym.impl, Sym.intConst _ => ⟨fun h => absurd h (cmpSym_ne_of_key _ _ (by simp [symPrio, symClassIdx])), fun h => Sym.noConfusion h⟩
  | Sym.impl, Sym.varSym _ _ => ⟨fun h => absurd h (cmpSym_ne_of_key _ _ (by simp [symPrio, symClassIdx])), fun h => Sym.noConfusion h⟩
  | Sym.impl, Sym.tseitin _ => ⟨fun h => absurd h (cmpSym_ne_of_key _ _ (by simp [symPrio, symClassIdx])), fun h => Sym.noConfusion h⟩
  | Sym.impl, Sym.fnSym _ _ _ => ⟨fun h => absurd h (cmpSym_ne_of_key _ _ (by simp [symPrio, symClassIdx])), fun h => Sym.noConfusion h⟩
  | Sym.impl, Sym.conn _ => ⟨fun h => absurd h (cmpSym_ne_of_key _ _ (by simp [symPrio, symClassIdx])), fun h => Sym.noConfusion h⟩
  | Sym.impl, Sym.intEq => ⟨fun h => absurd h (cmpSym_ne_of_key _ _ (by simp [symPrio, symClassIdx])), fun h => Sym.noConfusion h⟩
  | Sym.impl, Sym.sum => ⟨fun h => absurd h (cmpSym_ne_of_key _ _ (by simp [symPrio, symClassIdx])), fun h => Sym.noConfusion h⟩
  | Sym.impl, Sym.wrapper _ _ => ⟨fun h => absurd h (cmpSym_ne_of_key _ _ (by simp [symPrio, symClassIdx])), fun h => Sym.noConfusion h⟩
  | Sym.intEq, Sym.negator _ => ⟨fun h => absurd h (cmpSym_ne_of_key _ _ (by simp [symPrio, symClassIdx])), fun h => Sym.noConfusion h⟩
  | Sym.intEq, Sym.boolConst _ => ⟨fun h => absurd h (cmpSym_ne_of_key _ _ (by simp [symPrio, symClassIdx])), fun h => Sym.noConfusion h⟩
  | Sym.intEq, Sym.intConst _ => ⟨fun h => absurd h (cmpSym_ne_of_key _ _ (by simp [symPrio, symClassIdx])), fun h => Sym.noConfusion h⟩
  | Sym.intEq, Sym.varSym _ _ => ⟨fun h => absurd h (cmpSym_ne_of_key _ _ (by simp [symPrio, symClassIdx])), fun h => Sym.noConfusion h⟩
  | Sym.intEq, Sym.tseitin _ => ⟨fun h => absurd h (cmpSym_ne_of_key _ _ (by simp [symPrio, symClassIdx])), fun h => Sym.noConfusion h⟩
  | Sym.intEq, Sym.fnSym _ _ _ => ⟨fun h => absurd h (cmpSym_ne_of_key _ _ (by simp [symPrio, symClassIdx])), fun h => Sym.noConfusion h⟩
  | Sym.intEq, Sym.conn _ => ⟨fun h => absurd h (cmpSym_ne_of_key _ _ (by simp [symPrio, symClassIdx])), fun h => Sym.noConfusion h⟩
  | Sym.intEq, Sym.impl => ⟨fun h => absurd h (cmpSym_ne_of_key _ _ (by simp [symPrio, symClassIdx])), fun h => Sym.noConfusion h⟩
  | Sym.intEq, Sym.sum => ⟨fun h => absurd h (cmpSym_ne_of_key _ _ (by simp [symPrio, symClassIdx])), fun h => Sym.noConfusion h⟩
  | Sym.intEq, Sym.wrapper _ _ => ⟨fun h => absurd h (cmpSym_ne_of_key _ _ (by simp [symPrio, symClassIdx])), fun h => Sym.noConfusion h⟩
  | Sym.sum, Sym.negator _ => ⟨fun h => absurd h (cmpSym_ne_of_key _ _ (by simp [symPrio, symClassIdx])), fun h => Sym.noConfusion h⟩
  | Sym.sum, Sym.boolConst _ => ⟨fun h => absurd h (cmpSym_ne_of_key _ _ (by simp [symPrio, symClassIdx])), fun h => Sym.noConfusion h⟩
  | Sym.sum, Sym.intConst _ => ⟨fun h => absurd h (cmpSym_ne_of_key _ _ (by simp [symPrio, symClassIdx])), fun h => Sym.noConfusion h⟩
  | Sym.sum, Sym.varSym _ _ => ⟨fun h => absurd h (cmpSym_ne_of_key _ _ (by simp [symPrio, symClassIdx])), fun h => Sym.noConfusion h⟩
  | Sym.sum, Sym.tseitin _ => ⟨fun h => absurd h (cmpSym_ne_of_key _ _ (by simp [symPrio, symClassIdx])), fun h => Sym.noConfusion h⟩
  | Sym.sum, Sym.fnSym _ _ _ => ⟨fun h => absurd h (cmpSym_ne_of_key _ _ (by simp [symPrio, symClassIdx])), fun h => Sym.noConfusion h⟩
  | Sym.sum, Sym.conn _ => ⟨fun h => absurd h (cmpSym_ne_of_key _ _ (by simp [symPrio, symClassIdx])), fun h => Sym.noConfusion h⟩
  | Sym.sum, Sym.impl => ⟨fun h => absurd h (cmpSym_ne_of_key _ _ (by simp [symPrio, symClassIdx])), fun h => Sym.noConfusion h⟩
  | Sym.sum, Sym.intEq => ⟨fun h => absurd h (cmpSym_ne_of_key _ _ (by simp [symPrio, symClassIdx])), fun h => Sym.noConfusion h⟩
  | Sym.sum, Sym.wrapper _ _ => ⟨fun h => absurd h (cmpSym_ne_of_key _ _ (by simp [symPrio, symClassIdx])), fun h => Sym.noConfusion h⟩
  | Sym.wrapper _ _, Sym.negator _ => ⟨fun h => absurd h (cmpSym_ne_of_key _ _ (by simp [symPrio, symClassIdx])), fun h => Sym.noConfusion h⟩
  | Sym.wrapper _ _, Sym.boolConst _ => ⟨fun h => absurd h (cmpSym_ne_of_key _ _ (by simp [symPrio, symClassIdx])), fun h => Sym.noConfusion h⟩
  | Sym.wrapper _ _, Sym.intConst _ => ⟨fun h => absurd h (cmpSym_ne_of_key _ _ (by simp [symPrio, symClassIdx])), fun h => Sym.noConfusion h⟩
  | Sym.wrapper _ _, Sym.varSym _ _ => ⟨fun h => absurd h (cmpSym_ne_of_key _ _ (by simp [symPrio, symClassIdx])), fun h => Sym.noConfusion h⟩
  | Sym.wrapper _ _, Sym.tseitin _ => ⟨fun h => absurd h (cmpSym_ne_of_key _ _ (by simp [symPrio, symClassIdx])), fun h => Sym.noConfusion h⟩
  | Sym.wrapper _ _, Sym.fnSym _ _ _ => ⟨fun h => absurd h (cmpSym_ne_of_key _ _ (by simp [symPrio, symClassIdx])), fun h => Sym.noConfusion h⟩
  | Sym.wrapper _ _, Sym.conn _ => ⟨fun h => absurd h (cmpSym_ne_of_key _ _ (by simp [symPrio, symClassIdx])), fun h => Sym.noConfusion h⟩
  | Sym.wrapper _ _, Sym.impl => ⟨fun h => absurd h (cmpSym_ne_of_key _ _ (by simp [symPrio, symClassIdx])), fun h => Sym.noConfusion h⟩
  | Sym.wrapper _ _, Sym.intEq => ⟨fun h => absurd h (cmpSym_ne_of_key _ _ (by simp [symPrio, symClassIdx])), fun h => Sym.noConfusion h⟩
  | Sym.wrapper _ _, Sym.sum => ⟨fun h => absurd h (cmpSym_ne_of_key _ _ (by simp [symPrio, symClassIdx])), fun h => Sym.noConfusion h⟩

theorem cmpOptSym_eq_iff : ∀ a b : Option Sym,
    cmpOptSym a b = Ordering.eq ↔ a = b
  | none, none => by simp [cmpOptSym]
  | none, some _ => by simp [cmpOptSym]
  | some _, none => by simp [cmpOptSym]
  | some a, some b => by simp [cmpOptSym, cmpSym_eq_iff a b]

theorem cmpE_eq_iff : ∀ a b : Expr, cmpE a b = Ordering.eq ↔ a = b
  | Expr.node s as', Expr.node t bs' => by
    simp [cmpE, Ordering_then_eq_iff, cmpSym_eq_iff s t, cmpEList_eq_iff as' bs']

theorem cmpEList_eq_iff : ∀ a b : List Expr,
    cmpEList a b = Ordering.eq ↔ a = b
  | [], [] => by simp [cmpEList]
  | [], _ :: _ => by simp [cmpEList]
  | _ :: _, [] => by simp [cmpEList]
  | a :: as', b :: bs' => by
    simp [cmpEList, Ordering_then_eq_iff, cmpE_eq_iff a b, cmpEList_eq_iff as' bs']

end

instance : DecidableEq Expr := fun a b =>
  decidable_of_iff (cmpE a b = Ordering.eq) (cmpE_eq_iff a b)

instance : DecidableEq Sym := fun a b =>
  decidable_of_iff (cmpSym a b = Ordering.eq) (cmpSym_eq_iff a b)

theorem beqOrd_eq (o : Ordering) : (o == Ordering.eq) = true ↔ o = Ordering.eq := by
  cases o <;> decide

theorem beqE_iff (a b : Expr) : beqE a b = true ↔ a = b := by
  rw [beqE, beqOrd_eq]; exact cmpE_eq_iff a b

theorem beqSym_iff (a b : Sym) : beqSym a b = true ↔ a = b := by
  rw [beqSym, beqOrd_eq]; exact cmpSym_eq_iff a b

theorem memE_iff (x : Expr) (l : List Expr) : memE x l = true ↔ x ∈ l := by
  simp [memE, List.any_eq_true, beqE_iff]


/-! # The expression order: swap (antisymmetry and totality) -/

theorem Ordering_then_swap (a b : Ordering) :
    (a.then b).swap = a.swap.then b.swap := by
  cases a <;> cases b <;> rfl

theorem compare_swap_lin {A : Type} [LinearOrder A] (a b : A) :
    (compare a b).swap = compare b a := by
  rcases lt_trichotomy a b with h | h | h
  · rw [compare_lt_iff_lt.mpr h, compare_gt_iff_gt.mpr h]; rfl
  · rw [compare_eq_iff_eq.mpr h, compare_eq_iff_eq.mpr h.symm]; rfl
  · rw [compare_gt_iff_gt.mpr h, compare_lt_iff_lt.mpr h]; rfl

theorem cmpNat_swap (a b : Nat) : (cmpNat a b).swap = cmpNat b a :=
  compare_swap_lin a b

theorem cmpBool_swap (a b : Bool) : (cmpBool a b).swap = cmpBool b a := by
  cases a <;> cases b <;> rfl

theorem cmpSSort_swap (a b : SSort) : (cmpSSort a b).swap = cmpSSort b a := by
  cases a <;> cases b <;> rfl

theorem cmpSSortList_swap :
    ∀ a b : List SSort, (cmpSSortList a b).swap = cmpSSortList b a
  | [], [] => rfl
  | [], _ :: _ => rfl
  | _ :: _, [] => rfl
  | x :: xs, y :: ys => by
    rw [show cmpSSortList (x :: xs) (y :: ys) = (cmpSSort x y).then (cmpSSortList xs ys) from rfl,
      show cmpSSortList (y :: ys) (x :: xs) = (cmpSSort y x).then (cmpSSortList ys xs) from rfl,
      Ordering_then_swap, cmpSSort_swap, cmpSSortList_swap xs ys]

mutual

theorem cmpSym_swap : ∀ a b : Sym, (cmpSym a b).swap = cmpSym b a
  | Sym.negator s, Sym.negator t => by exact cmpSSort_swap s t
  | Sym.boolConst x, Sym.boolConst y => by exact cmpBool_swap x y
  | Sym.intConst x, Sym.intConst y => by exact compare_swap_lin x y
  | Sym.varSym s i, Sym.varSym t j => by
    rw [show cmpSym (Sym.varSym s i) (Sym.varSym t j) = (cmpSSort s t).then (cmpNat i j) from rfl,
          show cmpSym (Sym.varSym t j) (Sym.varSym s i) = (cmpSSort t s).then (cmpNat j i) from rfl,
          Ordering_then_swap, cmpSSort_swap, cmpNat_swap]
  | Sym.tseitin e, Sym.tseitin f => by exact cmpE_swap e f
  | Sym.fnSym s xs i, Sym.fnSym t ys j => by
    rw [show cmpSym (Sym.fnSym s xs i) (Sym.fnSym t ys j) = (cmpSSort s t).then ((cmpSSortList xs ys).then (cmpNat i j)) from rfl,
          show cmpSym (Sym.fnSym t ys j) (Sym.fnSym s xs i) = (cmpSSort t s).then ((cmpSSortList ys xs).then (cmpNat j i)) from rfl,
          Ordering_then_swap, Ordering_then_swap, cmpSSort_swap, cmpSSortList_swap, cmpNat_swap]
  | Sym.conn x, Sym.conn y => by exact cmpBool_swap x y
  | Sym.impl, Sym.impl => rfl
  | Sym.intEq, Sym.intEq => rfl
  | Sym.sum, Sym.sum => rfl
  | Sym.wrapper oa i, Sym.wrapper ob j => by
    rw [show cmpSym (Sym.wrapper oa i) (Sym.wrapper ob j) = (cmpOptSym oa ob).then (cmpNat i j) from rfl,
          show cmpSym (Sym.wrapper ob j) (Sym.wrapper oa i) = (cmpOptSym ob oa).then (cmpNat j i) from rfl,
          Ordering_then_swap, cmpOptSym_swap, cmpNat_swap]
  | Sym.negator _, Sym.boolConst _ => rfl
  | Sym.negator _, Sym.intConst _ => rfl
  | Sym.negator _, Sym.varSym _ _ => rfl
  | Sym.negator _, Sym.tseitin _ => rfl
  | Sym.negator _, Sym.fnSym _ _ _ => rfl
  | Sym.negator _, Sym.conn _ => rfl
  | Sym.negator _, Sym.impl => rfl
  | Sym.negator _, Sym.intEq => rfl
  | Sym.negator _, Sym.sum => rfl
  | Sym.negator _, Sym.wrapper _ _ => rfl
  | Sym.boolConst _, Sym.negator _ => rfl
  | Sym.boolConst _, Sym.intConst _ => rfl
  | Sym.boolConst _, Sym.varSym _ _ => rfl
  | Sym.boolConst _, Sym.tseitin _ => rfl
  | Sym.boolConst _, Sym.fnSym _ _ _ => rfl
  | Sym.boolConst _, Sym.conn _ => rfl
  | Sym.boolConst _, Sym.impl => rfl
  | Sym.boolConst _, Sym.intEq => rfl
  | Sym.boolConst _, Sym.sum => rfl
  | Sym.boolConst _, Sym.wrapper _ _ => rfl
  | Sym.intConst _, Sym.negator _ => rfl
  | Sym.intConst _, Sym.boolConst _ => rfl
  | Sym.intConst _, Sym.varSym _ _ => rfl
  | Sym.intConst _, Sym.tseitin _ => rfl
  | Sym.intConst _, Sym.fnSym _ _ _ => rfl
  | Sym.intConst _, Sym.conn _ => rfl
  | Sym.intConst _, Sym.impl => rfl
  | Sym.intConst _, Sym.intEq => rfl
  | Sym.intConst _, Sym.sum => rfl
  | Sym.intConst _, Sym.wrapper _ _ => rfl
  | Sym.varSym _ _, Sym.negator _ => rfl
  | Sym.varSym _ _, Sym.boolConst _ => rfl
  | Sym.varSym _ _, Sym.intConst _ => rfl
  | Sym.varSym _ _, Sym.tseitin _ => rfl
  | Sym.varSym _ _, Sym.fnSym _ _ _ => rfl
  | Sym.varSym _ _, Sym.conn _ => rfl
  | Sym.varSym _ _, Sym.impl => rfl
  | Sym.varSym _ _, Sym.intEq => rfl
  | Sym.varSym _ _, Sym.sum => rfl
  | Sym.varSym _ _, Sym.wrapper _ _ => rfl
  | Sym.tseitin _, Sym.negator _ => rfl
  | Sym.tseitin _, Sym.boolConst _ => rfl
  | Sym.tseitin _, Sym.intConst _ => rfl
  | Sym.tseitin _, Sym.varSym _ _ => rfl
  | Sym.tseitin _, Sym.fnSym _ _ _ => rfl
  | Sym.tseitin _, Sym.conn _ => rfl
  | Sym.tseitin _, Sym.impl => rfl
  | Sym.tseitin _, Sym.intEq => rfl
  | Sym.tseitin _, Sym.sum => rfl
  | Sym.tseitin _, Sym.wrapper _ _ => rfl
  | Sym.fnSym _ _ _, Sym.negator _ => rfl
  | Sym.fnSym _ _ _, Sym.boolConst _ => rfl
  | Sym.fnSym _ _ _, Sym.intConst _ => rfl
  | Sym.fnSym _ _ _, Sym.varSym _ _ => rfl
  | Sym.fnSym _ _ _, Sym.tseitin _ => rfl
  | Sym.fnSym _ _ _, Sym.conn _ => rfl
  | Sym.fnSym _ _ _, Sym.impl => rfl
  | Sym.fnSym _ _ _, Sym.intEq => rfl
  | Sym.fnSym _ _ _, Sym.sum => rfl
  | Sym.fnSym _ _ _, Sym.wrapper _ _ => rfl
  | Sym.conn _, Sym.negator _ => rfl
  | Sym.conn _, Sym.boolConst _ => rfl
  | Sym.conn _, Sym.intConst _ => rfl
  | Sym.conn _, Sym.varSym _ _ => rfl
  | Sym.conn _, Sym.tseitin _ => rfl
  | Sym.conn _, Sym.fnSym _ _ _ => rfl
  | Sym.conn _, Sym.impl => rfl
  | Sym.conn _, Sym.intEq => rfl
  | Sym.conn _, Sym.sum => rfl
  | Sym.conn _, Sym.wrapper _ _ => rfl
  | Sym.impl, Sym.negator _ => rfl
  | Sym.impl, Sym.boolConst _ => rfl
  | Sym.impl, Sym.intConst _ => rfl
  | Sym.impl, Sym.varSym _ _ => rfl
  | Sym.impl, Sym.tseitin _ => rfl
  | Sym.impl, Sym.fnSym _ _ _ => rfl
  | Sym.impl, Sym.conn _ => rfl
  | Sym.impl, Sym.intEq => rfl
  | Sym.impl, Sym.sum => rfl
  | Sym.impl, Sym.wrapper _ _ => rfl
  | Sym.intEq, Sym.negator _ => rfl
  | Sym.intEq, Sym.boolConst _ => rfl
  | Sym.intEq, Sym.intConst _ => rfl
  | Sym.intEq, Sym.varSym _ _ => rfl
  | Sym.intEq, Sym.tseitin _ => rfl
  | Sym.intEq, Sym.fnSym _ _ _ => rfl
  | Sym.intEq, Sym.conn _ => rfl
  | Sym.intEq, Sym.impl => rfl
  | Sym.intEq, Sym.sum => rfl
  | Sym.intEq, Sym.wrapper _ _ => rfl
  | Sym.sum, Sym.negator _ => rfl
  | Sym.sum, Sym.boolConst _ => rfl
  | Sym.sum, Sym.intConst _ => rfl
  | Sym.sum, Sym.varSym _ _ => rfl
  | Sym.sum, Sym.tseitin _ => rfl
  | Sym.sum, Sym.fnSym _ _ _ => rfl
  | Sym.sum, Sym.conn _ => rfl
  | Sym.sum, Sym.impl => rfl
  | Sym.sum, Sym.intEq => rfl
  | Sym.sum, Sym.wrapper _ _ => rfl
  | Sym.wrapper _ _, Sym.negator _ => rfl
  | Sym.wrapper _ _, Sym.boolConst _ => rfl
  | Sym.wrapper _ _, Sym.intConst _ => rfl
  | Sym.wrapper _ _, Sym.varSym _ _ => rfl
  | Sym.wrapper _ _, Sym.tseitin _ => rfl
  | Sym.wrapper _ _, Sym.fnSym _ _ _ => rfl
  | Sym.wrapper _ _, Sym.conn _ => rfl
  | Sym.wrapper _ _, Sym.impl => rfl
  | Sym.wrapper _ _, Sym.intEq => rfl
  | Sym.wrapper _ _, Sym.sum => rfl

theorem cmpOptSym_swap : ∀ a b : Option Sym, (cmpOptSym a b).swap = cmpOptSym b a
  | none, none => rfl
  | none, some _ => rfl
  | some _, none => rfl
  | some a, some b => cmpSym_swap a b

theorem cmpE_swap : ∀ a b : Expr, (cmpE a b).swap = cmpE b a
  | Expr.node s as', Expr.node t bs' => by
    rw [show cmpE (Expr.node s as') (Expr.node t bs') = (cmpSym s t).then (cmpEList as' bs') from rfl,
      show cmpE (Expr.node t bs') (Expr.node s as') = (cmpSym t s).then (cmpEList bs' as') from rfl,
      Ordering_then_swap, cmpSym_swap, cmpEList_swap as' bs']

theorem cmpEList_swap : ∀ a b : List Expr, (cmpEList a b).swap = cmpEList b a
  | [], [] => rfl
  | [], _ :: _ => rfl
  | _ :: _, [] => rfl
  | x :: xs, y :: ys => by
    rw [show cmpEList (x :: xs) (y :: ys) = (cmpE x y).then (cmpEList xs ys) from rfl,
      show cmpEList (y :: ys) (x :: xs) = (cmpE y x).then (cmpEList ys xs) from rfl,
      Ordering_then_swap, cmpE_swap x y, cmpEList_swap xs ys]

end


/-! # The expression order is transitive -/

/-- The constructor-key part of `cmpSym`, extracted for the order lemmas
(`cmpSym_as_key` identifies it with the inline match of `cmpSym`). -/
def symKeyCmp : Sym → Sym → Ordering
  | Sym.negator s, Sym.negator t => cmpSSort s t
  | Sym.boolConst x, Sym.boolConst y => cmpBool x y
  | Sym.intConst x, Sym.intConst y => compare x y
  | Sym.varSym s i, Sym.varSym t j => (cmpSSort s t).then (cmpNat i j)
  | Sym.tseitin e, Sym.tseitin f => cmpE e f
  | Sym.fnSym s xs i, Sym.fnSym t ys j =>
      (cmpSSort s t).then <| (cmpSSortList xs ys).then (cmpNat i j)
  | Sym.conn x, Sym.conn y => cmpBool x y
  | Sym.impl, Sym.impl => Ordering.eq
  | Sym.intEq, Sym.intEq => Ordering.eq
  | Sym.sum, Sym.sum => Ordering.eq
  | Sym.wrapper oa i, Sym.wrapper ob j =>
      (cmpOptSym oa ob).then (cmpNat i j)
  | _, _ => Ordering.eq

theorem cmpSym_as_key (a b : Sym) :
    cmpSym a b =
      (cmpNat (symPrio a) (symPrio b)).then
        ((cmpNat (symClassIdx a) (symClassIdx b)).then (symKeyCmp a b)) := by
  cases a <;> cases b <;> rfl

theorem Ordering_then_eq_lt (a b : Ordering) :
    a.then b = Ordering.lt ↔
      a = Ordering.lt ∨ (a = Ordering.eq ∧ b = Ordering.lt) := by
  cases a <;> simp [Ordering.then]

theorem compare_lt_trans_lin {A : Type} [LinearOrder A] {a b c : A}
    (h1 : compare a b = Ordering.lt) (h2 : compare b c = Ordering.lt) :
    compare a c = Ordering.lt :=
  compare_lt_iff_lt.mpr (lt_trans (compare_lt_iff_lt.mp h1) (compare_lt_iff_lt.mp h2))

theorem cmpNat_lt_iff (a b : Nat) : cmpNat a b = Ordering.lt ↔ a < b :=
  compare_lt_iff_lt

theorem cmpNat_lt_trans {a b c : Nat} (h1 : cmpNat a b = Ordering.lt)
    (h2 : cmpNat b c = Ordering.lt) : cmpNat a c = Ordering.lt :=
  compare_lt_trans_lin h1 h2

theorem cmpBool_lt_trans : ∀ a b c : Bool, cmpBool a b = Ordering.lt →
    cmpBool b c = Ordering.lt → cmpBool a c = Ordering.lt := by decide

theorem cmpSSort_lt_trans : ∀ a b c : SSort, cmpSSort a b = Ordering.lt →
    cmpSSort b c = Ordering.lt → cmpSSort a c = Ordering.lt := by
  intro a b c
  cases a <;> cases b <;> cases c <;> decide

theorem cmpSSort_eq_of (a b : SSort) (h : cmpSSort a b = Ordering.eq) : a = b :=
  (cmpSSort_eq_iff a b).mp h

theorem cmpSSortList_lt_trans : ∀ a b c : List SSort,
    cmpSSortList a b = Ordering.lt → cmpSSortList b c = Ordering.lt →
    cmpSSortList a c = Ordering.lt
  | [], [], _, h1, _ => absurd h1 (by decide)
  | [], _ :: _, [], _, h2 => Ordering.noConfusion h2
  | [], _ :: _, _ :: _, _, _ => rfl
  | _ :: _, [], _, h1, _ => Ordering.noConfusion h1
  | x :: xs, y :: ys, [], _, h2 => Ordering.noConfusion h2
  | x :: xs, y :: ys, z :: zs, h1, h2 => by
    rw [show cmpSSortList (x :: xs) (y :: ys) =
        (cmpSSort x y).then (cmpSSortList xs ys) from rfl] at h1
    rw [show cmpSSortList (y :: ys) (z :: zs) =
        (cmpSSort y z).then (cmpSSortList ys zs) from rfl] at h2
    rw [show cmpSSortList (x :: xs) (z :: zs) =
        (cmpSSort x z).then (cmpSSortList xs zs) from rfl]
    rw [Ordering_then_eq_lt] at h1 h2 ⊢
    rcases h1 with h1 | ⟨h1e, h1k⟩
    · rcases h2 with h2 | ⟨h2e, h2k⟩
      · exact Or.inl (cmpSSort_lt_trans _ _ _ h1 h2)
      · rw [cmpSSort_eq_of _ _ h2e] at h1
        exact Or.inl h1
    · rcases h2 with h2 | ⟨h2e, h2k⟩
      · rw [← cmpSSort_eq_of _ _ h1e] at h2
        exact Or.inl h2
      · rw [cmpSSort_eq_of _ _ h1e, cmpSSort_eq_of _ _ h2e]
        exact Or.inr ⟨(cmpSSort_eq_iff _ _).mpr rfl,
          cmpSSortList_lt_trans xs ys zs h1k h2k⟩

/-- Transitivity of a two-level `then`: the first level is transitive and its
`eq` is substitutive; the second level is transitive under the first's
equalities. -/
theorem then2_lt_trans (o1 o2 o3 p1 p2 p3 : Ordering)
    (hot : o1 = Ordering.lt → o2 = Ordering.lt → o3 = Ordering.lt)
    (hoel : o1 = Ordering.eq → o3 = o2)
    (hoer : o2 = Ordering.eq → o3 = o1)
    (hk : o1 = Ordering.eq → o2 = Ordering.eq →
      p1 = Ordering.lt → p2 = Ordering.lt → p3 = Ordering.lt)
    (h1 : o1.then p1 = Ordering.lt) (h2 : o2.then p2 = Ordering.lt) :
    o3.then p3 = Ordering.lt := by
  rw [Ordering_then_eq_lt] at h1 h2 ⊢
  rcases h1 with h1 | ⟨h1e, h1k⟩
  · rcases h2 with h2 | ⟨h2e, h2k⟩
    · exact Or.inl (hot h1 h2)
    · rw [hoer h2e]
      exact Or.inl h1
  · rcases h2 with h2 | ⟨h2e, h2k⟩
    · rw [hoel h1e]
      exact Or.inl h2
    · rw [hoel h1e]
      exact Or.inr ⟨h2e, hk h1e h2e h1k h2k⟩

/-- Transitivity of the three-level `(priority, class, key)` comparison, with
the key handled by a hypothesis available once both pairs agree on priority
and class. -/
theorem lex3_lt_trans (pa pb pc ca cb cc : Nat) (ka kb kc : Ordering)
    (hk : pa = pb → pb = pc → ca = cb → cb = cc →
      ka = Ordering.lt → kb = Ordering.lt → kc = Ordering.lt)
    (h1 : (cmpNat pa pb).then ((cmpNat ca cb).then ka) = Ordering.lt)
    (h2 : (cmpNat pb pc).then ((cmpNat cb cc).then kb) = Ordering.lt) :
    (cmpNat pa pc).then ((cmpNat ca cc).then kc) = Ordering.lt := by
  simp only [Ordering_then_eq_lt, cmpNat_lt_iff, cmpNat_eq_iff] at h1 h2 ⊢
  rcases h1 with h1 | ⟨hpe1, h1'⟩
  · rcases h2 with h2 | ⟨hpe2, h2'⟩
    · exact Or.inl (by omega)
    · exact Or.inl (by omega)
  · rcases h2 with h2 | ⟨hpe2, h2'⟩
    · exact Or.inl (by omega)
    · refine Or.inr ⟨by omega, ?_⟩
      rcases h1' with h1 | ⟨hce1, hk1⟩
      · rcases h2' with h2 | ⟨hce2, hk2⟩
        · exact Or.inl (by omega)
        · exact Or.inl (by omega)
      · rcases h2' with h2 | ⟨hce2, hk2⟩
        · exact Or.inl (by omega)
        · exact Or.inr ⟨by omega, hk hpe1 hpe2 hce1 hce2 hk1 hk2⟩

mutual

theorem symKeyCmp_lt_trans : ∀ a b c : Sym,
    symPrio a = symPrio b → symPrio b = symPrio c →
    symClassIdx a = symClassIdx b → symClassIdx b = symClassIdx c →
    symKeyCmp a b = Ordering.lt → symKeyCmp b c = Ordering.lt →
    symKeyCmp a c = Ordering.lt
  | Sym.negator s, Sym.negator t => fun c _ hp2 _ hc2 h1 h2 => by
    cases c with
    | negator g =>
      exact cmpSSort_lt_trans _ _ _ h1 h2
    | boolConst z =>
      simp [symPrio, symClassIdx] at hp2 hc2
    | intConst z =>
      simp [symPrio, symClassIdx] at hp2 hc2
    | varSym u k =>
      simp [symPrio, symClassIdx] at hp2 hc2
    | tseitin g =>
      simp [symPrio, symClassIdx] at hp2 hc2
    | fnSym u zs k =>
      simp [symPrio, symClassIdx] at hp2 hc2
    | conn z =>
      simp [symPrio, symClassIdx] at hp2 hc2
    | impl =>
      simp [symPrio, symClassIdx] at hp2 hc2
    | intEq =>
      simp [symPrio, symClassIdx] at hp2 hc2
    | sum =>
      simp [symPrio, symClassIdx] at hp2 hc2
    | wrapper oc k =>
      simp [symPrio, symClassIdx] at hp2 hc2
  | Sym.boolConst x, Sym.boolConst y => fun c _ hp2 _ hc2 h1 h2 => by
    cases c with
    | negator g =>
      simp [symPrio, symClassIdx] at hp2 hc2
    | boolConst z =>
      exact cmpBool_lt_trans _ _ _ h1 h2
    | intConst z =>
      simp [symPrio, symClassIdx] at hp2 hc2
    | varSym u k =>
      simp [symPrio, symClassIdx] at hp2 hc2
    | tseitin g =>
      simp [symPrio, symClassIdx] at hp2 hc2
    | fnSym u zs k =>
      simp [symPrio, symClassIdx] at hp2 hc2
    | conn z =>
      simp [symPrio, symClassIdx] at hp2 hc2
    | impl =>
      simp [symPrio, symClassIdx] at hp2 hc2
    | intEq =>
      simp [symPrio, symClassIdx] at hp2 hc2
    | sum =>
      simp [symPrio, symClassIdx] at hp2 hc2
    | wrapper oc k =>
      simp [symPrio, symClassIdx] at hp2 hc2
  | Sym.intConst x, Sym.intConst y => fun c _ hp2 _ hc2 h1 h2 => by
    cases c with
    | negator g =>
      simp [symPrio, symClassIdx] at hp2 hc2
    | boolConst z =>
      simp [symPrio, symClassIdx] at hp2 hc2
    | intConst z =>
      exact compare_lt_trans_lin h1 h2
    | varSym u k =>
      simp [symPrio, symClassIdx] at hp2 hc2
    | tseitin g =>
      simp [symPrio, symClassIdx] at hp2 hc2
    | fnSym u zs k =>
      simp [symPrio, symClassIdx] at hp2 hc2
    | conn z =>
      simp [symPrio, symClassIdx] at hp2 hc2
    | impl =>
      simp [symPrio, symClassIdx] at hp2 hc2
    | intEq =>
      simp [symPrio, symClassIdx] at hp2 hc2
    | sum =>
      simp [symPrio, symClassIdx] at hp2 hc2
    | wrapper oc k =>
      simp [symPrio, symClassIdx] at hp2 hc2
  | Sym.varSym s i, Sym.varSym t j => fun c _ hp2 _ hc2 h1 h2 => by
    cases c with
    | negator g =>
      simp [symPrio, symClassIdx] at hp2 hc2
    | boolConst z =>
      simp [symPrio, symClassIdx] at hp2 hc2
    | intConst z =>
      simp [symPrio, symClassIdx] at hp2 hc2
    | varSym u k =>
      refine then2_lt_trans _ _ _ _ _ _ (cmpSSort_lt_trans _ _ _)
        (fun he => by rw [cmpSSort_eq_of _ _ he]) (fun he => by rw [cmpSSort_eq_of _ _ he])
        (fun _ _ hk1 hk2 => cmpNat_lt_trans hk1 hk2) h1 h2
    | tseitin g =>
      simp [symPrio, symClassIdx] at hp2 hc2
    | fnSym u zs k =>
      simp [symPrio, symClassIdx] at hp2 hc2
    | conn z =>
      simp [symPrio, symClassIdx] at hp2 hc2
    | impl =>
      simp [symPrio, symClassIdx] at hp2 hc2
    | intEq =>
      simp [symPrio, symClassIdx] at hp2 hc2
    | sum =>
      simp [symPrio, symClassIdx] at hp2 hc2
    | wrapper oc k =>
      simp [symPrio, symClassIdx] at hp2 hc2
  | Sym.tseitin e, Sym.tseitin f => fun c _ hp2 _ hc2 h1 h2 => by
    cases c with
    | negator g =>
      simp [symPrio, symClassIdx] at hp2 hc2
    | boolConst z =>
      simp [symPrio, symClassIdx] at hp2 hc2
    | intConst z =>
      simp [symPrio, symClassIdx] at hp2 hc2
    | varSym u k =>
      simp [symPrio, symClassIdx] at hp2 hc2
    | tseitin g =>
      exact cmpE_lt_trans e f g h1 h2
    | fnSym u zs k =>
      simp [symPrio, symClassIdx] at hp2 hc2
    | conn z =>
      simp [symPrio, symClassIdx] at hp2 hc2
    | impl =>
      simp [symPrio, symClassIdx] at hp2 hc2
    | intEq =>
      simp [symPrio, symClassIdx] at hp2 hc2
    | sum =>
      simp [symPrio, symClassIdx] at hp2 hc2
    | wrapper oc k =>
      simp [symPrio, symClassIdx] at hp2 hc2
  | Sym.fnSym s xs i, Sym.fnSym t ys j => fun c _ hp2 _ hc2 h1 h2 => by
    cases c with
    | negator g =>
      simp [symPrio, symClassIdx] at hp2 hc2
    | boolConst z =>
      simp [symPrio, symClassIdx] at hp2 hc2
    | intConst z =>
      simp [symPrio, symClassIdx] at hp2 hc2
    | varSym u k =>
      simp [symPrio, symClassIdx] at hp2 hc2
    | tseitin g =>
      simp [symPrio, symClassIdx] at hp2 hc2
    | fnSym u zs k =>
      refine then2_lt_trans _ _ _ _ _ _ (cmpSSort_lt_trans _ _ _)
        (fun he => by rw [cmpSSort_eq_of _ _ he]) (fun he => by rw [cmpSSort_eq_of _ _ he])
        (fun _ _ hk1 hk2 => ?_) h1 h2
      refine then2_lt_trans _ _ _ _ _ _ (cmpSSortList_lt_trans _ _ _)
        (fun he => by rw [(cmpSSortList_eq_iff _ _).mp he]) (fun he => by rw [(cmpSSortList_eq_iff _ _).mp he])
        (fun _ _ hm1 hm2 => cmpNat_lt_trans hm1 hm2) hk1 hk2
    | conn z =>
      simp [symPrio, symClassIdx] at hp2 hc2
    | impl =>
      simp [symPrio, symClassIdx] at hp2 hc2
    | intEq =>
      simp [symPrio, symClassIdx] at hp2 hc2
    | sum =>
      simp [symPrio, symClassIdx] at hp2 hc2
    | wrapper oc k =>
      simp [symPrio, symClassIdx] at hp2 hc2
  | Sym.conn x, Sym.conn y => fun c _ hp2 _ hc2 h1 h2 => by
    cases c with
    | negator g =>
      simp [symPrio, symClassIdx] at hp2 hc2
    | boolConst z =>
      simp [symPrio, symClassIdx] at hp2 hc2
    | intConst z =>
      simp [symPrio, symClassIdx] at hp2 hc2
    | varSym u k =>
      simp [symPrio, symClassIdx] at hp2 hc2
    | tseitin g =>
      simp [symPrio, symClassIdx] at hp2 hc2
    | fnSym u zs k =>
      simp [symPrio, symClassIdx] at hp2 hc2
    | conn z =>
      exact cmpBool_lt_trans _ _ _ h1 h2
    | impl =>
      simp [symPrio, symClassIdx] at hp2 hc2
    | intEq =>
      simp [symPrio, symClassIdx] at hp2 hc2
    | sum =>
      simp [symPrio, symClassIdx] at hp2 hc2
    | wrapper oc k =>
      simp [symPrio, symClassIdx] at hp2 hc2
  | Sym.impl, Sym.impl => fun c _ hp2 _ hc2 h1 h2 => by
    cases c with
    | negator g =>
      simp [symPrio, symClassIdx] at hp2 hc2
    | boolConst z =>
      simp [symPrio, symClassIdx] at hp2 hc2
    | intConst z =>
      simp [symPrio, symClassIdx] at hp2 hc2
    | varSym u k =>
      simp [symPrio, symClassIdx] at hp2 hc2
    | tseitin g =>
      simp [symPrio, symClassIdx] at hp2 hc2
    | fnSym u zs k =>
      simp [symPrio, symClassIdx] at hp2 hc2
    | conn z =>
      simp [symPrio, symClassIdx] at hp2 hc2
    | impl =>
      exact absurd h1 (by decide)
    | intEq =>
      simp [symPrio, symClassIdx] at hp2 hc2
    | sum =>
      simp [symPrio, symClassIdx] at hp2 hc2
    | wrapper oc k =>
      simp [symPrio, symClassIdx] at hp2 hc2
  | Sym.intEq, Sym.intEq => fun c _ hp2 _ hc2 h1 h2 => by
    cases c with
    | negator g =>
      simp [symPrio, symClassIdx] at hp2 hc2
    | boolConst z =>
      simp [symPrio, symClassIdx] at hp2 hc2
    | intConst z =>
      simp [symPrio, symClassIdx] at hp2 hc2
    | varSym u k =>
      simp [symPrio, symClassIdx] at hp2 hc2
    | tseitin g =>
      simp [symPrio, symClassIdx] at hp2 hc2
    | fnSym u zs k =>
      simp [symPrio, symClassIdx] at hp2 hc2
    | conn z =>
      simp [symPrio, symClassIdx] at hp2 hc2
    | impl =>
      simp [symPrio, symClassIdx] at hp2 hc2
    | intEq =>
      exact absurd h1 (by decide)
    | sum =>
      simp [symPrio, symClassIdx] at hp2 hc2
    | wrapper oc k =>
      simp [symPrio, symClassIdx] at hp2 hc2
  | Sym.sum, Sym.sum => fun c _ hp2 _ hc2 h1 h2 => by
    cases c with
    | negator g =>
      simp [symPrio, symClassIdx] at hp2 hc2
    | boolConst z =>
      simp [symPrio, symClassIdx] at hp2 hc2
    | intConst z =>
      simp [symPrio, symClassIdx] at hp2 hc2
    | varSym u k =>
      simp [symPrio, symClassIdx] at hp2 hc2
    | tseitin g =>
      simp [symPrio, symClassIdx] at hp2 hc2
    | fnSym u zs k =>
      simp [symPrio, symClassIdx] at hp2 hc2
    | conn z =>
      simp [symPrio, symClassIdx] at hp2 hc2
    | impl =>
      simp [symPrio, symClassIdx] at hp2 hc2
    | intEq =>
      simp [symPrio, symClassIdx] at hp2 hc2
    | sum =>
      exact absurd h1 (by decide)
    | wrapper oc k =>
      simp [symPrio, symClassIdx] at hp2 hc2
  | Sym.wrapper oa i, Sym.wrapper ob j => fun c _ hp2 _ hc2 h1 h2 => by
    cases c with
    | negator g =>
      simp [symPrio, symClassIdx] at hp2 hc2
    | boolConst z =>
      simp [symPrio, symClassIdx] at hp2 hc2
    | intConst z =>
      simp [symPrio, symClassIdx] at hp2 hc2
    | varSym u k =>
      simp [symPrio, symClassIdx] at hp2 hc2
    | tseitin g =>
      simp [symPrio, symClassIdx] at hp2 hc2
    | fnSym u zs k =>
      simp [symPrio, symClassIdx] at hp2 hc2
    | conn z =>
      simp [symPrio, symClassIdx] at hp2 hc2
    | impl =>
      simp [symPrio, symClassIdx] at hp2 hc2
    | intEq =>
      simp [symPrio, symClassIdx] at hp2 hc2
    | sum =>
      simp [symPrio, symClassIdx] at hp2 hc2
    | wrapper oc k =>
      refine then2_lt_trans _ _ _ _ _ _ (cmpOptSym_lt_trans _ _ _)
        (fun he => by rw [(cmpOptSym_eq_iff _ _).mp he]) (fun he => by rw [(cmpOptSym_eq_iff _ _).mp he])
        (fun _ _ hk1 hk2 => cmpNat_lt_trans hk1 hk2) h1 h2
  | Sym.negator _, Sym.boolConst _ => fun _ hp1 _ hc1 _ _ _ => by simp [symPrio, symClassIdx] at hp1 hc1
  | Sym.negator _, Sym.intConst _ => fun _ hp1 _ hc1 _ _ _ => by simp [symPrio, symClassIdx] at hp1 hc1
  | Sym.negator _, Sym.varSym _ _ => fun _ hp1 _ hc1 _ _ _ => by simp [symPrio, symClassIdx] at hp1 hc1
  | Sym.negator _, Sym.tseitin _ => fun _ hp1 _ hc1 _ _ _ => by simp [symPrio, symClassIdx] at hp1 hc1
  | Sym.negator _, Sym.fnSym _ _ _ => fun _ hp1 _ hc1 _ _ _ => by simp [symPrio, symClassIdx] at hp1 hc1
  | Sym.negator _, Sym.conn _ => fun _ hp1 _ hc1 _ _ _ => by simp [symPrio, symClassIdx] at hp1 hc1
  | Sym.negator _, Sym.impl => fun _ hp1 _ hc1 _ _ _ => by simp [symPrio, symClassIdx] at hp1 hc1
  | Sym.negator _, Sym.intEq => fun _ hp1 _ hc1 _ _ _ => by simp [symPrio, symClassIdx] at hp1 hc1
  | Sym.negator _, Sym.sum => fun _ hp1 _ hc1 _ _ _ => by simp [symPrio, symClassIdx] at hp1 hc1
  | Sym.negator _, Sym.wrapper _ _ => fun _ hp1 _ hc1 _ _ _ => by simp [symPrio, symClassIdx] at hp1 hc1
  | Sym.boolConst _, Sym.negator _ => fun _ hp1 _ hc1 _ _ _ => by simp [symPrio, symClassIdx] at hp1 hc1
  | Sym.boolConst _, Sym.intConst _ => fun _ hp1 _ hc1 _ _ _ => by simp [symPrio, symClassIdx] at hp1 hc1
  | Sym.boolConst _, Sym.varSym _ _ => fun _ hp1 _ hc1 _ _ _ => by simp [symPrio, symClassIdx] at hp1 hc1
  | Sym.boolConst _, Sym.tseitin _ => fun _ hp1 _ hc1 _ _ _ => by simp [symPrio, symClassIdx] at hp1 hc1
  | Sym.boolConst _, Sym.fnSym _ _ _ => fun _ hp1 _ hc1 _ _ _ => by simp [symPrio, symClassIdx] at hp1 hc1
  | Sym.boolConst _, Sym.conn _ => fun _ hp1 _ hc1 _ _ _ => by simp [symPrio, symClassIdx] at hp1 hc1
  | Sym.boolConst _, Sym.impl => fun _ hp1 _ hc1 _ _ _ => by simp [symPrio, symClassIdx] at hp1 hc1
  | Sym.boolConst _, Sym.intEq => fun _ hp1 _ hc1 _ _ _ => by simp [symPrio, symClassIdx] at hp1 hc1
  | Sym.boolConst _, Sym.sum => fun _ hp1 _ hc1 _ _ _ => by simp [symPrio, symClassIdx] at hp1 hc1
  | Sym.boolConst _, Sym.wrapper _ _ => fun _ hp1 _ hc1 _ _ _ => by simp [symPrio, symClassIdx] at hp1 hc1
  | Sym.intConst _, Sym.negator _ => fun _ hp1 _ hc1 _ _ _ => by simp [symPrio, symClassIdx] at hp1 hc1
  | Sym.intConst _, Sym.boolConst _ => fun _ hp1 _ hc1 _ _ _ => by simp [symPrio, symClassIdx] at hp1 hc1
  | Sym.intConst _, Sym.varSym _ _ => fun _ hp1 _ hc1 _ _ _ => by simp [symPrio, symClassIdx] at hp1 hc1
  | Sym.intConst _, Sym.tseitin _ => fun _ hp1 _ hc1 _ _ _ => by simp [symPrio, symClassIdx] at hp1 hc1
  | Sym.intConst _, Sym.fnSym _ _ _ => fun _ hp1 _ hc1 _ _ _ => by simp [symPrio, symClassIdx] at hp1 hc1
  | Sym.intConst _, Sym.conn _ => fun _ hp1 _ hc1 _ _ _ => by simp [symPrio, symClassIdx] at hp1 hc1
  | Sym.intConst _, Sym.impl => fun _ hp1 _ hc1 _ _ _ => by simp [symPrio, symClassIdx] at hp1 hc1
  | Sym.intConst _, Sym.intEq => fun _ hp1 _ hc1 _ _ _ => by simp [symPrio, symClassIdx] at hp1 hc1
  | Sym.intConst _, Sym.sum => fun _ hp1 _ hc1 _ _ _ => by simp [symPrio, symClassIdx] at hp1 hc1
  | Sym.intConst _, Sym.wrapper _ _ => fun _ hp1 _ hc1 _ _ _ => by simp [symPrio, symClassIdx] at hp1 hc1
  | Sym.varSym _ _, Sym.negator _ => fun _ hp1 _ hc1 _ _ _ => by simp [symPrio, symClassIdx] at hp1 hc1
  | Sym.varSym _ _, Sym.boolConst _ => fun _ hp1 _ hc1 _ _ _ => by simp [symPrio, symClassIdx] at hp1 hc1
  | Sym.varSym _ _, Sym.intConst _ => fun _ hp1 _ hc1 _ _ _ => by simp [symPrio, symClassIdx] at hp1 hc1
  | Sym.varSym _ _, Sym.tseitin _ => fun _ hp1 _ hc1 _ _ _ => by simp [symPrio, symClassIdx] at hp1 hc1
  | Sym.varSym _ _, Sym.fnSym _ _ _ => fun _ hp1 _ hc1 _ _ _ => by simp [symPrio, symClassIdx] at hp1 hc1
  | Sym.varSym _ _, Sym.conn _ => fun _ hp1 _ hc1 _ _ _ => by simp [symPrio, symClassIdx] at hp1 hc1
  | Sym.varSym _ _, Sym.impl => fun _ hp1 _ hc1 _ _ _ => by simp [symPrio, symClassIdx] at hp1 hc1
  | Sym.varSym _ _, Sym.intEq => fun _ hp1 _ hc1 _ _ _ => by simp [symPrio, symClassIdx] at hp1 hc1
  | Sym.varSym _ _, Sym.sum => fun _ hp1 _ hc1 _ _ _ => by simp [symPrio, symClassIdx] at hp1 hc1
  | Sym.varSym _ _, Sym.wrapper _ _ => fun _ hp1 _ hc1 _ _ _ => by simp [symPrio, symClassIdx] at hp1 hc1
  | Sym.tseitin _, Sym.negator _ => fun _ hp1 _ hc1 _ _ _ => by simp [symPrio, symClassIdx] at hp1 hc1
  | Sym.tseitin _, Sym.boolConst _ => fun _ hp1 _ hc1 _ _ _ => by simp [symPrio, symClassIdx] at hp1 hc1
  | Sym.tseitin _, Sym.intConst _ => fun _ hp1 _ hc1 _ _ _ => by simp [symPrio, symClassIdx] at hp1 hc1
  | Sym.tseitin _, Sym.varSym _ _ => fun _ hp1 _ hc1 _ _ _ => by simp [symPrio, symClassIdx] at hp1 hc1
  | Sym.tseitin _, Sym.fnSym _ _ _ => fun _ hp1 _ hc1 _ _ _ => by simp [symPrio, symClassIdx] at hp1 hc1
  | Sym.tseitin _, Sym.conn _ => fun _ hp1 _ hc1 _ _ _ => by simp [symPrio, symClassIdx] at hp1 hc1
  | Sym.tseitin _, Sym.impl => fun _ hp1 _ hc1 _ _ _ => by simp [symPrio, symClassIdx] at hp1 hc1
  | Sym.tseitin _, Sym.intEq => fun _ hp1 _ hc1 _ _ _ => by simp [symPrio, symClassIdx] at hp1 hc1
  | Sym.tseitin _, Sym.sum => fun _ hp1 _ hc1 _ _ _ => by simp [symPrio, symClassIdx] at hp1 hc1
  | Sym.tseitin _, Sym.wrapper _ _ => fun _ hp1 _ hc1 _ _ _ => by simp [symPrio, symClassIdx] at hp1 hc1
  | Sym.fnSym _ _ _, Sym.negator _ => fun _ hp1 _ hc1 _ _ _ => by simp [symPrio, symClassIdx] at hp1 hc1
  | Sym.fnSym _ _ _, Sym.boolConst _ => fun _ hp1 _ hc1 _ _ _ => by simp [symPrio, symClassIdx] at hp1 hc1
  | Sym.fnSym _ _ _, Sym.intConst _ => fun _ hp1 _ hc1 _ _ _ => by simp [symPrio, symClassIdx] at hp1 hc1
  | Sym.fnSym _ _ _, Sym.varSym _ _ => fun _ hp1 _ hc1 _ _ _ => by simp [symPrio, symClassIdx] at hp1 hc1
  | Sym.fnSym _ _ _, Sym.tseitin _ => fun _ hp1 _ hc1 _ _ _ => by simp [symPrio, symClassIdx] at hp1 hc1
  | Sym.fnSym _ _ _, Sym.conn _ => fun _ hp1 _ hc1 _ _ _ => by simp [symPrio, symClassIdx] at hp1 hc1
  | Sym.fnSym _ _ _, Sym.impl => fun _ hp1 _ hc1 _ _ _ => by simp [symPrio, symClassIdx] at hp1 hc1
  | Sym.fnSym _ _ _, Sym.intEq => fun _ hp1 _ hc1 _ _ _ => by simp [symPrio, symClassIdx] at hp1 hc1
  | Sym.fnSym _ _ _, Sym.sum => fun _ hp1 _ hc1 _ _ _ => by simp [symPrio, symClassIdx] at hp1 hc1
  | Sym.fnSym _ _ _, Sym.wrapper _ _ => fun _ hp1 _ hc1 _ _ _ => by simp [symPrio, symClassIdx] at hp1 hc1
  | Sym.conn _, Sym.negator _ => fun _ hp1 _ hc1 _ _ _ => by simp [symPrio, symClassIdx] at hp1 hc1
  | Sym.conn _, Sym.boolConst _ => fun _ hp1 _ hc1 _ _ _ => by simp [symPrio, symClassIdx] at hp1 hc1
  | Sym.conn _, Sym.intConst _ => fun _ hp1 _ hc1 _ _ _ => by simp [symPrio, symClassIdx] at hp1 hc1
  | Sym.conn _, Sym.varSym _ _ => fun _ hp1 _ hc1 _ _ _ => by simp [symPrio, symClassIdx] at hp1 hc1
  | Sym.conn _, Sym.tseitin _ => fun _ hp1 _ hc1 _ _ _ => by simp [symPrio, symClassIdx] at hp1 hc1
  | Sym.conn _, Sym.fnSym _ _ _ => fun _ hp1 _ hc1 _ _ _ => by simp [symPrio, symClassIdx] at hp1 hc1
  | Sym.conn _, Sym.impl => fun _ hp1 _ hc1 _ _ _ => by simp [symPrio, symClassIdx] at hp1 hc1
  | Sym.conn _, Sym.intEq => fun _ hp1 _ hc1 _ _ _ => by simp [symPrio, symClassIdx] at hp1 hc1
  | Sym.conn _, Sym.sum => fun _ hp1 _ hc1 _ _ _ => by simp [symPrio, symClassIdx] at hp1 hc1
  | Sym.conn _, Sym.wrapper _ _ => fun _ hp1 _ hc1 _ _ _ => by simp [symPrio, symClassIdx] at hp1 hc1
  | Sym.impl, Sym.negator _ => fun _ hp1 _ hc1 _ _ _ => by simp [symPrio, symClassIdx] at hp1 hc1
  | Sym.impl, Sym.boolConst _ => fun _ hp1 _ hc1 _ _ _ => by simp [symPrio, symClassIdx] at hp1 hc1
  | Sym.impl, Sym.intConst _ => fun _ hp1 _ hc1 _ _ _ => by simp [symPrio, symClassIdx] at hp1 hc1
  | Sym.impl, Sym.varSym _ _ => fun _ hp1 _ hc1 _ _ _ => by simp [symPrio, symClassIdx] at hp1 hc1
  | Sym.impl, Sym.tseitin _ => fun _ hp1 _ hc1 _ _ _ => by simp [symPrio, symClassIdx] at hp1 hc1
  | Sym.impl, Sym.fnSym _ _ _ => fun _ hp1 _ hc1 _ _ _ => by simp [symPrio, symClassIdx] at hp1 hc1
  | Sym.impl, Sym.conn _ => fun _ hp1 _ hc1 _ _ _ => by simp [symPrio, symClassIdx] at hp1 hc1
  | Sym.impl, Sym.intEq => fun _ hp1 _ hc1 _ _ _ => by simp [symPrio, symClassIdx] at hp1 hc1
  | Sym.impl, Sym.sum => fun _ hp1 _ hc1 _ _ _ => by simp [symPrio, symClassIdx] at hp1 hc1
  | Sym.impl, Sym.wrapper _ _ => fun _ hp1 _ hc1 _ _ _ => by simp [symPrio, symClassIdx] at hp1 hc1
  | Sym.intEq, Sym.negator _ => fun _ hp1 _ hc1 _ _ _ => by simp [symPrio, symClassIdx] at hp1 hc1
  | Sym.intEq, Sym.boolConst _ => fun _ hp1 _ hc1 _ _ _ => by simp [symPrio, symClassIdx] at hp1 hc1
  | Sym.intEq, Sym.intConst _ => fun _ hp1 _ hc1 _ _ _ => by simp [symPrio, symClassIdx] at hp1 hc1
  | Sym.intEq, Sym.varSym _ _ => fun _ hp1 _ hc1 _ _ _ => by simp [symPrio, symClassIdx] at hp1 hc1
  | Sym.intEq, Sym.tseitin _ => fun _ hp1 _ hc1 _ _ _ => by simp [symPrio, symClassIdx] at hp1 hc1
  | Sym.intEq, Sym.fnSym _ _ _ => fun _ hp1 _ hc1 _ _ _ => by simp [symPrio, symClassIdx] at hp1 hc1
  | Sym.intEq, Sym.conn _ => fun _ hp1 _ hc1 _ _ _ => by simp [symPrio, symClassIdx] at hp1 hc1
  | Sym.intEq, Sym.impl => fun _ hp1 _ hc1 _ _ _ => by simp [symPrio, symClassIdx] at hp1 hc1
  | Sym.intEq, Sym.sum => fun _ hp1 _ hc1 _ _ _ => by simp [symPrio, symClassIdx] at hp1 hc1
  | Sym.intEq, Sym.wrapper _ _ => fun _ hp1 _ hc1 _ _ _ => by simp [symPrio, symClassIdx] at hp1 hc1
  | Sym.sum, Sym.negator _ => fun _ hp1 _ hc1 _ _ _ => by simp [symPrio, symClassIdx] at hp1 hc1
  | Sym.sum, Sym.boolConst _ => fun _ hp1 _ hc1 _ _ _ => by simp [symPrio, symClassIdx] at hp1 hc1
  | Sym.sum, Sym.intConst _ => fun _ hp1 _ hc1 _ _ _ => by simp [symPrio, symClassIdx] at hp1 hc1
  | Sym.sum, Sym.varSym _ _ => fun _ hp1 _ hc1 _ _ _ => by simp [symPrio, symClassIdx] at hp1 hc1
  | Sym.sum, Sym.tseitin _ => fun _ hp1 _ hc1 _ _ _ => by simp [symPrio, symClassIdx] at hp1 hc1
  | Sym.sum, Sym.fnSym _ _ _ => fun _ hp1 _ hc1 _ _ _ => by simp [symPrio, symClassIdx] at hp1 hc1
  | Sym.sum, Sym.conn _ => fun _ hp1 _ hc1 _ _ _ => by simp [symPrio, symClassIdx] at hp1 hc1
  | Sym.sum, Sym.impl => fun _ hp1 _ hc1 _ _ _ => by simp [symPrio, symClassIdx] at hp1 hc1
  | Sym.sum, Sym.intEq => fun _ hp1 _ hc1 _ _ _ => by simp [symPrio, symClassIdx] at hp1 hc1
  | Sym.sum, Sym.wrapper _ _ => fun _ hp1 _ hc1 _ _ _ => by simp [symPrio, symClassIdx] at hp1 hc1
  | Sym.wrapper _ _, Sym.negator _ => fun _ hp1 _ hc1 _ _ _ => by simp [symPrio, symClassIdx] at hp1 hc1
  | Sym.wrapper _ _, Sym.boolConst _ => fun _ hp1 _ hc1 _ _ _ => by simp [symPrio, symClassIdx] at hp1 hc1
  | Sym.wrapper _ _, Sym.intConst _ => fun _ hp1 _ hc1 _ _ _ => by simp [symPrio, symClassIdx] at hp1 hc1
  | Sym.wrapper _ _, Sym.varSym _ _ => fun _ hp1 _ hc1 _ _ _ => by simp [symPrio, symClassIdx] at hp1 hc1
  | Sym.wrapper _ _, Sym.tseitin _ => fun _ hp1 _ hc1 _ _ _ => by simp [symPrio, symClassIdx] at hp1 hc1
  | Sym.wrapper _ _, Sym.fnSym _ _ _ => fun _ hp1 _ hc1 _ _ _ => by simp [symPrio, symClassIdx] at hp1 hc1
  | Sym.wrapper _ _, Sym.conn _ => fun _ hp1 _ hc1 _ _ _ => by simp [symPrio, symClassIdx] at hp1 hc1
  | Sym.wrapper _ _, Sym.impl => fun _ hp1 _ hc1 _ _ _ => by simp [symPrio, symClassIdx] at hp1 hc1
  | Sym.wrapper _ _, Sym.intEq => fun _ hp1 _ hc1 _ _ _ => by simp [symPrio, symClassIdx] at hp1 hc1
  | Sym.wrapper _ _, Sym.sum => fun _ hp1 _ hc1 _ _ _ => by simp [symPrio, symClassIdx] at hp1 hc1

theorem cmpOptSym_lt_trans : ∀ a b c : Option Sym,
    cmpOptSym a b = Ordering.lt → cmpOptSym b c = Ordering.lt →
    cmpOptSym a c = Ordering.lt
  | none, none, _, h1, _ => absurd h1 (by decide)
  | none, some _, none, _, h2 => Ordering.noConfusion h2
  | none, some _, some _, _, _ => rfl
  | some _, none, _, h1, _ => Ordering.noConfusion h1
  | some _, some _, none, _, h2 => Ordering.noConfusion h2
  | some a, some b, some c, h1, h2 => by
    rw [show cmpOptSym (some a) (some b) = cmpSym a b from rfl] at h1
    rw [show cmpOptSym (some b) (some c) = cmpSym b c from rfl] at h2
    rw [show cmpOptSym (some a) (some c) = cmpSym a c from rfl]
    rw [cmpSym_as_key] at h1 h2 ⊢
    exact lex3_lt_trans _ _ _ _ _ _ _ _ _ (symKeyCmp_lt_trans a b c) h1 h2

theorem cmpE_lt_trans : ∀ a b c : Expr,
    cmpE a b = Ordering.lt → cmpE b c = Ordering.lt → cmpE a c = Ordering.lt
  | Expr.node s as', Expr.node t bs', Expr.node u cs', h1, h2 => by
    rw [show cmpE (Expr.node s as') (Expr.node t bs') =
        (cmpSym s t).then (cmpEList as' bs') from rfl] at h1
    rw [show cmpE (Expr.node t bs') (Expr.node u cs') =
        (cmpSym t u).then (cmpEList bs' cs') from rfl] at h2
    rw [show cmpE (Expr.node s as') (Expr.node u cs') =
        (cmpSym s u).then (cmpEList as' cs') from rfl]
    refine then2_lt_trans _ _ _ _ _ _ ?_ ?_ ?_ ?_ h1 h2
    · intro ha hb
      rw [cmpSym_as_key] at ha hb ⊢
      exact lex3_lt_trans _ _ _ _ _ _ _ _ _ (symKeyCmp_lt_trans s t u) ha hb
    · intro he
      rw [(cmpSym_eq_iff s t).mp he]
    · intro he
      rw [(cmpSym_eq_iff t u).mp he]
    · intro _ _ hk1 hk2
      exact cmpEList_lt_trans as' bs' cs' hk1 hk2

theorem cmpEList_lt_trans : ∀ a b c : List Expr,
    cmpEList a b = Ordering.lt → cmpEList b c = Ordering.lt →
    cmpEList a c = Ordering.lt
  | [], [], _, h1, _ => absurd h1 (by decide)
  | [], _ :: _, [], _, h2 => Ordering.noConfusion h2
  | [], _ :: _, _ :: _, _, _ => rfl
  | _ :: _, [], _, h1, _ => Ordering.noConfusion h1
  | _ :: _, _ :: _, [], _, h2 => Ordering.noConfusion h2
  | x :: xs, y :: ys, z :: zs, h1, h2 => by
    rw [show cmpEList (x :: xs) (y :: ys) = (cmpE x y).then (cmpEList xs ys) from rfl] at h1
    rw [show cmpEList (y :: ys) (z :: zs) = (cmpE y z).then (cmpEList ys zs) from rfl] at h2
    rw [show cmpEList (x :: xs) (z :: zs) = (cmpE x z).then (cmpEList xs zs) from rfl]
    refine then2_lt_trans _ _ _ _ _ _ (cmpE_lt_trans x y z) ?_ ?_ ?_ h1 h2
    · intro he
      rw [(cmpE_eq_iff x y).mp he]
    · intro he
      rw [(cmpE_eq_iff y z).mp he]
    · intro _ _ hk1 hk2
      exact cmpEList_lt_trans xs ys zs hk1 hk2

end

theorem cmpSym_lt_trans (a b c : Sym) (h1 : cmpSym a b = Ordering.lt)
    (h2 : cmpSym b c = Ordering.lt) : cmpSym a c = Ordering.lt := by
  rw [cmpSym_as_key] at h1 h2 ⊢
  exact lex3_lt_trans _ _ _ _ _ _ _ _ _ (symKeyCmp_lt_trans a b c) h1 h2

theorem bneOrd_gt (o : Ordering) :
    (o != Ordering.gt) = true ↔ o ≠ Ordering.gt := by
  cases o <;> decide

theorem leE_trans {a b c : Expr} (h1 : leE a b = true) (h2 : leE b c = true) :
    leE a c = true := by
  have h1' : cmpE a b ≠ Ordering.gt := by simpa [leE, bneOrd_gt] using h1
  have h2' : cmpE b c ≠ Ordering.gt := by simpa [leE, bneOrd_gt] using h2
  have hgoal : cmpE a c ≠ Ordering.gt := by
    cases hab : cmpE a b with
    | eq =>
      have hab' : a = b := (cmpE_eq_iff a b).mp hab
      rw [hab']
      exact h2'
    | gt => exact absurd hab h1'
    | lt =>
      cases hbc : cmpE b c with
      | eq =>
        have hbc' : b = c := (cmpE_eq_iff b c).mp hbc
        rw [← hbc']
        simp [hab]
      | gt => exact absurd hbc h2'
      | lt => simp [cmpE_lt_trans a b c hab hbc]
  simpa [leE, bneOrd_gt] using hgoal


/-! # The `sorted` toolkit for the expression order -/

theorem cmpE_refl (a : Expr) : cmpE a a = Ordering.eq := (cmpE_eq_iff a a).mpr rfl

theorem leE_refl (a : Expr) : leE a a = true := by
  simp only [leE, cmpE_refl]
  decide

theorem leE_total (a b : Expr) : leE a b = true ∨ leE b a = true := by
  by_cases h : cmpE a b = Ordering.gt
  · right
    have hs := cmpE_swap a b
    rw [h] at hs
    rw [leE, ← hs]
    decide
  · left
    simp [leE, bneOrd_gt, h]

theorem leE_antisymm (a b : Expr) (h1 : leE a b = true) (h2 : leE b a = true) :
    a = b := by
  rw [leE, bneOrd_gt] at h1 h2
  have hs := cmpE_swap a b
  apply (cmpE_eq_iff a b).mp
  cases hab : cmpE a b with
  | eq => rfl
  | lt => rw [hab] at hs; exact absurd hs.symm h2
  | gt => exact absurd hab h1

theorem insE_perm (x : Expr) : ∀ l : List Expr, List.Perm (insE x l) (x :: l)
  | [] => List.Perm.refl _
  | y :: rest => by
    simp only [insE]
    by_cases h : leE x y = true
    · rw [if_pos h]
    · rw [if_neg h]
      exact ((insE_perm x rest).cons y).trans (List.Perm.swap x y rest)

theorem sortE_perm : ∀ l : List Expr, List.Perm (sortE l) l
  | [] => List.Perm.refl _
  | x :: rest => by
    simp only [sortE]
    exact (insE_perm x (sortE rest)).trans ((sortE_perm rest).cons x)

theorem memE_sortE (x : Expr) (l : List Expr) : x ∈ sortE l ↔ x ∈ l :=
  (sortE_perm l).mem_iff

theorem chain_insE (x : Expr) :
    ∀ l : List Expr, List.Chain' (fun a b => leE a b = true) l →
      List.Chain' (fun a b => leE a b = true) (insE x l)
  | [], _ => List.chain'_singleton x
  | y :: rest, h => by
    simp only [insE]
    by_cases hxy : leE x y = true
    · rw [if_pos hxy]
      exact List.chain'_cons.mpr ⟨hxy, h⟩
    · rw [if_neg hxy]
      have hyx : leE y x = true := (leE_total x y).resolve_left hxy
      cases rest with
      | nil =>
        simp only [insE]
        exact List.chain'_pair.mpr hyx
      | cons z zs =>
        by_cases hxz : leE x z = true
        · simp only [insE, if_pos hxz]
          exact List.chain'_cons.mpr ⟨hyx,
            List.chain'_cons.mpr ⟨hxz, (List.chain'_cons.mp h).2⟩⟩
        · have hrest := chain_insE x (z :: zs) (List.chain'_cons.mp h).2
          simp only [insE, if_neg hxz] at hrest ⊢
          exact List.chain'_cons.mpr ⟨(List.chain'_cons.mp h).1, hrest⟩

theorem chain_sortE :
    ∀ l : List Expr, List.Chain' (fun a b => leE a b = true) (sortE l)
  | [] => List.chain'_nil
  | x :: rest => chain_insE x (sortE rest) (chain_sortE rest)

theorem sortE_of_chain :
    ∀ l : List Expr, List.Chain' (fun a b => leE a b = true) l → sortE l = l
  | [], _ => rfl
  | [x], _ => rfl
  | x :: y :: rest, h => by
    have ih := sortE_of_chain (y :: rest) (List.chain'_cons.mp h).2
    simp only [sortE] at ih ⊢
    rw [ih, insE, if_pos (List.chain'_cons.mp h).1]

theorem insE_comm (x y : Expr) :
    ∀ l : List Expr, insE x (insE y l) = insE y (insE x l)
  | [] => by
    simp only [insE]
    by_cases hxy : leE x y = true
    · by_cases hyx : leE y x = true
      · rw [if_pos hxy, if_pos hyx, leE_antisymm x y hxy hyx]
      · rw [if_pos hxy, if_neg hyx]
    · rw [if_neg hxy, if_pos ((leE_total x y).resolve_left hxy)]
  | z :: zs => by
    by_cases hxz : leE x z = true <;> by_cases hyz : leE y z = true
    · simp only [insE, if_pos hxz, if_pos hyz]
      by_cases hxy : leE x y = true
      · by_cases hyx : leE y x = true
        · rw [leE_antisymm x y hxy hyx]
        · simp only [insE, if_pos hxy, if_neg hyx, if_pos hxz]
      · have hyx : leE y x = true := (leE_total x y).resolve_left hxy
        simp only [insE, if_neg hxy, if_pos hyx, if_pos hyz]
    · have hyx : ¬ leE y x = true := fun hyx => hyz (leE_trans hyx hxz)
      simp only [insE, if_pos hxz, if_neg hyz, if_neg hyx, if_pos hxz]
    · have hxy : ¬ leE x y = true := fun hxy => hxz (leE_trans hxy hyz)
      simp only [insE, if_neg hxz, if_pos hyz, if_neg hxy, if_pos hyz]
    · simp only [insE, if_neg hxz, if_neg hyz]
      rw [insE_comm x y zs]

theorem sortE_perm_inv {l m : List Expr} (h : List.Perm l m) :
    sortE l = sortE m := by
  induction h with
  | nil => rfl
  | cons x _ ih => simp only [sortE, ih]
  | swap x y l =>
    simp only [sortE]
    exact insE_comm y x (sortE l)
  | trans _ _ ih1 ih2 => exact ih1.trans ih2

theorem sortE_eq_of_perm_chain {l m : List Expr} (h : List.Perm l m)
    (hm : List.Chain' (fun a b => leE a b = true) m) : sortE l = m :=
  (sortE_perm_inv h).trans (sortE_of_chain m hm)



/-! # Structural negation is an involution on canonical expressions -/

theorem chainLeE_iff : ∀ l : List Expr,
    chainLeE l = true ↔ List.Chain' (fun a b => leE a b = true) l
  | [] => by simp [chainLeE]
  | [x] => by simp [chainLeE]
  | a :: b :: rest => by
    rw [show chainLeE (a :: b :: rest) = (leE a b && chainLeE (b :: rest)) from rfl,
      Bool.and_eq_true, chainLeE_iff (b :: rest), List.chain'_cons]

theorem negList_eq_map : ∀ l : List Expr, negList l = l.map negateE
  | [] => rfl
  | e :: rest => by rw [show negList (e :: rest) = negateE e :: negList rest from rfl,
      negList_eq_map rest, List.map_cons]

theorem negateE_atom (x : Expr) (h : atomHead (headSym x) = true) :
    negateE x = Expr.node (Sym.negator (sortOf x)) [x] := by
  obtain ⟨s, args⟩ := x
  cases s <;> first
    | rfl
    | exact absurd h (by simp [atomHead, headSym])

theorem sortOf_negateE (e : Expr) (h : canonE e = true) :
    sortOf (negateE e) = sortOf e := by
  obtain ⟨s, args⟩ := e
  cases s with
  | negator s =>
    cases args with
    | nil => exact absurd h (by simp [canonE])
    | cons x rest =>
      cases rest with
      | nil =>
        simp only [canonE, Bool.and_eq_true, beqSSort, beq_iff_eq] at h
        have hs : cmpSSort (sortOf x) s = Ordering.eq :=
          (beqOrd_eq _).mp (by simpa [beqSSort] using h.1.2)
        have hx : sortOf x = s := (cmpSSort_eq_iff _ _).mp hs
        rw [show negateE (Expr.node (Sym.negator s) [x]) = x from rfl]
        rw [hx]
        rfl
      | cons y ys => exact absurd h (by simp [canonE])
  | boolConst b => rfl
  | intConst n => rfl
  | conn ne => rfl
  | sum => rfl
  | varSym s i => rfl
  | tseitin w => rfl
  | fnSym s ss i => rfl
  | impl => rfl
  | intEq => rfl
  | wrapper os i => rfl

mutual

theorem negateE_invol : ∀ e : Expr, canonE e = true → negateE (negateE e) = e
  | Expr.node (Sym.boolConst b) args, h => by
    have ha : args = [] := by
      simpa [canonE, List.isEmpty_iff] using h
    subst ha
    simp [negateE, boolE]
  | Expr.node (Sym.intConst n) args, h => by
    have ha : args = [] := by
      simpa [canonE, List.isEmpty_iff] using h
    subst ha
    simp [negateE, intE]
  | Expr.node (Sym.negator s) args, h => by
    cases args with
    | nil => exact absurd h (by simp [canonE])
    | cons x rest =>
      cases rest with
      | nil =>
        simp only [canonE, Bool.and_eq_true] at h
        have hx : sortOf x = s :=
          (cmpSSort_eq_iff _ _).mp ((beqOrd_eq _).mp (by simpa [beqSSort] using h.1.2))
        rw [show negateE (Expr.node (Sym.negator s) [x]) = x from rfl,
          negateE_atom x h.1.1, hx]
      | cons y ys => exact absurd h (by simp [canonE])
  | Expr.node (Sym.conn ne) args, h => by
    simp only [canonE, Bool.and_eq_true] at h
    have hmapinv := negList_invol args h.1.1.1.1.2
    rw [show negateE (Expr.node (Sym.conn ne) args) =
        Expr.node (Sym.conn !ne) (sortE (negList args)) from rfl]
    rw [show negateE (Expr.node (Sym.conn !ne) (sortE (negList args))) =
        Expr.node (Sym.conn !(!ne)) (sortE (negList (sortE (negList args)))) from rfl]
    have hperm : List.Perm (negList (sortE (negList args))) args := by
      rw [negList_eq_map]
      have h2 := (sortE_perm (negList args)).map negateE
      have h3 : List.map negateE (negList args) = args := by
        rw [← negList_eq_map]
        exact hmapinv
      rw [h3] at h2
      exact h2
    rw [sortE_eq_of_perm_chain hperm ((chainLeE_iff args).mp h.1.1.2)]
    simp
  | Expr.node Sym.sum args, h => by
    simp only [canonE, Bool.and_eq_true] at h
    have hmapinv := negList_invol args h.1.1.1.1.2
    rw [show negateE (Expr.node Sym.sum args) =
        Expr.node Sym.sum (sortE (negList args)) from rfl]
    rw [show negateE (Expr.node Sym.sum (sortE (negList args))) =
        Expr.node Sym.sum (sortE (negList (sortE (negList args)))) from rfl]
    have hperm : List.Perm (negList (sortE (negList args))) args := by
      rw [negList_eq_map]
      have h2 := (sortE_perm (negList args)).map negateE
      have h3 : List.map negateE (negList args) = args := by
        rw [← negList_eq_map]
        exact hmapinv
      rw [h3] at h2
      exact h2
    rw [sortE_eq_of_perm_chain hperm ((chainLeE_iff args).mp h.1.1.2)]
  | Expr.node (Sym.varSym s i) args, h => by
    rw [show negateE (Expr.node (Sym.varSym s i) args) =
      Expr.node (Sym.negator (sortOf (Expr.node (Sym.varSym s i) args)))
        [Expr.node (Sym.varSym s i) args] from rfl]
    rfl
  | Expr.node (Sym.tseitin w) args, h => rfl
  | Expr.node (Sym.fnSym s ss i) args, h => rfl
  | Expr.node Sym.impl args, h => rfl
  | Expr.node Sym.intEq args, h => rfl
  | Expr.node (Sym.wrapper os i) args, h => rfl

theorem negList_invol : ∀ l : List Expr, canonList l = true →
    negList (negList l) = l
  | [], _ => rfl
  | e :: rest, h => by
    simp only [canonList, Bool.and_eq_true] at h
    rw [show negList (e :: rest) = negateE e :: negList rest from rfl,
      show negList (negateE e :: negList rest) =
        negateE (negateE e) :: negList (negList rest) from rfl,
      negateE_invol e h.1, negList_invol rest h.2]

end


/-! # The AC reduction loop is the identity on strongly irreducible tuples -/

/-! # Duality: negation preserves canonicity and strong irreducibility -/

theorem beqE_false_iff (a b : Expr) : beqE a b = false ↔ ¬ a = b := by
  rw [← Bool.not_eq_true]
  exact not_congr (beqE_iff a b)

theorem memE_false_iff (x : Expr) (l : List Expr) : memE x l = false ↔ x ∉ l := by
  rw [← Bool.not_eq_true]
  exact not_congr (memE_iff x l)

theorem subsetE_iff (l1 l2 : List Expr) :
    subsetE l1 l2 = true ↔ ∀ x ∈ l1, x ∈ l2 := by
  simp [subsetE, List.all_eq_true, memE_iff]

theorem subsetE_false_iff (l1 l2 : List Expr) :
    subsetE l1 l2 = false ↔ ¬ ∀ x ∈ l1, x ∈ l2 := by
  rw [← Bool.not_eq_true]
  exact not_congr (subsetE_iff l1 l2)

theorem mem_dedupAux : ∀ (seen l : List Expr) (x : Expr),
    x ∈ dedupAux seen l ↔ (x ∈ l ∧ x ∉ seen)
  | seen, [], x => by simp [dedupAux]
  | seen, e :: rest, x => by
    have hstep : dedupAux seen (e :: rest) =
        if memE e seen then dedupAux seen rest
        else e :: dedupAux (seen ++ [e]) rest := rfl
    by_cases he : memE e seen = true
    · rw [hstep, if_pos he, mem_dedupAux seen rest x]
      have hee : e ∈ seen := (memE_iff e seen).mp he
      constructor
      · rintro ⟨h1, h2⟩
        exact ⟨List.mem_cons_of_mem _ h1, h2⟩
      · rintro ⟨h1, h2⟩
        rcases List.mem_cons.mp h1 with rfl | h1
        · exact absurd hee h2
        · exact ⟨h1, h2⟩
    · rw [hstep, if_neg he, List.mem_cons, mem_dedupAux (seen ++ [e]) rest x]
      have hee : e ∉ seen := fun hx => he ((memE_iff e seen).mpr hx)
      constructor
      · rintro (rfl | ⟨h1, h2⟩)
        · exact ⟨List.mem_cons_self _ _, hee⟩
        · exact ⟨List.mem_cons_of_mem _ h1,
            fun hx => h2 (List.mem_append_left _ hx)⟩
      · rintro ⟨h1, h2⟩
        by_cases hxe : x = e
        · exact Or.inl hxe
        · rcases List.mem_cons.mp h1 with rfl | h1
          · exact Or.inl rfl
          · refine Or.inr ⟨h1, fun hx => ?_⟩
            rcases List.mem_append.mp hx with hx | hx
            · exact h2 hx
            · exact hxe (List.mem_singleton.mp hx)

theorem mem_dedupE (x : Expr) (l : List Expr) : x ∈ dedupE l ↔ x ∈ l := by
  rw [dedupE, mem_dedupAux]
  simp

theorem canonList_iff : ∀ l : List Expr,
    canonList l = true ↔ ∀ x ∈ l, canonE x = true
  | [] => by simp [canonList]
  | e :: rest => by
    have hstep : canonList (e :: rest) = (canonE e && canonList rest) := rfl
    rw [hstep, Bool.and_eq_true, canonList_iff rest, List.forall_mem_cons]

theorem pairwiseIrred_iff (acs : Sym) : ∀ l : List Expr,
    pairwiseIrred acs l = true ↔ List.Pairwise
      (fun a b => strongIrredAC acs a b = true ∧ strongIrredAC acs b a = true) l
  | [] => by simp [pairwiseIrred]
  | a :: rest => by
    have hstep : pairwiseIrred acs (a :: rest) =
        (rest.all (fun b => strongIrredAC acs a b && strongIrredAC acs b a) &&
         pairwiseIrred acs rest) := rfl
    rw [hstep, Bool.and_eq_true, pairwiseIrred_iff acs rest, List.pairwise_cons,
      List.all_eq_true]
    simp [Bool.and_eq_true]

theorem beqSSort_iff (a b : SSort) : beqSSort a b = true ↔ a = b := by
  rw [beqSSort, beqOrd_eq, cmpSSort_eq_iff]

theorem headConn_headSym (x : Expr) (c : Bool) :
    headConn x = some c ↔ headSym x = Sym.conn c := by
  obtain ⟨s, args⟩ := x
  cases s <;> simp [headConn, headSym]

theorem atomHead_headConn (x : Expr) (h : atomHead (headSym x) = true) :
    headConn x = none := by
  obtain ⟨s, args⟩ := x
  cases s <;> first
    | rfl
    | exact absurd h (by simp [atomHead, headSym])

theorem headConn_some (b : Expr) (c : Bool) (h : headConn b = some c) :
    b = Expr.node (Sym.conn c) (argsOf b) := by
  obtain ⟨s, args⟩ := b
  cases s
  case conn ne' =>
    have hc : ne' = c := by simpa [headConn] using h
    subst hc
    rfl
  all_goals exact absurd h (by simp [headConn])

theorem negateE_inj (x y : Expr) (hx : canonE x = true) (hy : canonE y = true)
    (h : negateE x = negateE y) : x = y := by
  have h2 := congrArg negateE h
  rwa [negateE_invol x hx, negateE_invol y hy] at h2

theorem mem_negList (x : Expr) (l : List Expr) :
    x ∈ negList l ↔ ∃ y ∈ l, negateE y = x := by
  rw [negList_eq_map, List.mem_map]

theorem negList_mem_iff (x : Expr) (l : List Expr) (hx : canonE x = true)
    (hl : canonList l = true) : negateE x ∈ negList l ↔ x ∈ l := by
  rw [mem_negList]
  constructor
  · rintro ⟨y, hy, hyx⟩
    have hxy : y = x :=
      negateE_inj y x ((canonList_iff l).mp hl y hy) hx hyx
    rw [← hxy]
    exact hy
  · intro hxl
    exact ⟨x, hxl, rfl⟩

theorem headConn_negateE (x : Expr) (h : canonE x = true) :
    headConn (negateE x) = Option.map (fun c => !c) (headConn x) := by
  obtain ⟨s, args⟩ := x
  cases s with
  | negator s =>
    cases args with
    | nil => exact absurd h (by simp [canonE])
    | cons y rest =>
      cases rest with
      | nil =>
        simp only [canonE, Bool.and_eq_true] at h
        rw [show negateE (Expr.node (Sym.negator s) [y]) = y from rfl,
          atomHead_headConn y h.1.1]
        rfl
      | cons z zs => exact absurd h (by simp [canonE])
  | conn ne => rfl
  | boolConst b => rfl
  | intConst k => rfl
  | sum => rfl
  | varSym s i => rfl
  | tseitin w => rfl
  | fnSym s ss i => rfl
  | impl => rfl
  | intEq => rfl
  | wrapper os i => rfl

theorem headConn_negateE_some (a : Expr) (ha : canonE a = true) (c : Bool) :
    headConn (negateE a) = some c ↔ headConn a = some (!c) := by
  rw [headConn_negateE a ha]
  cases hh : headConn a with
  | none => simp
  | some d => cases c <;> cases d <;> simp

theorem headSum_negateE (x : Expr) (h : canonE x = true) :
    headSym (negateE x) = Sym.sum ↔ headSym x = Sym.sum := by
  obtain ⟨s, args⟩ := x
  cases s with
  | negator s =>
    cases args with
    | nil => exact absurd h (by simp [canonE])
    | cons y rest =>
      cases rest with
      | nil =>
        simp only [canonE, Bool.and_eq_true] at h
        rw [show negateE (Expr.node (Sym.negator s) [y]) = y from rfl]
        have hy := h.1.1
        constructor
        · intro hsum
          rw [hsum] at hy
          exact absurd hy (by simp [atomHead])
        · intro hsum
          exact absurd hsum (fun h' => Sym.noConfusion h')
      | cons z zs => exact absurd h (by simp [canonE])
  | conn ne => exact ⟨fun h' => Sym.noConfusion h', fun h' => Sym.noConfusion h'⟩
  | boolConst b => exact ⟨fun h' => Sym.noConfusion h', fun h' => Sym.noConfusion h'⟩
  | intConst k => exact ⟨fun h' => Sym.noConfusion h', fun h' => Sym.noConfusion h'⟩
  | sum => exact ⟨fun _ => rfl, fun _ => rfl⟩
  | varSym s i => exact ⟨fun h' => Sym.noConfusion h', fun h' => Sym.noConfusion h'⟩
  | tseitin w => exact ⟨fun h' => Sym.noConfusion h', fun h' => Sym.noConfusion h'⟩
  | fnSym s ss i => exact ⟨fun h' => Sym.noConfusion h', fun h' => Sym.noConfusion h'⟩
  | impl => exact ⟨fun h' => Sym.noConfusion h', fun h' => Sym.noConfusion h'⟩
  | intEq => exact ⟨fun h' => Sym.noConfusion h', fun h' => Sym.noConfusion h'⟩
  | wrapper os i => exact ⟨fun h' => Sym.noConfusion h', fun h' => Sym.noConfusion h'⟩

theorem beqSym_false_iff (a b : Sym) : beqSym a b = false ↔ ¬ a = b := by
  rw [← Bool.not_eq_true]
  exact not_congr (beqSym_iff a b)

theorem negList_length (l : List Expr) : (negList l).length = l.length := by
  rw [negList_eq_map, List.length_map]

theorem sortE_length (l : List Expr) : (sortE l).length = l.length :=
  (sortE_perm l).length_eq

mutual

theorem canonE_negateE : ∀ e : Expr, canonE e = true → canonE (negateE e) = true
  | Expr.node (Sym.boolConst b) args, h => by
    have ha : args = [] := by simpa [canonE, List.isEmpty_iff] using h
    subst ha
    rfl
  | Expr.node (Sym.intConst k) args, h => by
    have ha : args = [] := by simpa [canonE, List.isEmpty_iff] using h
    subst ha
    rfl
  | Expr.node (Sym.negator s) args, h => by
    cases args with
    | nil => exact absurd h (by simp [canonE])
    | cons x rest =>
      cases rest with
      | nil =>
        simp only [canonE, Bool.and_eq_true] at h
        rw [show negateE (Expr.node (Sym.negator s) [x]) = x from rfl]
        exact h.2
      | cons y ys => exact absurd h (by simp [canonE])
  | Expr.node (Sym.conn ne) args, h => by
    simp only [canonE, Bool.and_eq_true] at h
    obtain ⟨⟨⟨⟨⟨hlen, hcl⟩, hall⟩, hchain⟩, hpw⟩, hpwn⟩ := h
    rw [show negateE (Expr.node (Sym.conn ne) args) =
      Expr.node (Sym.conn !ne) (sortE (negList args)) from rfl]
    have hnl : canonList (negList args) = true := canonList_negList args hcl
    have hmemargs : ∀ x ∈ args, canonE x = true := (canonList_iff args).mp hcl
    simp only [canonE, Bool.and_eq_true]
    refine ⟨⟨⟨⟨⟨?_, ?_⟩, ?_⟩, ?_⟩, ?_⟩, ?_⟩
    · rw [decide_eq_true_eq] at hlen ⊢
      rw [sortE_length, negList_length]
      exact hlen
    · rw [canonList_iff]
      intro x hx
      rw [memE_sortE] at hx
      exact (canonList_iff _).mp hnl x hx
    · rw [List.all_eq_true] at hall ⊢
      intro x hx
      rw [memE_sortE] at hx
      obtain ⟨y, hy, rfl⟩ := (mem_negList x args).mp hx
      have hy' := hall y hy
      rw [Bool.and_eq_true] at hy'
      rw [Bool.and_eq_true]
      refine ⟨?_, ?_⟩
      · rw [beqSSort_iff, sortOf_negateE y (hmemargs y hy)]
        exact (beqSSort_iff _ _).mp hy'.1
      · rw [Bool.not_eq_true', beq_eq_false_iff_ne]
        intro hc
        rw [headConn_negateE_some y (hmemargs y hy), Bool.not_not] at hc
        have h2 := hy'.2
        rw [Bool.not_eq_true', beq_eq_false_iff_ne] at h2
        exact h2 hc
    · rw [chainLeE_iff]
      exact chain_sortE (negList args)
    · rw [pairwiseIrred_iff]
      have hsym : ∀ {x y : Expr},
          (strongIrredAC (Sym.conn !ne) x y = true ∧
           strongIrredAC (Sym.conn !ne) y x = true) →
          (strongIrredAC (Sym.conn !ne) y x = true ∧
           strongIrredAC (Sym.conn !ne) x y = true) :=
        fun hxy => ⟨hxy.2, hxy.1⟩
      rw [List.Perm.pairwise_iff hsym (sortE_perm (negList args))]
      exact (pairwiseIrred_iff _ _).mp hpwn
    · have hperm2 : List.Perm (negList (sortE (negList args))) args := by
        rw [negList_eq_map]
        have h2 := (sortE_perm (negList args)).map negateE
        have h3 : List.map negateE (negList args) = args := by
          rw [← negList_eq_map]
          exact negList_invol args hcl
        rw [h3] at h2
        exact h2
      rw [Bool.not_not, pairwiseIrred_iff]
      have hsym2 : ∀ {x y : Expr},
          (strongIrredAC (Sym.conn ne) x y = true ∧
           strongIrredAC (Sym.conn ne) y x = true) →
          (strongIrredAC (Sym.conn ne) y x = true ∧
           strongIrredAC (Sym.conn ne) x y = true) :=
        fun hxy => ⟨hxy.2, hxy.1⟩
      rw [List.Perm.pairwise_iff hsym2 hperm2]
      exact (pairwiseIrred_iff _ _).mp hpw
  | Expr.node Sym.sum args, h => by
    simp only [canonE, Bool.and_eq_true] at h
    obtain ⟨⟨⟨⟨⟨hlen, hcl⟩, hall⟩, hchain⟩, hpw⟩, hpwn⟩ := h
    rw [show negateE (Expr.node Sym.sum args) =
      Expr.node Sym.sum (sortE (negList args)) from rfl]
    have hnl : canonList (negList args) = true := canonList_negList args hcl
    have hmemargs : ∀ x ∈ args, canonE x = true := (canonList_iff args).mp hcl
    simp only [canonE, Bool.and_eq_true]
    refine ⟨⟨⟨⟨⟨?_, ?_⟩, ?_⟩, ?_⟩, ?_⟩, ?_⟩
    · rw [decide_eq_true_eq] at hlen ⊢
      rw [sortE_length, negList_length]
      exact hlen
    · rw [canonList_iff]
      intro x hx
      rw [memE_sortE] at hx
      exact (canonList_iff _).mp hnl x hx
    · rw [List.all_eq_true] at hall ⊢
      intro x hx
      rw [memE_sortE] at hx
      obtain ⟨y, hy, rfl⟩ := (mem_negList x args).mp hx
      have hy' := hall y hy
      rw [Bool.and_eq_true] at hy'
      rw [Bool.and_eq_true]
      refine ⟨?_, ?_⟩
      · rw [beqSSort_iff, sortOf_negateE y (hmemargs y hy)]
        exact (beqSSort_iff _ _).mp hy'.1
      · rw [Bool.not_eq_true', beqSym_false_iff]
        intro hc
        rw [headSum_negateE y (hmemargs y hy)] at hc
        have h2 := hy'.2
        rw [Bool.not_eq_true', beqSym_false_iff] at h2
        exact h2 hc
    · rw [chainLeE_iff]
      exact chain_sortE (negList args)
    · rw [pairwiseIrred_iff]
      have hsym : ∀ {x y : Expr},
          (strongIrredAC Sym.sum x y = true ∧
           strongIrredAC Sym.sum y x = true) →
          (strongIrredAC Sym.sum y x = true ∧
           strongIrredAC Sym.sum x y = true) :=
        fun hxy => ⟨hxy.2, hxy.1⟩
      rw [List.Perm.pairwise_iff hsym (sortE_perm (negList args))]
      exact (pairwiseIrred_iff _ _).mp hpwn
    · have hperm2 : List.Perm (negList (sortE (negList args))) args := by
        rw [negList_eq_map]
        have h2 := (sortE_perm (negList args)).map negateE
        have h3 : List.map negateE (negList args) = args := by
          rw [← negList_eq_map]
          exact negList_invol args hcl
        rw [h3] at h2
        exact h2
      rw [pairwiseIrred_iff]
      have hsym2 : ∀ {x y : Expr},
          (strongIrredAC Sym.sum x y = true ∧
           strongIrredAC Sym.sum y x = true) →
          (strongIrredAC Sym.sum y x = true ∧
           strongIrredAC Sym.sum x y = true) :=
        fun hxy => ⟨hxy.2, hxy.1⟩
      rw [List.Perm.pairwise_iff hsym2 hperm2]
      exact (pairwiseIrred_iff _ _).mp hpw
  | Expr.node (Sym.varSym s i) args, h => by
    show (atomHead (headSym (Expr.node (Sym.varSym s i) args)) &&
      beqSSort (sortOf (Expr.node (Sym.varSym s i) args))
        (sortOf (Expr.node (Sym.varSym s i) args)) &&
      canonE (Expr.node (Sym.varSym s i) args)) = true
    rw [Bool.and_eq_true, Bool.and_eq_true]
    exact ⟨⟨rfl, (beqSSort_iff _ _).mpr rfl⟩, h⟩
  | Expr.node (Sym.tseitin w) args, h => by
    show (atomHead (headSym (Expr.node (Sym.tseitin w) args)) &&
      beqSSort (sortOf (Expr.node (Sym.tseitin w) args))
        (sortOf (Expr.node (Sym.tseitin w) args)) &&
      canonE (Expr.node (Sym.tseitin w) args)) = true
    rw [Bool.and_eq_true, Bool.and_eq_true]
    exact ⟨⟨rfl, (beqSSort_iff _ _).mpr rfl⟩, h⟩
  | Expr.node (Sym.fnSym s ss i) args, h => by
    show (atomHead (headSym (Expr.node (Sym.fnSym s ss i) args)) &&
      beqSSort (sortOf (Expr.node (Sym.fnSym s ss i) args))
        (sortOf (Expr.node (Sym.fnSym s ss i) args)) &&
      canonE (Expr.node (Sym.fnSym s ss i) args)) = true
    rw [Bool.and_eq_true, Bool.and_eq_true]
    exact ⟨⟨rfl, (beqSSort_iff _ _).mpr rfl⟩, h⟩
  | Expr.node Sym.impl args, h => by
    show (atomHead (headSym (Expr.node Sym.impl args)) &&
      beqSSort (sortOf (Expr.node Sym.impl args))
        (sortOf (Expr.node Sym.impl args)) &&
      canonE (Expr.node Sym.impl args)) = true
    rw [Bool.and_eq_true, Bool.and_eq_true]
    exact ⟨⟨rfl, (beqSSort_iff _ _).mpr rfl⟩, h⟩
  | Expr.node Sym.intEq args, h => by
    show (atomHead (headSym (Expr.node Sym.intEq args)) &&
      beqSSort (sortOf (Expr.node Sym.intEq args))
        (sortOf (Expr.node Sym.intEq args)) &&
      canonE (Expr.node Sym.intEq args)) = true
    rw [Bool.and_eq_true, Bool.and_eq_true]
    exact ⟨⟨rfl, (beqSSort_iff _ _).mpr rfl⟩, h⟩
  | Expr.node (Sym.wrapper os i) args, h => by
    show (atomHead (headSym (Expr.node (Sym.wrapper os i) args)) &&
      beqSSort (sortOf (Expr.node (Sym.wrapper os i) args))
        (sortOf (Expr.node (Sym.wrapper os i) args)) &&
      canonE (Expr.node (Sym.wrapper os i) args)) = true
    rw [Bool.and_eq_true, Bool.and_eq_true]
    exact ⟨⟨rfl, (beqSSort_iff _ _).mpr rfl⟩, h⟩

theorem canonList_negList : ∀ l : List Expr, canonList l = true →
    canonList (negList l) = true
  | [], _ => rfl
  | e :: rest, h => by
    have hstep : canonList (e :: rest) = (canonE e && canonList rest) := rfl
    rw [hstep, Bool.and_eq_true] at h
    rw [show negList (e :: rest) = negateE e :: negList rest from rfl,
      show canonList (negateE e :: negList rest) =
        (canonE (negateE e) && canonList (negList rest)) from rfl,
      Bool.and_eq_true]
    exact ⟨canonE_negateE e h.1, canonList_negList rest h.2⟩

end

theorem one_le_negFuel (e : Expr) : 1 ≤ negFuel e := by
  obtain ⟨s, args⟩ := e
  cases s <;> simp [negFuel]

/-! # Fuel monotonicity of the AC reduction loop -/

theorem connBinF_conn_succ (n : Nat) (ne ne' : Bool) (a : Expr)
    (bargs : List Expr) :
    connBinF (n + 1) ne a (Expr.node (Sym.conn ne') bargs) =
      (if beqE a (Expr.node (Sym.conn ne') bargs) then some (some a)
       else if beqE a (negateE (Expr.node (Sym.conn ne') bargs)) then
         some (some (boolE (!ne)))
       else if beqE a (boolE ne) then some (some (Expr.node (Sym.conn ne') bargs))
       else if beqE a (boolE (!ne)) then some (some a)
       else if ne' = !ne then
         (if memE (negateE a) (dedupE bargs) then do
            let rr ← applyAcF n (Sym.conn ne)
              (a :: (dedupE bargs).filter (fun y => !(beqE y (negateE a))))
            some (some rr)
          else
            if subsetE (aSetE ne a) (dedupE bargs) then some (some a)
            else if ((aSetE ne a).filter
                (fun y => memE y (dedupE bargs))).isEmpty then some none
            else do
              let ra ← applyAcF n (Sym.conn (!ne))
                ((aSetE ne a).filter (fun y => !(memE y (dedupE bargs))))
              let rb ← applyAcF n (Sym.conn (!ne))
                ((dedupE bargs).filter (fun y => !(memE y (aSetE ne a))))
              if beqE ra (negateE rb) then do
                let rc ← applyAcF n (Sym.conn (!ne))
                  ((aSetE ne a).filter (fun y => memE y (dedupE bargs)))
                some (some rc)
              else some none)
       else some none) := by
  obtain ⟨sa, aargs⟩ := a
  cases sa <;> rfl

theorem reduceAcF_eq (acs : Sym) (n : Nat) (args : List Expr) :
    reduceAcF (n + 1) acs args = (do
      let (exprs, res) ← flattenF n acs args.reverse [] []
      let (exprs, res) ← acTasksF n acs exprs res [(res, res)]
      let newArgs := sortE (res.filterMap (fun i => exprs.get? i))
      match newArgs with
      | [e] => if isValencySym (headSym e) then pure e else pure (Expr.node acs newArgs)
      | _ => pure (Expr.node acs newArgs)) := rfl

theorem flattenF_mono : ∀ (n : Nat) (acs : Sym) (stack exprs : List Expr)
    (dest : List Nat) (r : List Expr × List Nat),
    flattenF n acs stack exprs dest = some r →
    flattenF (n + 1) acs stack exprs dest = some r
  | 0, _, _, _, _, _, h => Option.noConfusion h
  | n + 1, acs, stack, exprs, dest, r, h => by
    cases stack with
    | nil => exact h
    | cons e rest =>
      obtain ⟨s, args⟩ := e
      rw [show flattenF (n + 1) acs (Expr.node s args :: rest) exprs dest =
        (if beqSym s acs then
          flattenF n acs (args.reverse ++ rest) exprs dest
        else
          flattenF n acs rest (exprs ++ [Expr.node s args])
            (dest ++ [exprs.length])) from rfl] at h
      show (if beqSym s acs then
          flattenF (n + 1) acs (args.reverse ++ rest) exprs dest
        else
          flattenF (n + 1) acs rest (exprs ++ [Expr.node s args])
            (dest ++ [exprs.length])) = some r
      by_cases hb : beqSym s acs = true
      · rw [if_pos hb] at h ⊢
        exact flattenF_mono n acs (args.reverse ++ rest) exprs dest r h
      · rw [if_neg hb] at h ⊢
        exact flattenF_mono n acs rest (exprs ++ [Expr.node s args])
          (dest ++ [exprs.length]) r h

mutual

theorem applyAcF_mono : ∀ (n : Nat) (acs : Sym) (args : List Expr) (r : Expr),
    applyAcF n acs args = some r → applyAcF (n + 1) acs args = some r
  | 0, _, _, _, h => Option.noConfusion h
  | n + 1, acs, args, r, h => by
    rw [show applyAcF (n + 1) acs args =
      (if checkMultiary (acArgSort acs) args then reduceAcF n acs args
       else some (Expr.node (Sym.wrapper (some acs) 0) args)) from rfl] at h
    show (if checkMultiary (acArgSort acs) args then reduceAcF (n + 1) acs args
      else some (Expr.node (Sym.wrapper (some acs) 0) args)) = some r
    by_cases hc : checkMultiary (acArgSort acs) args = true
    · rw [if_pos hc] at h ⊢
      exact reduceAcF_mono n acs args r h
    · rw [if_neg hc] at h ⊢
      exact h

theorem reduceAcF_mono : ∀ (n : Nat) (acs : Sym) (args : List Expr) (r : Expr),
    reduceAcF n acs args = some r → reduceAcF (n + 1) acs args = some r
  | 0, _, _, _, h => Option.noConfusion h
  | n + 1, acs, args, r, h => by
    rw [reduceAcF_eq] at h
    rw [reduceAcF_eq]
    cases hf : flattenF n acs args.reverse [] [] with
    | none => rw [hf] at h; exact absurd h (by simp)
    | some p =>
      obtain ⟨exprs1, res1⟩ := p
      rw [hf] at h
      rw [flattenF_mono n acs args.reverse [] [] (exprs1, res1) hf]
      simp only [Option.pure_def, Option.bind_eq_bind, Option.some_bind] at h ⊢
      cases ht : acTasksF n acs exprs1 res1 [(res1, res1)] with
      | none => rw [ht] at h; exact absurd h (by simp)
      | some q =>
        rw [ht] at h
        rw [acTasksF_mono n acs exprs1 res1 [(res1, res1)] q ht]
        exact h

theorem acTasksF_mono : ∀ (n : Nat) (acs : Sym) (exprs : List Expr)
    (res : List Nat) (tasks : List (List Nat × List Nat))
    (r : List Expr × List Nat),
    acTasksF n acs exprs res tasks = some r →
    acTasksF (n + 1) acs exprs res tasks = some r
  | 0, _, _, _, _, _, h => Option.noConfusion h
  | n + 1, acs, exprs, res, tasks, r, h => by
    cases tasks with
    | nil => exact h
    | cons t tasks2 =>
      obtain ⟨first, second⟩ := t
      rw [show acTasksF (n + 1) acs exprs res ((first, second) :: tasks2) = (do
        let (e2, r2, _, c2) ← acFirstF n acs first
          (second.filter (fun i => i ∈ res)) exprs res []
        if c2.isEmpty then acTasksF n acs e2 r2 tasks2
        else acTasksF n acs e2 (r2 ++ c2) ((c2, c2) :: (c2, r2) :: (r2, c2) :: tasks2)) from rfl] at h
      rw [show acTasksF (n + 1 + 1) acs exprs res ((first, second) :: tasks2) = (do
        let (e2, r2, _, c2) ← acFirstF (n + 1) acs first
          (second.filter (fun i => i ∈ res)) exprs res []
        if c2.isEmpty then acTasksF (n + 1) acs e2 r2 tasks2
        else acTasksF (n + 1) acs e2 (r2 ++ c2) ((c2, c2) :: (c2, r2) :: (r2, c2) :: tasks2)) from rfl]
      cases hfst : acFirstF n acs first (second.filter (fun i => i ∈ res))
          exprs res [] with
      | none => rw [hfst] at h; exact absurd h (by simp)
      | some q =>
        obtain ⟨e2, r2, s2, c2⟩ := q
        rw [hfst] at h
        rw [acFirstF_mono n acs first (second.filter (fun i => i ∈ res))
          exprs res [] (e2, r2, s2, c2) hfst]
        simp only [Option.pure_def, Option.bind_eq_bind, Option.some_bind] at h ⊢
        by_cases hemp : c2.isEmpty = true
        · rw [if_pos hemp] at h ⊢
          exact acTasksF_mono n acs e2 r2 tasks2 r h
        · rw [if_neg hemp] at h ⊢
          exact acTasksF_mono n acs e2 (r2 ++ c2)
            ((c2, c2) :: (c2, r2) :: (r2, c2) :: tasks2) r h

theorem acFirstF_mono : ∀ (n : Nat) (acs : Sym) (first secondL : List Nat)
    (exprs : List Expr) (res created : List Nat)
    (r : List Expr × List Nat × List Nat × List Nat),
    acFirstF n acs first secondL exprs res created = some r →
    acFirstF (n + 1) acs first secondL exprs res created = some r
  | 0, _, _, _, _, _, _, _, h => Option.noConfusion h
  | n + 1, acs, first, secondL, exprs, res, created, r, h => by
    cases first with
    | nil => exact h
    | cons a first2 =>
      rw [show acFirstF (n + 1) acs (a :: first2) secondL exprs res created =
        (if a ∈ res then do
          let (e2, r2, s2, c2, _) ← acInnerF n acs a 0 secondL exprs res created
          acFirstF n acs first2 s2 e2 r2 c2
        else acFirstF n acs first2 secondL exprs res created) from rfl] at h
      rw [show acFirstF (n + 1 + 1) acs (a :: first2) secondL exprs res created =
        (if a ∈ res then do
          let (e2, r2, s2, c2, _) ← acInnerF (n + 1) acs a 0 secondL exprs res created
          acFirstF (n + 1) acs first2 s2 e2 r2 c2
        else acFirstF (n + 1) acs first2 secondL exprs res created) from rfl]
      by_cases hmem : a ∈ res
      · rw [if_pos hmem] at h ⊢
        cases hin : acInnerF n acs a 0 secondL exprs res created with
        | none => rw [hin] at h; exact absurd h (by simp)
        | some q =>
          obtain ⟨e2, r2, s2, c2, fl⟩ := q
          rw [hin] at h
          rw [acInnerF_mono n acs a 0 secondL exprs res created
            (e2, r2, s2, c2, fl) hin]
          simp only [Option.pure_def, Option.bind_eq_bind, Option.some_bind] at h ⊢
          exact acFirstF_mono n acs first2 s2 e2 r2 c2 r h
      · rw [if_neg hmem] at h ⊢
        exact acFirstF_mono n acs first2 secondL exprs res created r h

theorem acInnerF_mono : ∀ (n : Nat) (acs : Sym) (a i : Nat)
    (secondL : List Nat) (exprs : List Expr) (res created : List Nat)
    (r : List Expr × List Nat × List Nat × List Nat × Bool),
    acInnerF n acs a i secondL exprs res created = some r →
    acInnerF (n + 1) acs a i secondL exprs res created = some r
  | 0, _, _, _, _, _, _, _, _, h => Option.noConfusion h
  | n + 1, acs, a, i, secondL, exprs, res, created, r, h => by
    rw [show acInnerF (n + 1) acs a i secondL exprs res created =
      (match secondL.get? i with
       | none => some (exprs, res, secondL, created, false)
       | some b =>
         if a ≠ b ∧ b ∈ res then do
           let ea ← exprs.get? a
           let eb ← exprs.get? b
           let c? ← acBinF n acs ea eb
           match c? with
           | none => acInnerF n acs a (i + 1) secondL exprs res created
           | some c => do
             let res2 := (res.erase a).erase b
             let (e2, c2) ← flattenF n acs [c] exprs created
             some (e2, res2, swapPopAt i secondL, c2, true)
         else acInnerF n acs a (i + 1) secondL exprs res created) from rfl] at h
    rw [show acInnerF (n + 1 + 1) acs a i secondL exprs res created =
      (match secondL.get? i with
       | none => some (exprs, res, secondL, created, false)
       | some b =>
         if a ≠ b ∧ b ∈ res then do
           let ea ← exprs.get? a
           let eb ← exprs.get? b
           let c? ← acBinF (n + 1) acs ea eb
           match c? with
           | none => acInnerF (n + 1) acs a (i + 1) secondL exprs res created
           | some c => do
             let res2 := (res.erase a).erase b
             let (e2, c2) ← flattenF (n + 1) acs [c] exprs created
             some (e2, res2, swapPopAt i secondL, c2, true)
         else acInnerF (n + 1) acs a (i + 1) secondL exprs res created) from rfl]
    cases hg : secondL.get? i with
    | none => rw [hg] at h; exact h
    | some b =>
      rw [hg] at h
      dsimp only at h ⊢
      by_cases hcond : a ≠ b ∧ b ∈ res
      · rw [if_pos hcond] at h ⊢
        cases hea : exprs.get? a with
        | none => rw [hea] at h; exact absurd h (by simp)
        | some ea =>
          try rw [hea] at h
          try rw [hea]
          simp only [Option.pure_def, Option.bind_eq_bind, Option.some_bind] at h ⊢
          cases heb : exprs.get? b with
          | none => rw [heb] at h; exact absurd h (by simp)
          | some eb =>
            try rw [heb] at h
            try rw [heb]
            simp only [Option.pure_def, Option.bind_eq_bind, Option.some_bind] at h ⊢
            cases hbin : acBinF n acs ea eb with
            | none => rw [hbin] at h; exact absurd h (by simp)
            | some c? =>
              rw [hbin] at h
              rw [acBinF_mono n acs ea eb c? hbin]
              simp only [Option.pure_def, Option.bind_eq_bind,
                Option.some_bind] at h ⊢
              cases c? with
              | none =>
                exact acInnerF_mono n acs a (i + 1) secondL exprs res created r h
              | some c =>
                dsimp only at h ⊢
                cases hfl : flattenF n acs [c] exprs created with
                | none => rw [hfl] at h; exact absurd h (by simp)
                | some q =>
                  obtain ⟨e2, c2⟩ := q
                  rw [hfl] at h
                  rw [flattenF_mono n acs [c] exprs created (e2, c2) hfl]
                  exact h
      · rw [if_neg hcond] at h ⊢
        exact acInnerF_mono n acs a (i + 1) secondL exprs res created r h

theorem acBinF_mono : ∀ (n : Nat) (acs : Sym) (a b : Expr) (r : Option Expr),
    acBinF n acs a b = some r → acBinF (n + 1) acs a b = some r
  | 0, _, _, _, _, h => Option.noConfusion h
  | n + 1, acs, a, b, r, h => by
    cases acs with
    | conn ne =>
      show connBinF (n + 1) ne a b = some r
      exact connBinF_mono n ne a b r h
    | sum => exact h
    | negator s => exact h
    | boolConst x => exact h
    | intConst x => exact h
    | varSym s i => exact h
    | tseitin w => exact h
    | fnSym s ss i => exact h
    | impl => exact h
    | intEq => exact h
    | wrapper os i => exact h

theorem connBinF_mono : ∀ (n : Nat) (ne : Bool) (a b : Expr) (r : Option Expr),
    connBinF n ne a b = some r → connBinF (n + 1) ne a b = some r
  | 0, _, _, _, _, h => Option.noConfusion h
  | n + 1, ne, a, b, r, h => by
    obtain ⟨sb, bargs⟩ := b
    cases sb with
    | conn ne' =>
      rw [connBinF_conn_succ] at h
      rw [connBinF_conn_succ]
      by_cases h1 : beqE a (Expr.node (Sym.conn ne') bargs) = true
      · rw [if_pos h1] at h ⊢; exact h
      rw [if_neg h1] at h ⊢
      by_cases h2 : beqE a (negateE (Expr.node (Sym.conn ne') bargs)) = true
      · rw [if_pos h2] at h ⊢; exact h
      rw [if_neg h2] at h ⊢
      by_cases h3 : beqE a (boolE ne) = true
      · rw [if_pos h3] at h ⊢; exact h
      rw [if_neg h3] at h ⊢
      by_cases h4 : beqE a (boolE (!ne)) = true
      · rw [if_pos h4] at h ⊢; exact h
      rw [if_neg h4] at h ⊢
      by_cases hne : ne' = !ne
      · rw [if_pos hne] at h ⊢
        by_cases hmem : memE (negateE a) (dedupE bargs) = true
        · rw [if_pos hmem] at h ⊢
          cases happ : applyAcF n (Sym.conn ne)
              (a :: (dedupE bargs).filter (fun y => !(beqE y (negateE a)))) with
          | none => rw [happ] at h; exact absurd h (by simp)
          | some r2 =>
            rw [happ] at h
            rw [applyAcF_mono n (Sym.conn ne)
              (a :: (dedupE bargs).filter (fun y => !(beqE y (negateE a)))) r2 happ]
            exact h
        · rw [if_neg hmem] at h ⊢
          by_cases hsub : subsetE (aSetE ne a) (dedupE bargs) = true
          · rw [if_pos hsub] at h ⊢; exact h
          rw [if_neg hsub] at h ⊢
          by_cases hcom : ((aSetE ne a).filter
              (fun y => memE y (dedupE bargs))).isEmpty = true
          · rw [if_pos hcom] at h ⊢; exact h
          rw [if_neg hcom] at h ⊢
          cases hra : applyAcF n (Sym.conn (!ne))
              ((aSetE ne a).filter (fun y => !(memE y (dedupE bargs)))) with
          | none => rw [hra] at h; exact absurd h (by simp)
          | some ra =>
            rw [hra] at h
            rw [applyAcF_mono n (Sym.conn (!ne)) _ ra hra]
            simp only [Option.pure_def, Option.bind_eq_bind, Option.some_bind] at h ⊢
            cases hrb : applyAcF n (Sym.conn (!ne))
                ((dedupE bargs).filter (fun y => !(memE y (aSetE ne a)))) with
            | none => rw [hrb] at h; exact absurd h (by simp)
            | some rb =>
              rw [hrb] at h
              rw [applyAcF_mono n (Sym.conn (!ne)) _ rb hrb]
              simp only [Option.pure_def, Option.bind_eq_bind,
                Option.some_bind] at h ⊢
              by_cases hbeq : beqE ra (negateE rb) = true
              · rw [if_pos hbeq] at h ⊢
                cases hrc : applyAcF n (Sym.conn (!ne))
                    ((aSetE ne a).filter (fun y => memE y (dedupE bargs))) with
                | none => rw [hrc] at h; exact absurd h (by simp)
                | some rc =>
                  rw [hrc] at h
                  rw [applyAcF_mono n (Sym.conn (!ne)) _ rc hrc]
                  exact h
              · rw [if_neg hbeq] at h ⊢; exact h
      · rw [if_neg hne] at h ⊢; exact h
    | negator s => exact h
    | boolConst x => exact h
    | intConst x => exact h
    | varSym s i => exact h
    | tseitin w => exact h
    | fnSym s ss i => exact h
    | impl => exact h
    | intEq => exact h
    | sum => exact h
    | wrapper os i => exact h

end

theorem acBinF_mono_le (k m : Nat) (acs : Sym) (a b : Expr) (r : Option Expr)
    (hk : acBinF k acs a b = some r) (hkm : k ≤ m) : acBinF m acs a b = some r := by
  obtain ⟨d, rfl⟩ : ∃ d, m = k + d := ⟨m - k, by omega⟩
  clear hkm
  induction d with
  | zero => exact hk
  | succ d ih => exact acBinF_mono (k + d) acs a b r ih

theorem strongIrredAC_bin (acs : Sym) (a b : Expr) (m : Nat)
    (h : strongIrredAC acs a b = true) (hm : pairFuel a b ≤ m) :
    acBinF m acs a b = some none := by
  have hb : acBinF (pairFuel a b) acs a b = some none := by
    cases hx : acBinF (pairFuel a b) acs a b with
    | none => rw [strongIrredAC, hx] at h; exact absurd h (by simp)
    | some o =>
      cases o with
      | none => rfl
      | some c => rw [strongIrredAC, hx] at h; exact absurd h (by simp)
  exact acBinF_mono_le (pairFuel a b) m acs a b none hb hm

theorem sizeE_le_sizeList (x : Expr) : ∀ (l : List Expr), x ∈ l →
    sizeE x ≤ sizeList l
  | [], hx => absurd hx (List.not_mem_nil x)
  | e :: rest, hx => by
    rw [show sizeList (e :: rest) = sizeE e + sizeList rest from rfl]
    rcases List.mem_cons.mp hx with rfl | hx2
    · exact Nat.le_add_right _ _
    · have := sizeE_le_sizeList x rest hx2
      omega


theorem flattenF_no_spill (acs : Sym) :
    ∀ (stack : List Expr) (n : Nat) (exprs : List Expr) (dest : List Nat),
    stack.all (fun e => !(beqSym (headSym e) acs)) = true →
    stack.length + 1 ≤ n →
    flattenF n acs stack exprs dest =
      some (exprs ++ stack, dest ++ List.range' exprs.length stack.length)
  | [], n, exprs, dest, _, hn => by
    obtain ⟨m, rfl⟩ : ∃ m, n = m + 1 := ⟨n - 1, by omega⟩
    show some (exprs, dest) = _
    simp
  | e :: rest, n, exprs, dest, hall, hn => by
    obtain ⟨m, rfl⟩ : ∃ m, n = m + 1 := ⟨n - 1, by omega⟩
    obtain ⟨s, args⟩ := e
    simp only [List.all_cons, Bool.and_eq_true, Bool.not_eq_true'] at hall
    show (if beqSym s acs then
        flattenF m acs (args.reverse ++ rest) exprs dest
      else
        flattenF m acs rest (exprs ++ [Expr.node s args]) (dest ++ [exprs.length])) = _
    rw [show beqSym s acs = false from hall.1]
    simp only [Bool.false_eq_true, if_false]
    rw [flattenF_no_spill acs rest m (exprs ++ [Expr.node s args])
        (dest ++ [exprs.length]) (by simpa using hall.2) (by simpa using hn)]
    rw [List.append_assoc, List.singleton_append, List.append_assoc,
      List.singleton_append, List.length_append, List.length_singleton,
      List.length_cons, List.range'_succ]

theorem acInnerF_noop (acs : Sym) (B : Nat) :
    ∀ (n a i : Nat) (secondL : List Nat) (exprs : List Expr) (res created : List Nat),
    (∀ b ∈ secondL, a ≠ b → b ∈ res →
      ∃ ea eb, exprs.get? a = some ea ∧ exprs.get? b = some eb ∧
        (∀ m2, B ≤ m2 → acBinF m2 acs ea eb = some none)) →
    i ≤ secondL.length →
    secondL.length + 3 + B ≤ i + n →
    acInnerF n acs a i secondL exprs res created =
      some (exprs, res, secondL, created, false) := by
  intro n
  induction n with
  | zero => intro a i secondL exprs res created _ hi hn; omega
  | succ m ih =>
    intro a i secondL exprs res created H hi hn
    show (match secondL.get? i with
      | none => some (exprs, res, secondL, created, false)
      | some b =>
        if a ≠ b ∧ b ∈ res then do
          let ea ← exprs.get? a
          let eb ← exprs.get? b
          let c? ← acBinF m acs ea eb
          match c? with
          | none => acInnerF m acs a (i + 1) secondL exprs res created
          | some c => do
            let res := (res.erase a).erase b
            let (exprs, created) ← flattenF m acs [c] exprs created
            some (exprs, res, swapPopAt i secondL, created, true)
        else acInnerF m acs a (i + 1) secondL exprs res created) = _
    cases hget : secondL.get? i with
    | none => rfl
    | some b =>
      dsimp only
      have hilt : i < secondL.length := by
        by_contra hc
        rw [List.get?_eq_none.mpr (by omega)] at hget
        exact Option.noConfusion hget
      by_cases hcond : a ≠ b ∧ b ∈ res
      · rw [if_pos hcond]
        obtain ⟨ea, eb, hea, heb, hirr⟩ := H b (List.get?_mem hget) hcond.1 hcond.2
        rw [hea, heb]
        simp only [Option.pure_def, Option.bind_eq_bind, Option.some_bind]
        rw [hirr m (by omega)]
        simp only [Option.pure_def, Option.bind_eq_bind, Option.some_bind]
        exact ih a (i + 1) secondL exprs res created H (by omega) (by omega)
      · rw [if_neg hcond]
        exact ih a (i + 1) secondL exprs res created H (by omega) (by omega)

theorem acFirstF_noop (acs : Sym) (B : Nat) :
    ∀ (first : List Nat) (n : Nat) (secondL : List Nat) (exprs : List Expr)
      (res created : List Nat),
    (∀ a ∈ first, ∀ b ∈ secondL, a ≠ b → b ∈ res →
      ∃ ea eb, exprs.get? a = some ea ∧ exprs.get? b = some eb ∧
        (∀ m2, B ≤ m2 → acBinF m2 acs ea eb = some none)) →
    first.length + secondL.length + 5 + B ≤ n →
    acFirstF n acs first secondL exprs res created =
      some (exprs, res, secondL, created)
  | [], n, secondL, exprs, res, created, _, hn => by
    obtain ⟨m, rfl⟩ : ∃ m, n = m + 1 := ⟨n - 1, by omega⟩
    rfl
  | a :: first', n, secondL, exprs, res, created, H, hn => by
    obtain ⟨m, rfl⟩ : ∃ m, n = m + 1 := ⟨n - 1, by omega⟩
    show (if a ∈ res then do
        let (exprs, res, secondL, created, _) ←
          acInnerF m acs a 0 secondL exprs res created
        acFirstF m acs first' secondL exprs res created
      else acFirstF m acs first' secondL exprs res created) = _
    by_cases hmem : a ∈ res
    · rw [if_pos hmem]
      rw [acInnerF_noop acs B m a 0 secondL exprs res created
        (fun b hb hne hbr => H a (List.mem_cons_self a first') b hb hne hbr)
        (Nat.zero_le _) (by simp at hn ⊢; omega)]
      show acFirstF m acs first' secondL exprs res created = _
      exact acFirstF_noop acs B first' m secondL exprs res created
        (fun x hx => H x (List.mem_cons_of_mem a hx)) (by simp at hn ⊢; omega)
    · rw [if_neg hmem]
      exact acFirstF_noop acs B first' m secondL exprs res created
        (fun x hx => H x (List.mem_cons_of_mem a hx)) (by simp at hn ⊢; omega)

theorem acTasksF_cons (acs : Sym) (n : Nat) (exprs : List Expr)
    (res first second : List Nat) (tasks' : List (List Nat × List Nat)) :
    acTasksF (n + 1) acs exprs res ((first, second) :: tasks') = (do
      let secondL := second.filter (fun i => i ∈ res)
      let (exprs, res, _, created) ← acFirstF n acs first secondL exprs res []
      if created.isEmpty then
        acTasksF n acs exprs res tasks'
      else
        acTasksF n acs exprs (res ++ created)
          ((created, created) :: (created, res) :: (res, created) :: tasks')) := rfl

theorem acTasksF_single_noop (acs : Sym) (B n : Nat) (exprs : List Expr)
    (res : List Nat)
    (H : ∀ a ∈ res, ∀ b ∈ res, a ≠ b →
      ∃ ea eb, exprs.get? a = some ea ∧ exprs.get? b = some eb ∧
        (∀ m2, B ≤ m2 → acBinF m2 acs ea eb = some none))
    (hn : 2 * res.length + 8 + B ≤ n) :
    acTasksF n acs exprs res [(res, res)] = some (exprs, res) := by
  obtain ⟨m, rfl⟩ : ∃ m, n = m + 1 := ⟨n - 1, by omega⟩
  have hfilter : res.filter (fun i => i ∈ res) = res :=
    List.filter_eq_self.mpr (fun a ha => by simpa using ha)
  rw [acTasksF_cons]
  simp only [hfilter]
  rw [acFirstF_noop acs B res m res exprs res []
    (fun a ha b hb hne _ => H a ha b hb hne) (by omega)]
  simp only [Option.pure_def, Option.bind_eq_bind, Option.some_bind,
    List.isEmpty_nil, if_true]
  obtain ⟨k, rfl⟩ : ∃ k, m = k + 1 := ⟨m - 1, by omega⟩
  rfl

theorem filterMap_get?_pre : ∀ (l pre : List Expr),
    (List.range' pre.length l.length).filterMap (fun i => (pre ++ l).get? i) = l
  | [], pre => by simp
  | x :: rest, pre => by
    rw [List.length_cons, List.range'_succ, List.filterMap_cons]
    rw [show (pre ++ x :: rest).get? pre.length = some x by
      rw [List.get?_append_right (Nat.le_refl _)]
      simp]
    have ih := filterMap_get?_pre rest (pre ++ [x])
    rw [List.length_append, List.length_singleton] at ih
    rw [List.append_assoc, List.singleton_append] at ih
    rw [ih]

/-- A tuple of pairwise strongly irreducible, well-sorted arguments passes
through the whole `_reduce` loop untouched: the result is the node with the
sorted tuple. -/
theorem applyAc_strongIrred (acs : Sym) (args : List Expr) (B n : Nat)
    (hsort : checkMultiary (acArgSort acs) args = true)
    (hhead : args.all (fun a => !(beqSym (headSym a) acs)) = true)
    (hpair : List.Pairwise
      (fun a b => strongIrredAC acs a b = true ∧ strongIrredAC acs b a = true) args)
    (hB : ∀ x ∈ args, ∀ y ∈ args, pairFuel x y ≤ B)
    (hlen : 2 ≤ args.length)
    (hn : 3 * args.length + 12 + B ≤ n) :
    applyAcF n acs args = some (Expr.node acs (sortE args)) := by
  obtain ⟨m, rfl⟩ : ∃ m, n = m + 1 := ⟨n - 1, by omega⟩
  show (if checkMultiary (acArgSort acs) args then reduceAcF m acs args
    else some (Expr.node (Sym.wrapper (some acs) 0) args)) = _
  rw [if_pos hsort]
  obtain ⟨k, rfl⟩ : ∃ k, m = k + 1 := ⟨m - 1, by omega⟩
  rw [reduceAcF_eq]
  rw [flattenF_no_spill acs args.reverse k [] []
    (by simpa using hhead) (by simp; omega)]
  simp only [Option.pure_def, Option.bind_eq_bind, Option.some_bind,
    List.nil_append, List.length_nil]
  have hrev : List.Pairwise
      (fun a b => strongIrredAC acs a b = true ∧ strongIrredAC acs b a = true)
      args.reverse := by
    rw [List.pairwise_reverse]
    exact hpair.imp (fun h => ⟨h.2, h.1⟩)
  have hH : ∀ a ∈ List.range' 0 args.reverse.length,
      ∀ b ∈ List.range' 0 args.reverse.length, a ≠ b →
      ∃ ea eb, args.reverse.get? a = some ea ∧ args.reverse.get? b = some eb ∧
        (∀ m2, B ≤ m2 → acBinF m2 acs ea eb = some none) := by
    intro a ha b hb hne
    rw [List.mem_range'] at ha hb
    have ha' : a < args.reverse.length := by omega
    have hb' : b < args.reverse.length := by omega
    have hmema : args.reverse.get ⟨a, ha'⟩ ∈ args :=
      List.mem_reverse.mp (List.get_mem _ _ _)
    have hmemb : args.reverse.get ⟨b, hb'⟩ ∈ args :=
      List.mem_reverse.mp (List.get_mem _ _ _)
    have hirr : strongIrredAC acs (args.reverse.get ⟨a, ha'⟩)
        (args.reverse.get ⟨b, hb'⟩) = true := by
      rcases Nat.lt_or_ge a b with hab | hab
      · exact ((List.pairwise_iff_get.mp hrev) ⟨a, ha'⟩ ⟨b, hb'⟩ hab).1
      · have hba : b < a := by omega
        exact ((List.pairwise_iff_get.mp hrev) ⟨b, hb'⟩ ⟨a, ha'⟩ hba).2
    refine ⟨args.reverse.get ⟨a, ha'⟩, args.reverse.get ⟨b, hb'⟩,
      List.get?_eq_get ha', List.get?_eq_get hb', ?_⟩
    intro m2 hm2
    exact strongIrredAC_bin acs _ _ m2 hirr
      (le_trans (hB _ hmema _ hmemb) hm2)
  rw [acTasksF_single_noop acs B k args.reverse (List.range' 0 args.reverse.length)
    hH (by simp; omega)]
  simp only [Option.some_bind]
  have hfm : (List.range' 0 args.reverse.length).filterMap
      (fun i => args.reverse.get? i) = args.reverse := by
    have := filterMap_get?_pre args.reverse []
    simpa using this
  rw [hfm]
  have hsorteq : sortE args.reverse = sortE args :=
    sortE_perm_inv (List.reverse_perm args)
  rw [hsorteq]
  have hlen2 : 2 ≤ (sortE args).length := by
    rw [(sortE_perm args).length_eq]
    exact hlen
  obtain ⟨x, y, rest, hxy⟩ : ∃ x y rest, sortE args = x :: y :: rest := by
    cases hs : sortE args with
    | nil => rw [hs] at hlen2; simp at hlen2
    | cons x tail =>
      cases tail with
      | nil => rw [hs] at hlen2; simp at hlen2
      | cons y rest => exact ⟨x, y, rest, rfl⟩
  rw [hxy]


/-! # The `negated` field agrees with the structural negation -/

/-- On canonical expressions the `apply`-computed `negated` field is exactly
the structural negation `negateE`: the sort check passes (the negator is built
at the argument's own sort), the argument symbol's `_negate` answers for
negators, constants, connectives and sums — the connective/sum case re-applies
the opposite symbol to the negated arguments, which are pairwise strongly
irreducible (`canonE` records irreducibility of the stored negations, true of
kernel nodes because the kernel interns every expression together with its
pre-negated form), so the AC loop only sorts them — and every other head is
wrapped in a fresh negator node. -/
theorem negatedF_eq (e : Expr) (n : Nat) (h : canonE e = true)
    (hn : negFuel e ≤ n) : negatedF n e = some (negateE e) := by
  obtain ⟨m, rfl⟩ : ∃ m, n = m + 1 := ⟨n - 1, by have := one_le_negFuel e; omega⟩
  have hok : sortOkFor (sortOf e) e = true := by simp [sortOkFor]
  obtain ⟨s, args⟩ := e
  cases s with
  | negator s' =>
    cases args with
    | nil => exact absurd h (by simp [canonE])
    | cons x rest =>
      cases rest with
      | nil =>
        show (if sortOkFor (sortOf (Expr.node (Sym.negator s') [x]))
              (Expr.node (Sym.negator s') [x]) then
            some x
          else some (Expr.node
            (Sym.wrapper (some (Sym.negator (sortOf (Expr.node (Sym.negator s') [x])))) 0)
            [Expr.node (Sym.negator s') [x]])) =
          some (negateE (Expr.node (Sym.negator s') [x]))
        rw [if_pos hok]
        rfl
      | cons y ys => exact absurd h (by simp [canonE])
  | boolConst b =>
    have ha : args = [] := by simpa [canonE, List.isEmpty_iff] using h
    subst ha
    show (if sortOkFor (sortOf (Expr.node (Sym.boolConst b) []))
          (Expr.node (Sym.boolConst b) []) then
        some (boolE (!b))
      else some (Expr.node
        (Sym.wrapper (some (Sym.negator (sortOf (Expr.node (Sym.boolConst b) [])))) 0)
        [Expr.node (Sym.boolConst b) []])) =
      some (negateE (Expr.node (Sym.boolConst b) []))
    rw [if_pos hok]
    rfl
  | intConst k =>
    have ha : args = [] := by simpa [canonE, List.isEmpty_iff] using h
    subst ha
    show (if sortOkFor (sortOf (Expr.node (Sym.intConst k) []))
          (Expr.node (Sym.intConst k) []) then
        some (intE (-k))
      else some (Expr.node
        (Sym.wrapper (some (Sym.negator (sortOf (Expr.node (Sym.intConst k) [])))) 0)
        [Expr.node (Sym.intConst k) []])) =
      some (negateE (Expr.node (Sym.intConst k) []))
    rw [if_pos hok]
    rfl
  | conn ne =>
    simp only [canonE, Bool.and_eq_true] at h
    obtain ⟨⟨⟨⟨⟨hlen, hcl⟩, hall⟩, hchain⟩, hpw⟩, hpwn⟩ := h
    rw [decide_eq_true_eq] at hlen
    rw [List.all_eq_true] at hall
    have hmemargs := (canonList_iff args).mp hcl
    show (if sortOkFor (sortOf (Expr.node (Sym.conn ne) args))
          (Expr.node (Sym.conn ne) args) then
        applyAcF m (Sym.conn (!ne)) (negList args)
      else some (Expr.node
        (Sym.wrapper (some (Sym.negator (sortOf (Expr.node (Sym.conn ne) args)))) 0)
        [Expr.node (Sym.conn ne) args])) =
      some (negateE (Expr.node (Sym.conn ne) args))
    rw [if_pos hok]
    have hsortm : checkMultiary (acArgSort (Sym.conn (!ne))) (negList args) = true := by
      show (!(negList args).isEmpty && (negList args).all (sortOkFor SSort.bool)) = true
      rw [Bool.and_eq_true]
      refine ⟨?_, ?_⟩
      · rw [Bool.not_eq_true']
        cases hq : negList args with
        | nil =>
          have hl := negList_length args
          rw [hq] at hl
          simp at hl
          omega
        | cons hd tl => rfl
      · rw [List.all_eq_true]
        intro x hx
        obtain ⟨y, hy, rfl⟩ := (mem_negList x args).mp hx
        have hy' := hall y hy
        rw [Bool.and_eq_true] at hy'
        have hsy : sortOf (negateE y) = SSort.bool := by
          rw [sortOf_negateE y (hmemargs y hy)]
          exact (beqSSort_iff _ _).mp hy'.1
        simp [sortOkFor, hsy]
    have hheadm : (negList args).all
        (fun a => !(beqSym (headSym a) (Sym.conn (!ne)))) = true := by
      rw [List.all_eq_true]
      intro x hx
      obtain ⟨y, hy, rfl⟩ := (mem_negList x args).mp hx
      have hy' := hall y hy
      rw [Bool.and_eq_true] at hy'
      rw [Bool.not_eq_true', beqSym_false_iff]
      intro hc
      have hcc : headConn (negateE y) = some (!ne) := (headConn_headSym _ _).mpr hc
      rw [headConn_negateE_some y (hmemargs y hy), Bool.not_not] at hcc
      have h2 := hy'.2
      rw [Bool.not_eq_true', beq_eq_false_iff_ne] at h2
      exact h2 hcc
    have hpairm : List.Pairwise (fun a b =>
        strongIrredAC (Sym.conn (!ne)) a b = true ∧
        strongIrredAC (Sym.conn (!ne)) b a = true) (negList args) :=
      (pairwiseIrred_iff _ _).mp hpwn
    have hBm : ∀ x ∈ negList args, ∀ y ∈ negList args,
        pairFuel x y ≤ 6 * sizeList (negList args) + 30 := by
      intro x hx y hy
      have h1 := sizeE_le_sizeList x (negList args) hx
      have h2 := sizeE_le_sizeList y (negList args) hy
      show 3 * (sizeE x + sizeE y) + 30 ≤ 6 * sizeList (negList args) + 30
      omega
    have hlenm : 2 ≤ (negList args).length := by
      rw [negList_length]
      exact hlen
    have hfm : 3 * (negList args).length + 12 +
        (6 * sizeList (negList args) + 30) ≤ m := by
      rw [negList_length]
      have : negFuel (Expr.node (Sym.conn ne) args) =
        3 * args.length + 6 * sizeList (negList args) + 43 := rfl
      omega
    rw [applyAc_strongIrred (Sym.conn (!ne)) (negList args)
      (6 * sizeList (negList args) + 30) m hsortm hheadm hpairm hBm hlenm hfm]
    rfl
  | sum =>
    simp only [canonE, Bool.and_eq_true] at h
    obtain ⟨⟨⟨⟨⟨hlen, hcl⟩, hall⟩, hchain⟩, hpw⟩, hpwn⟩ := h
    rw [decide_eq_true_eq] at hlen
    rw [List.all_eq_true] at hall
    have hmemargs := (canonList_iff args).mp hcl
    show (if sortOkFor (sortOf (Expr.node Sym.sum args))
          (Expr.node Sym.sum args) then
        applyAcF m Sym.sum (negList args)
      else some (Expr.node
        (Sym.wrapper (some (Sym.negator (sortOf (Expr.node Sym.sum args)))) 0)
        [Expr.node Sym.sum args])) =
      some (negateE (Expr.node Sym.sum args))
    rw [if_pos hok]
    have hsortm : checkMultiary (acArgSort Sym.sum) (negList args) = true := by
      show (!(negList args).isEmpty && (negList args).all (sortOkFor SSort.int)) = true
      rw [Bool.and_eq_true]
      refine ⟨?_, ?_⟩
      · rw [Bool.not_eq_true']
        cases hq : negList args with
        | nil =>
          have hl := negList_length args
          rw [hq] at hl
          simp at hl
          omega
        | cons hd tl => rfl
      · rw [List.all_eq_true]
        intro x hx
        obtain ⟨y, hy, rfl⟩ := (mem_negList x args).mp hx
        have hy' := hall y hy
        rw [Bool.and_eq_true] at hy'
        have hsy : sortOf (negateE y) = SSort.int := by
          rw [sortOf_negateE y (hmemargs y hy)]
          exact (beqSSort_iff _ _).mp hy'.1
        simp [sortOkFor, hsy]
    have hheadm : (negList args).all
        (fun a => !(beqSym (headSym a) Sym.sum)) = true := by
      rw [List.all_eq_true]
      intro x hx
      obtain ⟨y, hy, rfl⟩ := (mem_negList x args).mp hx
      have hy' := hall y hy
      rw [Bool.and_eq_true] at hy'
      rw [Bool.not_eq_true', beqSym_false_iff]
      intro hc
      rw [headSum_negateE y (hmemargs y hy)] at hc
      have h2 := hy'.2
      rw [Bool.not_eq_true', beqSym_false_iff] at h2
      exact h2 hc
    have hpairm : List.Pairwise (fun a b =>
        strongIrredAC Sym.sum a b = true ∧
        strongIrredAC Sym.sum b a = true) (negList args) :=
      (pairwiseIrred_iff _ _).mp hpwn
    have hBm : ∀ x ∈ negList args, ∀ y ∈ negList args,
        pairFuel x y ≤ 6 * sizeList (negList args) + 30 := by
      intro x hx y hy
      have h1 := sizeE_le_sizeList x (negList args) hx
      have h2 := sizeE_le_sizeList y (negList args) hy
      show 3 * (sizeE x + sizeE y) + 30 ≤ 6 * sizeList (negList args) + 30
      omega
    have hlenm : 2 ≤ (negList args).length := by
      rw [negList_length]
      exact hlen
    have hfm : 3 * (negList args).length + 12 +
        (6 * sizeList (negList args) + 30) ≤ m := by
      rw [negList_length]
      have : negFuel (Expr.node Sym.sum args) =
        3 * args.length + 6 * sizeList (negList args) + 43 := rfl
      omega
    rw [applyAc_strongIrred Sym.sum (negList args)
      (6 * sizeList (negList args) + 30) m hsortm hheadm hpairm hBm hlenm hfm]
    rfl
  | varSym s' i =>
    show (if sortOkFor (sortOf (Expr.node (Sym.varSym s' i) args))
          (Expr.node (Sym.varSym s' i) args) then
        some (Expr.node (Sym.negator (sortOf (Expr.node (Sym.varSym s' i) args)))
          [Expr.node (Sym.varSym s' i) args])
      else some (Expr.node
        (Sym.wrapper (some (Sym.negator (sortOf (Expr.node (Sym.varSym s' i) args)))) 0)
        [Expr.node (Sym.varSym s' i) args])) =
      some (negateE (Expr.node (Sym.varSym s' i) args))
    rw [if_pos hok]
    rfl
  | tseitin w =>
    show (if sortOkFor (sortOf (Expr.node (Sym.tseitin w) args))
          (Expr.node (Sym.tseitin w) args) then
        some (Expr.node (Sym.negator (sortOf (Expr.node (Sym.tseitin w) args)))
          [Expr.node (Sym.tseitin w) args])
      else some (Expr.node
        (Sym.wrapper (some (Sym.negator (sortOf (Expr.node (Sym.tseitin w) args)))) 0)
        [Expr.node (Sym.tseitin w) args])) =
      some (negateE (Expr.node (Sym.tseitin w) args))
    rw [if_pos hok]
    rfl
  | fnSym s' ss i =>
    show (if sortOkFor (sortOf (Expr.node (Sym.fnSym s' ss i) args))
          (Expr.node (Sym.fnSym s' ss i) args) then
        some (Expr.node (Sym.negator (sortOf (Expr.node (Sym.fnSym s' ss i) args)))
          [Expr.node (Sym.fnSym s' ss i) args])
      else some (Expr.node
        (Sym.wrapper (some (Sym.negator (sortOf (Expr.node (Sym.fnSym s' ss i) args)))) 0)
        [Expr.node (Sym.fnSym s' ss i) args])) =
      some (negateE (Expr.node (Sym.fnSym s' ss i) args))
    rw [if_pos hok]
    rfl
  | impl =>
    show (if sortOkFor (sortOf (Expr.node Sym.impl args))
          (Expr.node Sym.impl args) then
        some (Expr.node (Sym.negator (sortOf (Expr.node Sym.impl args)))
          [Expr.node Sym.impl args])
      else some (Expr.node
        (Sym.wrapper (some (Sym.negator (sortOf (Expr.node Sym.impl args)))) 0)
        [Expr.node Sym.impl args])) =
      some (negateE (Expr.node Sym.impl args))
    rw [if_pos hok]
    rfl
  | intEq =>
    show (if sortOkFor (sortOf (Expr.node Sym.intEq args))
          (Expr.node Sym.intEq args) then
        some (Expr.node (Sym.negator (sortOf (Expr.node Sym.intEq args)))
          [Expr.node Sym.intEq args])
      else some (Expr.node
        (Sym.wrapper (some (Sym.negator (sortOf (Expr.node Sym.intEq args)))) 0)
        [Expr.node Sym.intEq args])) =
      some (negateE (Expr.node Sym.intEq args))
    rw [if_pos hok]
    rfl
  | wrapper os i =>
    show (if sortOkFor (sortOf (Expr.node (Sym.wrapper os i) args))
          (Expr.node (Sym.wrapper os i) args) then
        some (Expr.node (Sym.negator (sortOf (Expr.node (Sym.wrapper os i) args)))
          [Expr.node (Sym.wrapper os i) args])
      else some (Expr.node
        (Sym.wrapper (some (Sym.negator (sortOf (Expr.node (Sym.wrapper os i) args)))) 0)
        [Expr.node (Sym.wrapper os i) args])) =
      some (negateE (Expr.node (Sym.wrapper os i) args))
    rw [if_pos hok]
    rfl


/-! # Claim C7: double negation is the identity -/

/-- C7: on the expressions the kernel interns (canonical expressions, with
fuel covering the computation) the `negated` field is an involution:
`π.negated.negated` is `π` itself; and the constant special cases hold,
`IntConst(k).negated = IntConst(−k)` and `BoolConst(b).negated =
BoolConst(not b)`. -/
theorem negated_involution (e : Expr) (n : Nat) (k : Int) (b : Bool)
    (h : canonE e = true) (hn : negFuel e ≤ n)
    (hn2 : negFuel (negateE e) ≤ n) :
    (negatedF n e).bind (negatedF n) = some e ∧
    negatedF n (intE k) = some (intE (-k)) ∧
    negatedF n (boolE b) = some (boolE (!b)) := by
  have h1 : 1 ≤ n := le_trans (one_le_negFuel e) hn
  refine ⟨?_, ?_, ?_⟩
  · rw [negatedF_eq e n h hn, Option.some_bind,
      negatedF_eq (negateE e) n (canonE_negateE e h) hn2,
      negateE_invol e h]
  · rw [negatedF_eq (intE k) n rfl h1]
    rfl
  · rw [negatedF_eq (boolE b) n rfl h1]
    rfl

/-- Closed instance of `negated_involution`: the kernel normal form
`and(or(x0,x1), or(x0,x2))` — a conjunction whose opposite-connective
arguments share the literal `x0`, so its irreducibility rests on the
consensus-failure exit of `_binary_reduce` — plus the integer constant `5`
and the boolean constant `true`. -/
theorem negated_involution_witness :
    canonE (andE [orE [varB 0, varB 1], orE [varB 0, varB 2]]) = true ∧
    negFuel (andE [orE [varB 0, varB 1], orE [varB 0, varB 2]]) ≤ 109 ∧
    negFuel (negateE (andE [orE [varB 0, varB 1], orE [varB 0, varB 2]])) ≤ 109 ∧
    ((negatedF 109 (andE [orE [varB 0, varB 1], orE [varB 0, varB 2]])).bind
        (negatedF 109) =
       some (andE [orE [varB 0, varB 1], orE [varB 0, varB 2]]) ∧
     negatedF 109 (intE 5) = some (intE (-5)) ∧
     negatedF 109 (boolE true) = some (boolE (!true))) :=
  ⟨by decide, by decide, by decide,
   negated_involution (andE [orE [varB 0, varB 1], orE [varB 0, varB 2]])
     109 5 true (by decide) (by decide) (by decide)⟩


/-! # Claim C6: the connective reduction identities -/

theorem connBinF_eq (n : Nat) (ne : Bool) (a b : Expr) :
    connBinF (n + 1) ne a b =
      (if beqE a b then some (some a)
      else if beqE a (negateE b) then some (some (boolE (!ne)))
      else if beqE a (boolE ne) then some (some b)
      else if beqE a (boolE (!ne)) then some (some a)
      else
        match b with
        | Expr.node (Sym.conn ne') bargs =>
          if ne' = !ne then
            let bSet := dedupE bargs
            if memE (negateE a) bSet then do
              let r ← applyAcF n (Sym.conn ne)
                (a :: bSet.filter (fun y => !(beqE y (negateE a))))
              some (some r)
            else
              let aSet :=
                match a with
                | Expr.node (Sym.conn ne'') aargs =>
                  if ne'' = !ne then dedupE aargs else [a]
                | _ => [a]
              if subsetE aSet bSet then some (some a)
              else
                let common := aSet.filter (fun y => memE y bSet)
                if common.isEmpty then some none
                else do
                  let ra ← applyAcF n (Sym.conn (!ne))
                    (aSet.filter (fun y => !(memE y bSet)))
                  let rb ← applyAcF n (Sym.conn (!ne))
                    (bSet.filter (fun y => !(memE y aSet)))
                  if beqE ra (negateE rb) then do
                    let rc ← applyAcF n (Sym.conn (!ne)) common
                    some (some rc)
                  else some none
          else some none
        | _ => some none) := rfl

theorem beqE_refl (a : Expr) : beqE a a = true := (beqE_iff a a).mpr rfl

/-- Idempotence rule of `_binary_reduce`. -/
theorem connBinF_rule1 (n : Nat) (ne : Bool) (p q : Expr)
    (h1 : beqE p q = true) :
    connBinF (n + 1) ne p q = some (some p) := by
  rw [connBinF_eq, h1]
  exact if_pos rfl

/-- Complement rule of `_binary_reduce`. -/
theorem connBinF_rule2 (n : Nat) (ne : Bool) (p q : Expr)
    (h1 : beqE p q = false) (h2 : beqE p (negateE q) = true) :
    connBinF (n + 1) ne p q = some (some (boolE (!ne))) := by
  rw [connBinF_eq, h1]
  simp only [Bool.false_eq_true, if_false]
  rw [h2]
  exact if_pos rfl

/-- Neutral-element rule of `_binary_reduce`. -/
theorem connBinF_rule3 (n : Nat) (ne : Bool) (p q : Expr)
    (h1 : beqE p q = false) (h2 : beqE p (negateE q) = false)
    (h3 : beqE p (boolE ne) = true) :
    connBinF (n + 1) ne p q = some (some q) := by
  rw [connBinF_eq, h1]
  simp only [Bool.false_eq_true, if_false]
  rw [h2]
  simp only [Bool.false_eq_true, if_false]
  rw [h3]
  exact if_pos rfl

/-- Domination rule of `_binary_reduce`. -/
theorem connBinF_rule4 (n : Nat) (ne : Bool) (p q : Expr)
    (h1 : beqE p q = false) (h2 : beqE p (negateE q) = false)
    (h3 : beqE p (boolE ne) = false) (h4 : beqE p (boolE (!ne)) = true) :
    connBinF (n + 1) ne p q = some (some p) := by
  rw [connBinF_eq, h1]
  simp only [Bool.false_eq_true, if_false]
  rw [h2]
  simp only [Bool.false_eq_true, if_false]
  rw [h3]
  simp only [Bool.false_eq_true, if_false]
  rw [h4]
  exact if_pos rfl

/-- When no identity rule applies and the second argument is not an
opposite-connective node, `_binary_reduce` declines. -/
theorem connBinF_no_rule (n : Nat) (ne : Bool) (p q : Expr)
    (h1 : beqE p q = false) (h2 : beqE p (negateE q) = false)
    (h3 : beqE p (boolE ne) = false) (h4 : beqE p (boolE (!ne)) = false)
    (hq : headConn q = none) :
    connBinF (n + 1) ne p q = some none := by
  obtain ⟨sq, qargs⟩ := q
  cases sq
  case conn c => exact absurd hq (by simp [headConn])
  all_goals
    rw [connBinF, h1, h2, h3, h4]
    case _ => simp only [Bool.false_eq_true, if_false]
    all_goals
      intro ne2 args2 heq
      injection heq with hh1 hh2
      exact Sym.noConfusion hh1

/-- Subset absorption inside the opposite-connective block: a non-connective
argument contained in the opposite node's argument set absorbs the node. -/
theorem connBinF_subset_absorb (n : Nat) (ne : Bool) (p : Expr)
    (bargs : List Expr)
    (h1 : beqE p (Expr.node (Sym.conn (!ne)) bargs) = false)
    (h2 : beqE p (negateE (Expr.node (Sym.conn (!ne)) bargs)) = false)
    (h3 : beqE p (boolE ne) = false) (h4 : beqE p (boolE (!ne)) = false)
    (hp : headConn p = none)
    (hmem : memE (negateE p) (dedupE bargs) = false)
    (hsub : subsetE [p] (dedupE bargs) = true) :
    connBinF (n + 1) ne p (Expr.node (Sym.conn (!ne)) bargs) =
      some (some p) := by
  obtain ⟨sp, pargs⟩ := p
  cases sp
  case conn c => exact absurd hp (by simp [headConn])
  all_goals
    rw [connBinF, h1, h2, h3, h4]
    case _ =>
      simp only [Bool.false_eq_true, if_false, eq_self_iff_true, if_true]
      rw [hmem]
      simp only [Bool.false_eq_true, if_false]
      rw [hsub]
      simp only [eq_self_iff_true, if_true]
    all_goals
      intro ne2 args2 heq
      injection heq with hh1 hh2
      exact Sym.noConfusion hh1

/-- Full evaluation of an AC application on two arguments whose first tried
pair `(second, first)` reduces in one `_binary_reduce` step to a
non-spilling value `r`. -/
theorem applyAc_pair_fst (acs : Sym) (x y r : Expr) (n : Nat)
    (hsort : checkMultiary (acArgSort acs) [x, y] = true)
    (hx : beqSym (headSym x) acs = false)
    (hy : beqSym (headSym y) acs = false)
    (hr : beqSym (headSym r) acs = false)
    (hvr : isValencySym (headSym r) = true)
    (hbin : ∀ m : Nat, acBinF (m + 2) acs y x = some (some r))
    (hn : 15 ≤ n) :
    applyAcF n acs [x, y] = some r := by
  obtain ⟨K, rfl⟩ : ∃ K, n = K + 15 := ⟨n - 15, by omega⟩
  show (if checkMultiary (acArgSort acs) [x, y] then
      reduceAcF (K + 13 + 1) acs [x, y]
    else some (Expr.node (Sym.wrapper (some acs) 0) [x, y])) = some r
  rw [if_pos hsort, reduceAcF_eq]
  rw [show ([x, y] : List Expr).reverse = [y, x] from rfl]
  rw [flattenF_no_spill acs [y, x] (K + 13) [] []
    (by simp [hx, hy]) (by simp)]
  simp only [Option.pure_def, Option.bind_eq_bind, Option.some_bind,
    List.nil_append]
  rw [show List.range' (List.length ([] : List Expr))
    (List.length ([y, x] : List Expr)) = [0, 1] from rfl]
  have hin : acInnerF (K + 11) acs 0 0 [0, 1] [y, x] [0, 1] [] =
      some ([y, x, r], [], [0], [2], true) := by
    have hin0 : acInnerF (K + 11) acs 0 0 [0, 1] [y, x] [0, 1] [] =
        acInnerF (K + 10) acs 0 1 [0, 1] [y, x] [0, 1] [] := rfl
    have hin1 : acInnerF (K + 10) acs 0 1 [0, 1] [y, x] [0, 1] [] =
        (acBinF (K + 7 + 2) acs y x).bind (fun c? =>
          match c? with
          | none => acInnerF (K + 9) acs 0 2 [0, 1] [y, x] [0, 1] []
          | some c => (flattenF (K + 9) acs [c] [y, x] []).bind (fun q =>
              some (q.1, [], [0], q.2, true))) := rfl
    rw [hin0, hin1, hbin (K + 7)]
    simp only [Option.some_bind]
    show (flattenF (K + 9) acs [r] [y, x] []).bind (fun q =>
        some (q.1, [], [0], q.2, true)) = _
    rw [flattenF_no_spill acs [r] (K + 9) [y, x] [] (by simp [hr])
      (by simp)]
    simp only [Option.some_bind]
    rfl
  have hfirst : acFirstF (K + 12) acs [0, 1] [0, 1] [y, x] [0, 1] [] =
      some ([y, x, r], [], [0], [2]) := by
    have hf0 : acFirstF (K + 12) acs [0, 1] [0, 1] [y, x] [0, 1] [] =
        (acInnerF (K + 11) acs 0 0 [0, 1] [y, x] [0, 1] []).bind (fun q =>
          acFirstF (K + 11) acs [1] q.2.2.1 q.1 q.2.1 q.2.2.2.1) := rfl
    rw [hf0, hin]
    simp only [Option.some_bind]
    rfl
  have htask : acTasksF (K + 13) acs [y, x] [0, 1] [([0, 1], [0, 1])] = (do
      let secondL := ([0, 1] : List Nat).filter (fun i => i ∈ ([0, 1] : List Nat))
      let q ← acFirstF (K + 12) acs [0, 1] secondL [y, x] [0, 1] []
      if q.2.2.2.isEmpty then
        acTasksF (K + 12) acs q.1 q.2.1 []
      else
        acTasksF (K + 12) acs q.1 (q.2.1 ++ q.2.2.2)
          ((q.2.2.2, q.2.2.2) :: (q.2.2.2, q.2.1) :: (q.2.1, q.2.2.2) :: [])) :=
    acTasksF_cons acs (K + 12) [y, x] [0, 1] [0, 1] [0, 1] []
  rw [htask]
  have hfil01 : ([0, 1] : List Nat).filter (fun i => i ∈ ([0, 1] : List Nat)) = [0, 1] :=
    List.filter_eq_self.mpr (fun a ha => by simpa using ha)
  simp only [hfil01]
  rw [hfirst]
  show (if isValencySym (headSym r) = true then some r
    else some (Expr.node acs [r])) = some r
  rw [hvr]
  exact if_pos rfl

/-- Full evaluation of an AC application on two arguments where the first
tried pair `(second, first)` declines and the reversed pair `(first, second)`
reduces to a non-spilling value `r`. -/
theorem applyAc_pair_snd (acs : Sym) (x y r : Expr) (n : Nat)
    (hsort : checkMultiary (acArgSort acs) [x, y] = true)
    (hx : beqSym (headSym x) acs = false)
    (hy : beqSym (headSym y) acs = false)
    (hr : beqSym (headSym r) acs = false)
    (hvr : isValencySym (headSym r) = true)
    (hbin1 : ∀ m : Nat, acBinF (m + 2) acs y x = some none)
    (hbin2 : ∀ m : Nat, acBinF (m + 2) acs x y = some (some r))
    (hn : 15 ≤ n) :
    applyAcF n acs [x, y] = some r := by
  obtain ⟨K, rfl⟩ : ∃ K, n = K + 15 := ⟨n - 15, by omega⟩
  show (if checkMultiary (acArgSort acs) [x, y] then
      reduceAcF (K + 13 + 1) acs [x, y]
    else some (Expr.node (Sym.wrapper (some acs) 0) [x, y])) = some r
  rw [if_pos hsort, reduceAcF_eq]
  rw [show ([x, y] : List Expr).reverse = [y, x] from rfl]
  rw [flattenF_no_spill acs [y, x] (K + 13) [] []
    (by simp [hx, hy]) (by simp)]
  simp only [Option.pure_def, Option.bind_eq_bind, Option.some_bind,
    List.nil_append]
  rw [show List.range' (List.length ([] : List Expr))
    (List.length ([y, x] : List Expr)) = [0, 1] from rfl]
  have hin : acInnerF (K + 11) acs 0 0 [0, 1] [y, x] [0, 1] [] =
      some ([y, x], [0, 1], [0, 1], [], false) := by
    have hin0 : acInnerF (K + 11) acs 0 0 [0, 1] [y, x] [0, 1] [] =
        acInnerF (K + 10) acs 0 1 [0, 1] [y, x] [0, 1] [] := rfl
    have hin1 : acInnerF (K + 10) acs 0 1 [0, 1] [y, x] [0, 1] [] =
        (acBinF (K + 7 + 2) acs y x).bind (fun c? =>
          match c? with
          | none => acInnerF (K + 9) acs 0 2 [0, 1] [y, x] [0, 1] []
          | some c => (flattenF (K + 9) acs [c] [y, x] []).bind (fun q =>
              some (q.1, [], [0], q.2, true))) := rfl
    rw [hin0, hin1, hbin1 (K + 7)]
    simp only [Option.some_bind]
    show acInnerF (K + 9) acs 0 2 [0, 1] [y, x] [0, 1] [] = _
    rfl
  have hin2 : acInnerF (K + 10) acs 1 0 [0, 1] [y, x] [0, 1] [] =
      some ([y, x, r], [], [1], [2], true) := by
    have h0 : acInnerF (K + 10) acs 1 0 [0, 1] [y, x] [0, 1] [] =
        (acBinF (K + 7 + 2) acs x y).bind (fun c? =>
          match c? with
          | none => acInnerF (K + 9) acs 1 1 [0, 1] [y, x] [0, 1] []
          | some c => (flattenF (K + 9) acs [c] [y, x] []).bind (fun q =>
              some (q.1, [], [1], q.2, true))) := rfl
    rw [h0, hbin2 (K + 7)]
    simp only [Option.some_bind]
    show (flattenF (K + 9) acs [r] [y, x] []).bind (fun q =>
        some (q.1, [], [1], q.2, true)) = _
    rw [flattenF_no_spill acs [r] (K + 9) [y, x] [] (by simp [hr])
      (by simp)]
    simp only [Option.some_bind]
    rfl
  have hfirst : acFirstF (K + 12) acs [0, 1] [0, 1] [y, x] [0, 1] [] =
      some ([y, x, r], [], [1], [2]) := by
    have hf0 : acFirstF (K + 12) acs [0, 1] [0, 1] [y, x] [0, 1] [] =
        (acInnerF (K + 11) acs 0 0 [0, 1] [y, x] [0, 1] []).bind (fun q =>
          acFirstF (K + 11) acs [1] q.2.2.1 q.1 q.2.1 q.2.2.2.1) := rfl
    rw [hf0, hin]
    simp only [Option.some_bind]
    have hf1 : acFirstF (K + 11) acs [1] [0, 1] [y, x] [0, 1] [] =
        (acInnerF (K + 10) acs 1 0 [0, 1] [y, x] [0, 1] []).bind (fun q =>
          acFirstF (K + 10) acs [] q.2.2.1 q.1 q.2.1 q.2.2.2.1) := rfl
    rw [hf1, hin2]
    simp only [Option.some_bind]
    rfl
  have htask : acTasksF (K + 13) acs [y, x] [0, 1] [([0, 1], [0, 1])] = (do
      let secondL := ([0, 1] : List Nat).filter (fun i => i ∈ ([0, 1] : List Nat))
      let q ← acFirstF (K + 12) acs [0, 1] secondL [y, x] [0, 1] []
      if q.2.2.2.isEmpty then
        acTasksF (K + 12) acs q.1 q.2.1 []
      else
        acTasksF (K + 12) acs q.1 (q.2.1 ++ q.2.2.2)
          ((q.2.2.2, q.2.2.2) :: (q.2.2.2, q.2.1) :: (q.2.1, q.2.2.2) :: [])) :=
    acTasksF_cons acs (K + 12) [y, x] [0, 1] [0, 1] [0, 1] []
  rw [htask]
  have hfil01 : ([0, 1] : List Nat).filter (fun i => i ∈ ([0, 1] : List Nat)) = [0, 1] :=
    List.filter_eq_self.mpr (fun a ha => by simpa using ha)
  simp only [hfil01]
  rw [hfirst]
  show (if isValencySym (headSym r) = true then some r
    else some (Expr.node acs [r])) = some r
  rw [hvr]
  exact if_pos rfl

theorem atom_beqSym_conn (s : Sym) (c : Bool) (h : atomHead s = true) :
    beqSym s (Sym.conn c) = false := by
  rw [beqSym_false_iff]
  intro heq
  rw [heq] at h
  exact absurd h (by simp [atomHead])

theorem negateE_atom_ne (a : Expr) (h : atomHead (headSym a) = true) :
    beqE (negateE a) a = false := by
  rw [beqE_false_iff, negateE_atom a h]
  intro heq
  have h2 := congrArg headSym heq
  rw [show headSym (Expr.node (Sym.negator (sortOf a)) [a]) =
    Sym.negator (sortOf a) from rfl] at h2
  rw [← h2] at h
  exact absurd h (by simp [atomHead])

theorem boolE_atom_ne (c : Bool) (a : Expr) (h : atomHead (headSym a) = true) :
    beqE (boolE c) a = false := by
  rw [beqE_false_iff]
  intro heq
  have h2 := congrArg headSym heq
  rw [show headSym (boolE c) = Sym.boolConst c from rfl] at h2
  rw [← h2] at h
  exact absurd h (by simp [atomHead])

theorem boolE_negAtom_ne (c : Bool) (a : Expr) (h : atomHead (headSym a) = true) :
    beqE (boolE c) (negateE a) = false := by
  rw [beqE_false_iff, negateE_atom a h]
  intro heq
  exact Sym.noConfusion (congrArg headSym heq)

theorem boolE_not_ne (ne : Bool) : beqE (boolE (!ne)) (boolE ne) = false := by
  cases ne <;> rfl

theorem one_le_sizeE (e : Expr) : 1 ≤ sizeE e := by
  obtain ⟨s, args⟩ := e
  show 1 ≤ 1 + sizeList args
  omega

theorem noConn_beqSym (p : Expr) (c : Bool) (h : headConn p = none) :
    beqSym (headSym p) (Sym.conn c) = false := by
  rw [beqSym_false_iff]
  intro heq
  rw [(headConn_headSym p c).mpr heq] at h
  exact Option.noConfusion h

/-- A canonical non-connective, non-constant boolean expression is distinct
from its own negation. -/
theorem negateE_ne_self (a : Expr) (ha : canonE a = true)
    (hc : headConn a = none) (hs : sortOf a = SSort.bool)
    (hB : ∀ c : Bool, ¬ a = boolE c) :
    beqE (negateE a) a = false := by
  obtain ⟨s, args⟩ := a
  cases s with
  | conn c => exact absurd hc (by simp [headConn])
  | sum => exact SSort.noConfusion hs
  | intConst k => exact SSort.noConfusion hs
  | boolConst c =>
    have hargs : args = [] := by simpa [canonE, List.isEmpty_iff] using ha
    subst hargs
    exact absurd rfl (hB c)
  | negator s2 =>
    cases args with
    | nil => exact absurd ha (by simp [canonE])
    | cons x rest =>
      cases rest with
      | nil =>
        rw [show negateE (Expr.node (Sym.negator s2) [x]) = x from rfl,
          beqE_false_iff]
        intro heq
        simp only [canonE, Bool.and_eq_true] at ha
        have hx := ha.1.1
        rw [heq] at hx
        exact absurd hx (by simp [atomHead, headSym])
      | cons y ys => exact absurd ha (by simp [canonE])
  | varSym s2 i => exact negateE_atom_ne _ rfl
  | tseitin w => exact negateE_atom_ne _ rfl
  | fnSym s2 ss i => exact negateE_atom_ne _ rfl
  | impl => exact negateE_atom_ne _ rfl
  | intEq => exact negateE_atom_ne _ rfl
  | wrapper os i => exact negateE_atom_ne _ rfl

/-- A pair on which none of the identity rules fires and whose second member
is not connective-headed is strongly irreducible: the binary reduction run
declines. -/
theorem strongIrredAC_of_no_rule (c : Bool) (p q : Expr)
    (h1 : beqE p q = false) (h2 : beqE p (negateE q) = false)
    (h3 : beqE p (boolE c) = false) (h4 : beqE p (boolE (!c)) = false)
    (hq : headConn q = none) :
    strongIrredAC (Sym.conn c) p q = true := by
  obtain ⟨k, hk⟩ : ∃ k, pairFuel p q = k + 1 + 1 := by
    refine ⟨pairFuel p q - 2, ?_⟩
    show pairFuel p q = pairFuel p q - 2 + 1 + 1
    have h30 : 30 ≤ pairFuel p q := by
      show 30 ≤ 3 * (sizeE p + sizeE q) + 30
      omega
    omega
  rw [strongIrredAC, hk]
  rw [show acBinF (k + 1 + 1) (Sym.conn c) p q = connBinF (k + 1) c p q from rfl]
  rw [connBinF_no_rule k c p q h1 h2 h3 h4 hq]

/-- C6 (corrected): for the connective with neutral element `ne` (`and` when
`ne = true`, `or` when `ne = false`), the spec's constructor identities hold
for every canonical non-connective, non-constant, non-wrapper boolean
argument `a` — plain atoms and negator-headed (negated) literals alike:
complement reduces to the dominator, idempotence, neutral elimination and
domination hold, and absorption holds against any opposite-connective node
whose argument set contains `a` but not `¬a` — in particular
`conn(a, opp(a, b))` is `a`, also when `b` is a conjunction or disjunction.
The identities moreover persist when the argument is itself a connective,
exhibited by the closed conjuncts for `a = and(x0, x1)` under both `and` and
`or`, and absorption of a connective `b` behind an atom is exhibited for
`and(x0, or(x0, and(x1, x2)))`.  What fails is only absorption whose
absorbed side `a` is connective-headed; see the counterexample. -/
theorem conn_identities (ne : Bool) (a b : Expr) (n : Nat)
    (ha : canonE a = true)
    (haC : headConn a = none)
    (haVal : isValencySym (headSym a) = true)
    (haSort : sortOf a = SSort.bool)
    (haB : ∀ c : Bool, ¬ a = boolE c)
    (hbC : headConn b = none)
    (hbSort : sortOf b = SSort.bool)
    (hbB : ∀ c : Bool, ¬ b = boolE c)
    (hab : ¬ a = b) (hanb : ¬ a = negateE b) (hnab : ¬ b = negateE a)
    (hn : 6 * (sizeE a + sizeE b) + 48 ≤ n) :
    applyAcF n (Sym.conn ne) [a, negateE a] = some (boolE (!ne)) ∧
    applyAcF n (Sym.conn ne) [a, a] = some a ∧
    applyAcF n (Sym.conn ne) [a, boolE ne] = some a ∧
    applyAcF n (Sym.conn ne) [a, boolE (!ne)] = some (boolE (!ne)) ∧
    (∀ bargs : List Expr, memE a (dedupE bargs) = true →
      memE (negateE a) (dedupE bargs) = false →
      applyAcF n (Sym.conn ne) [a, Expr.node (Sym.conn (!ne)) bargs] = some a) ∧
    applyAcF n (Sym.conn (!ne)) [a, b] =
      some (Expr.node (Sym.conn (!ne)) (sortE [a, b])) ∧
    applyAcF n (Sym.conn ne) [a, Expr.node (Sym.conn (!ne)) (sortE [a, b])] =
      some a ∧
    (applyAcF 60 (Sym.conn true)
       [andE [varB 0, varB 1], negateE (andE [varB 0, varB 1])] =
       some (boolE false) ∧
     applyAcF 60 (Sym.conn false)
       [andE [varB 0, varB 1], negateE (andE [varB 0, varB 1])] =
       some (boolE true) ∧
     applyAcF 60 (Sym.conn true) [andE [varB 0, varB 1], andE [varB 0, varB 1]] =
       some (andE [varB 0, varB 1]) ∧
     applyAcF 60 (Sym.conn true) [andE [varB 0, varB 1], boolE true] =
       some (andE [varB 0, varB 1]) ∧
     applyAcF 60 (Sym.conn true) [andE [varB 0, varB 1], boolE false] =
       some (boolE false) ∧
     applyAcF 60 (Sym.conn false) [andE [varB 0, varB 1], andE [varB 0, varB 1]] =
       some (andE [varB 0, varB 1]) ∧
     applyAcF 60 (Sym.conn false) [andE [varB 0, varB 1], boolE false] =
       some (andE [varB 0, varB 1]) ∧
     applyAcF 60 (Sym.conn false) [andE [varB 0, varB 1], boolE true] =
       some (boolE true) ∧
     applyAcF 60 (Sym.conn false) [varB 0, andE [varB 1, varB 2]] =
       some (orE [varB 0, andE [varB 1, varB 2]]) ∧
     applyAcF 60 (Sym.conn true) [varB 0, orE [varB 0, andE [varB 1, varB 2]]] =
       some (varB 0)) := by
  have hsNA : sortOf (negateE a) = SSort.bool := by
    rw [sortOf_negateE a ha]
    exact haSort
  have hcNA : headConn (negateE a) = none := by
    rw [headConn_negateE a ha, haC]
    rfl
  have hxa : beqSym (headSym a) (Sym.conn ne) = false := noConn_beqSym a ne haC
  have hya : beqSym (headSym (negateE a)) (Sym.conn ne) = false :=
    noConn_beqSym (negateE a) ne hcNA
  have hNAa : beqE (negateE a) a = false := negateE_ne_self a ha haC haSort haB
  have hBa : ∀ c : Bool, beqE (boolE c) a = false := fun c =>
    (beqE_false_iff _ _).mpr (fun heq => haB c heq.symm)
  have hBna : ∀ c : Bool, beqE (boolE c) (negateE a) = false := by
    intro c
    rw [beqE_false_iff]
    intro heq
    have h2 := congrArg negateE heq
    rw [negateE_invol a ha] at h2
    refine haB (!c) ?_
    rw [← h2]
    rfl
  have habs : ∀ bargs : List Expr, memE a (dedupE bargs) = true →
      memE (negateE a) (dedupE bargs) = false →
      applyAcF n (Sym.conn ne) [a, Expr.node (Sym.conn (!ne)) bargs] = some a := by
    intro bargs hmemA hmemNA
    refine applyAc_pair_snd (Sym.conn ne) a (Expr.node (Sym.conn (!ne)) bargs) a n
      ?_ hxa ?_ hxa haVal ?_ ?_ (by omega)
    · show (!([a, Expr.node (Sym.conn (!ne)) bargs] : List Expr).isEmpty &&
        ([a, Expr.node (Sym.conn (!ne)) bargs] : List Expr).all
          (sortOkFor SSort.bool)) = true
      simp [sortOkFor, haSort,
        show sortOf (Expr.node (Sym.conn (!ne)) bargs) = SSort.bool from rfl]
    · show beqSym (Sym.conn (!ne)) (Sym.conn ne) = false
      cases ne <;> rfl
    · intro m
      refine connBinF_no_rule m ne (Expr.node (Sym.conn (!ne)) bargs) a
        ?_ ?_ ?_ ?_ haC
      · rw [beqE_false_iff]
        intro heq
        rw [← heq] at haC
        simp [headConn] at haC
      · rw [beqE_false_iff]
        intro heq
        rw [← heq] at hcNA
        simp [headConn] at hcNA
      · rw [beqE_false_iff]
        intro heq
        exact Sym.noConfusion (congrArg headSym heq)
      · rw [beqE_false_iff]
        intro heq
        exact Sym.noConfusion (congrArg headSym heq)
    · intro m
      refine connBinF_subset_absorb m ne a bargs ?_ ?_
        ((beqE_false_iff _ _).mpr (haB ne)) ((beqE_false_iff _ _).mpr (haB (!ne)))
        haC hmemNA ?_
      · rw [beqE_false_iff]
        intro heq
        rw [heq] at haC
        simp [headConn] at haC
      · rw [beqE_false_iff,
          show negateE (Expr.node (Sym.conn (!ne)) bargs) =
            Expr.node (Sym.conn (!(!ne))) (sortE (negList bargs)) from rfl]
        intro heq
        rw [heq] at haC
        simp [headConn] at haC
      · rw [subsetE_iff]
        intro z hz
        rw [List.mem_singleton.mp hz]
        exact (memE_iff _ _).mp hmemA
  refine ⟨?_, ?_, ?_, ?_, habs, ?_, ?_,
    rfl, rfl, rfl, rfl, rfl, rfl, rfl, rfl, rfl, rfl⟩
  · refine applyAc_pair_fst (Sym.conn ne) a (negateE a) (boolE (!ne)) n
      ?_ hxa hya rfl rfl ?_ (by omega)
    · show (!([a, negateE a] : List Expr).isEmpty &&
        ([a, negateE a] : List Expr).all (sortOkFor SSort.bool)) = true
      simp [sortOkFor, haSort, hsNA]
    · intro m
      exact connBinF_rule2 m ne (negateE a) a hNAa (beqE_refl (negateE a))
  · refine applyAc_pair_fst (Sym.conn ne) a a a n ?_ hxa hxa hxa haVal ?_
      (by omega)
    · show (!([a, a] : List Expr).isEmpty &&
        ([a, a] : List Expr).all (sortOkFor SSort.bool)) = true
      simp [sortOkFor, haSort]
    · intro m
      exact connBinF_rule1 m ne a a (beqE_refl a)
  · refine applyAc_pair_fst (Sym.conn ne) a (boolE ne) a n ?_ hxa rfl hxa
      haVal ?_ (by omega)
    · show (!([a, boolE ne] : List Expr).isEmpty &&
        ([a, boolE ne] : List Expr).all (sortOkFor SSort.bool)) = true
      simp [sortOkFor, haSort,
        show sortOf (boolE ne) = SSort.bool from rfl]
    · intro m
      exact connBinF_rule3 m ne (boolE ne) a (hBa ne) (hBna ne)
        (beqE_refl (boolE ne))
  · refine applyAc_pair_fst (Sym.conn ne) a (boolE (!ne)) (boolE (!ne)) n
      ?_ hxa rfl rfl rfl ?_ (by omega)
    · show (!([a, boolE (!ne)] : List Expr).isEmpty &&
        ([a, boolE (!ne)] : List Expr).all (sortOkFor SSort.bool)) = true
      simp [sortOkFor, haSort,
        show sortOf (boolE (!ne)) = SSort.bool from rfl]
    · intro m
      exact connBinF_rule4 m ne (boolE (!ne)) a (hBa (!ne)) (hBna (!ne))
        (boolE_not_ne ne) (beqE_refl (boolE (!ne)))
  · refine applyAc_strongIrred (Sym.conn (!ne)) [a, b]
      (6 * (sizeE a + sizeE b) + 30) n ?_ ?_ ?_ ?_ (by simp) (by simp; omega)
    · show (!([a, b] : List Expr).isEmpty &&
        ([a, b] : List Expr).all (sortOkFor SSort.bool)) = true
      simp [sortOkFor, haSort, hbSort]
    · rw [List.all_eq_true]
      intro p hp
      rcases List.mem_cons.mp hp with rfl | hp2
      · rw [Bool.not_eq_true']
        exact noConn_beqSym p (!ne) haC
      · rw [List.mem_singleton.mp hp2, Bool.not_eq_true']
        exact noConn_beqSym b (!ne) hbC
    · rw [List.pairwise_cons]
      refine ⟨?_, ?_⟩
      · intro p hp
        rw [List.mem_singleton.mp hp]
        refine ⟨?_, ?_⟩
        · exact strongIrredAC_of_no_rule (!ne) a b
            ((beqE_false_iff _ _).mpr hab) ((beqE_false_iff _ _).mpr hanb)
            ((beqE_false_iff _ _).mpr (haB (!ne)))
            ((beqE_false_iff _ _).mpr (haB (!(!ne)))) hbC
        · exact strongIrredAC_of_no_rule (!ne) b a
            ((beqE_false_iff _ _).mpr (fun h2 => hab h2.symm))
            ((beqE_false_iff _ _).mpr hnab)
            ((beqE_false_iff _ _).mpr (hbB (!ne)))
            ((beqE_false_iff _ _).mpr (hbB (!(!ne)))) haC
      · rw [List.pairwise_cons]
        exact ⟨fun y hy => absurd hy (by simp), List.Pairwise.nil⟩
    · intro x hx y hy
      have hxle : sizeE x ≤ sizeE a + sizeE b := by
        rcases List.mem_cons.mp hx with rfl | hx2
        · exact Nat.le_add_right _ _
        · rw [List.mem_singleton.mp hx2]
          exact Nat.le_add_left _ _
      have hyle : sizeE y ≤ sizeE a + sizeE b := by
        rcases List.mem_cons.mp hy with rfl | hy2
        · exact Nat.le_add_right _ _
        · rw [List.mem_singleton.mp hy2]
          exact Nat.le_add_left _ _
      show 3 * (sizeE x + sizeE y) + 30 ≤ 6 * (sizeE a + sizeE b) + 30
      omega
  · refine habs (sortE [a, b]) ?_ ?_
    · rw [memE_iff, mem_dedupE, memE_sortE]
      exact List.mem_cons_self a [b]
    · rw [memE_false_iff, mem_dedupE, memE_sortE]
      intro hx
      rcases List.mem_cons.mp hx with h2 | h2
      · exact (beqE_false_iff _ _).mp hNAa h2
      · exact hnab (List.mem_singleton.mp h2).symm

/-- Closed instance of `conn_identities`: the `and` connective with the
boolean variables `x0` and `x1`. -/
theorem conn_identities_witness :
    (canonE (varB 0) = true ∧ headConn (varB 0) = none ∧
     isValencySym (headSym (varB 0)) = true ∧ sortOf (varB 0) = SSort.bool ∧
     (∀ c : Bool, ¬ varB 0 = boolE c) ∧
     headConn (varB 1) = none ∧ sortOf (varB 1) = SSort.bool ∧
     (∀ c : Bool, ¬ varB 1 = boolE c) ∧
     ¬ varB 0 = varB 1 ∧ ¬ varB 0 = negateE (varB 1) ∧
     ¬ varB 1 = negateE (varB 0) ∧
     6 * (sizeE (varB 0) + sizeE (varB 1)) + 48 ≤ 60) ∧
    (applyAcF 60 (Sym.conn true) [varB 0, negateE (varB 0)] =
       some (boolE (!true)) ∧
     applyAcF 60 (Sym.conn true) [varB 0, varB 0] = some (varB 0) ∧
     applyAcF 60 (Sym.conn true) [varB 0, boolE true] = some (varB 0) ∧
     applyAcF 60 (Sym.conn true) [varB 0, boolE (!true)] =
       some (boolE (!true)) ∧
     applyAcF 60 (Sym.conn (!true)) [varB 0, varB 1] =
       some (Expr.node (Sym.conn (!true)) (sortE [varB 0, varB 1])) ∧
     applyAcF 60 (Sym.conn true)
       [varB 0, Expr.node (Sym.conn (!true)) (sortE [varB 0, varB 1])] =
       some (varB 0)) := by
  obtain ⟨g1, g2, g3, g4, g5, g6, g7, grest⟩ :=
    conn_identities true (varB 0) (varB 1) 60 rfl rfl rfl rfl (by decide)
      rfl rfl (by decide) (by decide) (by decide) (by decide) (by decide)
  exact ⟨⟨rfl, rfl, rfl, rfl, by decide, rfl, rfl, by decide, by decide,
    by decide, by decide, by decide⟩, g1, g2, g3, g4, g6, g7⟩

/-- C6 counterexample: absorption fails when the absorbed side is itself a
conjunction.  With a = and(x0, x1) and b = x2 the code builds
or(x2, and(x0, x1)), and and(a, or(a, b)) interns as the three-element
conjunction and(x0, x1, or(x2, and(x0, x1))) — the opposite-connective block
only removes an argument of the disjunction when it equals one of the
conjunction's own arguments, so a is not absorbed and the result is not a. -/
theorem conn_absorption_fails :
    applyAcF 40 (Sym.conn true) [varB 0, varB 1] =
      some (andE [varB 0, varB 1]) ∧
    applyAcF 40 (Sym.conn false) [andE [varB 0, varB 1], varB 2] =
      some (orE [varB 2, andE [varB 0, varB 1]]) ∧
    applyAcF 40 (Sym.conn true)
        [andE [varB 0, varB 1], orE [varB 2, andE [varB 0, varB 1]]] =
      some (andE [varB 0, varB 1, orE [varB 2, andE [varB 0, varB 1]]]) ∧
    ¬ andE [varB 0, varB 1, orE [varB 2, andE [varB 0, varB 1]]] =
        andE [varB 0, varB 1] :=
  ⟨rfl, rfl, rfl, by decide⟩


/-! # Claim C10: zero-argument application of a variadic AC symbol -/

/-- C10: applying a variadic associative-commutative symbol (boolean `and`,
boolean `or`, integer sum) to zero arguments fails the valency check
(`MultiaryValencyMixin` requires at least one argument) and produces a
`Wrapper`-headed expression whose `has_wrappers` flag is true — a tainted
node — rather than the connective's neutral element. -/
theorem zeroArgApply_wrapper_tainted :
    applyAcF 5 (Sym.conn true) [] =
        some (Expr.node (Sym.wrapper (some (Sym.conn true)) 0) []) ∧
    applyAcF 5 (Sym.conn false) [] =
        some (Expr.node (Sym.wrapper (some (Sym.conn false)) 0) []) ∧
    applyAcF 5 Sym.sum [] =
        some (Expr.node (Sym.wrapper (some Sym.sum) 0) []) ∧
    hasWrappers (Expr.node (Sym.wrapper (some (Sym.conn true)) 0) []) = true ∧
    hasWrappers (Expr.node (Sym.wrapper (some (Sym.conn false)) 0) []) = true ∧
    hasWrappers (Expr.node (Sym.wrapper (some Sym.sum) 0) []) = true ∧
    Expr.node (Sym.wrapper (some (Sym.conn true)) 0) [] ≠ boolE true ∧
    Expr.node (Sym.wrapper (some (Sym.conn false)) 0) [] ≠ boolE false ∧
    Expr.node (Sym.wrapper (some Sym.sum) 0) [] ≠ intE 0 := by
  refine ⟨rfl, rfl, rfl, rfl, rfl, rfl, ?_, ?_, ?_⟩ <;> decide

/-! # Claim C9: `to_cnf` on `or(and(A,B), and(C,D))` -/

/-- C9: for boolean variables `A`, `B`, `C`, `D`, `to_cnf` applied to the
interned expression `or(and(A,B), and(C,D))` returns the conjunction of
exactly the seven clauses `(or ¬τ0 A)`, `(or ¬τ0 B)`, `(or ¬τ1 C)`,
`(or ¬τ1 D)`, `(or ¬A ¬B τ0)`, `(or ¬C ¬D τ1)`, `(or τ0 τ1)`, where `τ0` and
`τ1` are the Tseitin variables of `and(A,B)` and `and(C,D)`. -/
theorem toCnf_or_of_ands :
    (do
      let ab ← applyAcF 300 (Sym.conn true) [varB 1, varB 2]
      let cd ← applyAcF 300 (Sym.conn true) [varB 3, varB 4]
      let top ← applyAcF 300 (Sym.conn false) [ab, cd]
      toCnfF 300 top) =
    (let t0 := Expr.node (Sym.tseitin (andE [varB 1, varB 2])) []
     let t1 := Expr.node (Sym.tseitin (andE [varB 3, varB 4])) []
     some (andE
      [orE [negE t0, varB 1],
       orE [negE t0, varB 2],
       orE [negE t1, varB 3],
       orE [negE t1, varB 4],
       orE [negE (varB 1), negE (varB 2), t0],
       orE [negE (varB 3), negE (varB 4), t1],
       orE [t0, t1]])) := rfl

/-! # Claim C5: multiset-invariance of AC application fails -/

/-- C5 (divergence): the reduction loop of
`AssociativeCommutativeSymbol._reduce` pairs arguments in list order, so two
argument tuples forming the same multiset can produce different interned
results.  For the multiset `{¬A, or(B,C), or(A,B,C)}` of boolean expressions,
one ordering yields `and(¬A, or(B,C))` while the transposed ordering yields
`and(¬A, B, C)` — two distinct nodes, refuting
`S.apply(*xs) is S.apply(*ys)`. -/
theorem acApply_multiset_divergence :
    (List.Perm
      [negE (varB 1), orE [varB 2, varB 3], orE [varB 1, varB 2, varB 3]]
      [orE [varB 2, varB 3], negE (varB 1), orE [varB 1, varB 2, varB 3]]) ∧
    applyAcF 100 (Sym.conn true)
      [negE (varB 1), orE [varB 2, varB 3], orE [varB 1, varB 2, varB 3]] =
      some (andE [negE (varB 1), orE [varB 2, varB 3]]) ∧
    applyAcF 100 (Sym.conn true)
      [orE [varB 2, varB 3], negE (varB 1), orE [varB 1, varB 2, varB 3]] =
      some (andE [negE (varB 1), varB 2, varB 3]) ∧
    andE [negE (varB 1), orE [varB 2, varB 3]] ≠
      andE [negE (varB 1), varB 2, varB 3] := by
  refine ⟨List.Perm.swap _ _ _, rfl, rfl, ?_⟩
  decide

/-! # Claim C8: transactional rollback restores observable reads -/

theorem updateTop_cons2 {K V : Type} (f : Trans K V → Trans K V)
    (t t' : Trans K V) (rest : List (Trans K V)) :
    updateTop f (t :: t' :: rest) = t :: updateTop f (t' :: rest) := rfl

theorem updateTop_length {K V : Type} (f : Trans K V → Trans K V) :
    ∀ m : Memory K V, (updateTop f m).length = m.length
  | [] => rfl
  | [_] => rfl
  | _ :: t' :: rest => by
    rw [updateTop_cons2]
    simp only [List.length_cons, updateTop_length f (t' :: rest)]

theorem updateTop_take {K V : Type} (f : Trans K V → Trans K V) :
    ∀ (m : Memory K V) (k : Nat), k < m.length →
      (updateTop f m).take k = m.take k
  | [], _, h => absurd h (by simp)
  | [t], k, h => by
    have hk : k = 0 := Nat.lt_one_iff.mp (by simpa using h)
    subst hk; simp
  | t :: t' :: rest, k, h => by
    cases k with
    | zero => simp
    | succ k' =>
      have ih := updateTop_take f (t' :: rest) k'
        (by simpa [Nat.succ_lt_succ_iff] using h)
      rw [updateTop_cons2]
      simp [List.take_succ_cons, ih]

/-- Every operation either pushes a fresh transaction, leaves the arena
unchanged, or rewrites only the top transaction. -/
theorem runOp_shape {K V : Type} [DecidableEq K] (m : Memory K V)
    (op : TOp K V) (m' : Memory K V) (h : runOp m op = some m') :
    m' = beginT m ∨ m' = m ∨ ∃ f, m' = updateTop f m := by
  cases op with
  | nestedBegin =>
    simp only [runOp, Option.some.injEq] at h
    exact Or.inl h.symm
  | opSetAdd hh x =>
    cases hb : setContains hh x m with
    | none => simp [runOp, setAdd, hb] at h
    | some b =>
      cases b with
      | true =>
        simp [runOp, setAdd, hb] at h
        exact Or.inr (Or.inl h.symm)
      | false =>
        cases hf : forceTopSet hh m with
        | none => simp [runOp, setAdd, hb, hf] at h
        | some p =>
          obtain ⟨r, a⟩ := p
          simp [runOp, setAdd, hb, hf] at h
          exact Or.inr (Or.inr ⟨_, h.symm⟩)
  | opSetDiscard hh x =>
    cases hb : setContains hh x m with
    | none => simp [runOp, setDiscard, hb] at h
    | some b =>
      cases b with
      | false =>
        simp [runOp, setDiscard, hb] at h
        exact Or.inr (Or.inl h.symm)
      | true =>
        cases hf : forceTopSet hh m with
        | none => simp [runOp, setDiscard, hb, hf] at h
        | some p =>
          obtain ⟨r, a⟩ := p
          simp [runOp, setDiscard, hb, hf] at h
          exact Or.inr (Or.inr ⟨_, h.symm⟩)
  | opMapPut hh k v =>
    cases hf : forceTopMap hh m with
    | none => simp [runOp, mapPut, hf] at h
    | some p =>
      obtain ⟨r, u, o⟩ := p
      simp only [runOp, mapPut, hf, Option.pure_def, Option.bind_eq_bind,
        Option.some_bind, Option.some.injEq] at h
      exact Or.inr (Or.inr ⟨_, h.symm⟩)
  | opMapDel hh k =>
    cases hf : forceTopMap hh m with
    | none => simp [runOp, mapDel, hf] at h
    | some p =>
      obtain ⟨r, u, o⟩ := p
      simp only [runOp, mapDel, hf, Option.pure_def, Option.bind_eq_bind,
        Option.some_bind] at h
      by_cases hu : (lookupPair k u).isSome
      · simp only [hu, if_true, Option.some.injEq] at h
        exact Or.inr (Or.inr ⟨_, h.symm⟩)
      · simp only [hu, if_false, Bool.false_eq_true] at h
        by_cases hg : (mapGet hh k m).isSome
        · simp only [hg, if_true, Option.some.injEq] at h
          exact Or.inr (Or.inr ⟨_, h.symm⟩)
        · simp [hg] at h

/-- Running a sequence of operations never disturbs the transactions strictly
below the starting top: every proper prefix of the starting stack survives. -/
theorem runOps_prefix {K V : Type} [DecidableEq K] :
    ∀ (ops : List (TOp K V)) (m m' : Memory K V), runOps ops m = some m' →
      ∀ k, k < m.length → k < m'.length ∧ m'.take k = m.take k
  | [], m, m', h, k, hk => by
    simp only [runOps, Option.some.injEq] at h
    subst h; exact ⟨hk, rfl⟩
  | op :: rest, m, m', h, k, hk => by
    simp only [runOps] at h
    cases hop : runOp m op with
    | none => rw [hop] at h; simp at h
    | some mid =>
      rw [hop] at h
      simp only [Option.pure_def, Option.bind_eq_bind, Option.some_bind] at h
      have hmid : k < mid.length ∧ mid.take k = m.take k := by
        rcases runOp_shape m op mid hop with h1 | h1 | ⟨f, h1⟩ <;> subst h1
        · refine ⟨?_, ?_⟩
          · simp only [beginT, List.length_append, List.length_cons,
              List.length_nil]
            omega
          · exact List.take_append_of_le_length (Nat.le_of_lt hk)
        · exact ⟨hk, rfl⟩
        · exact ⟨by rw [updateTop_length]; exact hk, updateTop_take f m k hk⟩
      have hrec := runOps_prefix rest mid m' h k hmid.1
      exact ⟨hrec.1, hrec.2.trans hmid.2⟩

/-- C8: begin a transaction on an arbitrary arena, run any sequence of set
adds/discards, map writes/deletes (and nested begins) inside it, and roll the
transaction back: every observable read — set membership, set length, map
lookup — is restored to exactly its value just before the transaction was
begun (indeed the whole stack is restored). -/
theorem rollback_restores_observables {K V : Type} [DecidableEq K]
    (m : Memory K V) (ops : List (TOp K V)) (m' : Memory K V)
    (hrun : runOps ops (beginT m) = some m') :
    ∃ m₀, rollbackAt m.length m' = some m₀ ∧ m₀ = m ∧
      (∀ h x, setContains h x m₀ = setContains h x m) ∧
      (∀ h, setLen h m₀ = setLen h m) ∧
      (∀ h k, mapGet h k m₀ = mapGet h k m) := by
  have hpre := runOps_prefix ops (beginT m) m' hrun m.length
    (by simp [beginT])
  have htake : m'.take m.length = m := by
    rw [hpre.2]
    simp [beginT]
  refine ⟨m, ?_, rfl, fun _ _ => rfl, fun _ => rfl, fun _ _ => rfl⟩
  rw [rollbackAt, if_pos hpre.1, htake]

/-- Witness for C8: the spec's own scenario (a set holding `5`, a transaction
adding `6`, then rollback) at concrete input. -/
theorem rollback_restores_observables_witness :
    ∃ m₀, rollbackAt 1
        ([[(0, Chunk.setChunk [] [5])],
          [(0, Chunk.setChunk [] [6])]] : Memory Nat Nat) = some m₀ ∧
      m₀ = ([[(0, Chunk.setChunk [] [5])]] : Memory Nat Nat) ∧
      (∀ h x, setContains h x m₀ =
        setContains h x ([[(0, Chunk.setChunk [] [5])]] : Memory Nat Nat)) ∧
      (∀ h, setLen h m₀ =
        setLen h ([[(0, Chunk.setChunk [] [5])]] : Memory Nat Nat)) ∧
      (∀ h k, mapGet h k m₀ =
        mapGet h k ([[(0, Chunk.setChunk [] [5])]] : Memory Nat Nat)) :=
  rollback_restores_observables [[(0, Chunk.setChunk [] [5])]]
    [TOp.opSetAdd 0 6] [[(0, Chunk.setChunk [] [5])], [(0, Chunk.setChunk [] [6])]] rfl

/-! # Claim C2: the assignment lookup's polarity -/

/-- C2 (corrected semantics): for a literal whose pair's trail position holds
one of the pair's two forms (the source's assert), `A[lit]` is **true** when
the stored literal is `lit.negated` and the position is below the border,
**false** when the stored literal is `lit` itself and the position is below
the border, and null (unassigned) when the position is at or beyond the
border.  The spec states the true and false cases the other way round. -/
theorem assignment_lookup_semantics (st : Model) (l stored : Lit)
    (hst : st.literals.get? ((st.pairs l.pid).index) = some stored)
    (hpos : 0 < (st.pairs l.pid).index) :
    (stored = l.negated ∧ (st.pairs l.pid).index < st.border →
      getA st l = some (some true)) ∧
    (stored = l ∧ (st.pairs l.pid).index < st.border →
      getA st l = some (some false)) ∧
    ((stored = l ∨ stored = l.negated) → st.border ≤ (st.pairs l.pid).index →
      getA st l = some none) := by
  obtain ⟨pid, pos⟩ := l
  rw [List.get?_eq_getElem?] at hst
  refine ⟨?_, ?_, ?_⟩
  · rintro ⟨rfl, hb⟩
    simp [getA, hst, hpos, hb, Lit.negated]
  · rintro ⟨rfl, hb⟩
    cases pos <;> simp [getA, hst, hpos, hb, Lit.negated]
  · intro hor hb
    simp [getA, hst, hpos, hor, Nat.not_lt.mpr hb]

/-- Witness for C2's semantics theorem: a two-position trail with pair 1
assigned; the lookup of the negated form returns true and of the stored form
false. -/
theorem assignment_lookup_semantics_witness :
    getA demoSt
      ⟨1, false⟩ = some (some true) ∧
    getA demoSt
      ⟨1, true⟩ = some (some false) :=
  ⟨(assignment_lookup_semantics demoSt ⟨1, false⟩ ⟨1, true⟩ rfl (by decide)).1
      ⟨rfl, by decide⟩,
   (assignment_lookup_semantics demoSt ⟨1, true⟩ ⟨1, true⟩ rfl (by decide)).2.1
      ⟨rfl, by decide⟩⟩

/-- Counterexample to C2 as stated: in that same state the literal stored at
the trail position of the pair of `⟨1, false⟩` is that literal's negation and
the position is below the border, yet `A` returns true — the claim's first
case says it should be false. -/
theorem assignment_lookup_spec_refuted :
    (getA demoSt
      ⟨1, false⟩ = some (some true)) ∧
    ((some (some true) : Option (Option Bool)) ≠ some (some false)) :=
  ⟨rfl, by decide⟩

/-! # Claim C4: clause literal tuples are sorted but not deduplicated -/

theorem leLit_total (a b : Lit) : leLit a b = true ∨ leLit b a = true := by
  obtain ⟨pa, xa⟩ := a
  obtain ⟨pb, xb⟩ := b
  cases xa <;> cases xb <;> simp [leLit, ltLit] <;> omega

theorem chain_insLit (x : Lit) :
    ∀ l : List Lit, List.Chain' (fun a b => leLit a b = true) l →
      List.Chain' (fun a b => leLit a b = true) (insLit x l)
  | [], _ => List.chain'_singleton x
  | y :: rest, h => by
    simp only [insLit]
    by_cases hxy : leLit x y = true
    · rw [if_pos hxy]
      exact List.chain'_cons.mpr ⟨hxy, h⟩
    · rw [if_neg hxy]
      have hyx : leLit y x = true := (leLit_total x y).resolve_left hxy
      cases rest with
      | nil =>
        simp only [insLit]
        exact List.chain'_pair.mpr hyx
      | cons z zs =>
        by_cases hxz : leLit x z = true
        · simp only [insLit, if_pos hxz]
          exact List.chain'_cons.mpr ⟨hyx,
            List.chain'_cons.mpr ⟨hxz, (List.chain'_cons.mp h).2⟩⟩
        · have hrest := chain_insLit x (z :: zs) (List.chain'_cons.mp h).2
          simp only [insLit, if_neg hxz] at hrest ⊢
          exact List.chain'_cons.mpr ⟨(List.chain'_cons.mp h).1, hrest⟩

theorem chain_sortLit :
    ∀ l : List Lit, List.Chain' (fun a b => leLit a b = true) (sortLit l)
  | [] => List.chain'_nil
  | x :: rest => chain_insLit x (sortLit rest) (chain_sortLit rest)

/-- C4 (corrected): a freshly constructed clause stores `sorted(literals)`:
the tuple ascending in the literal order — but duplicates are kept, because
the constructor never deduplicates (refuted below on a duplicated input). -/
theorem clause_literals_sorted (st : Model) (args : List Lit) (cid : Nat)
    (st' : Model) (hfresh : findClause st.clauses (sortLit args) = none)
    (h : mkClause st args = some (cid, st')) :
    ∃ c, st'.clauses.get? cid = some c ∧ c.lits = sortLit args ∧
      List.Chain' (fun a b => leLit a b = true) c.lits := by
  unfold mkClause at h
  simp only [hfresh] at h
  cases args with
  | nil => simp at h
  | cons a tail =>
    cases tail with
    | nil =>
      simp only [Option.some.injEq, Prod.mk.injEq] at h
      obtain ⟨rfl, rfl⟩ := h
      refine ⟨⟨sortLit [a], a, a⟩, ?_, rfl, chain_sortLit _⟩
      simp [List.get?_eq_getElem?, List.getElem?_concat_length]
    | cons b rest =>
      simp only [Option.some.injEq, Prod.mk.injEq] at h
      obtain ⟨rfl, rfl⟩ := h
      refine ⟨⟨sortLit (a :: b :: rest), a, b⟩, ?_, rfl, chain_sortLit _⟩
      simp [List.get?_eq_getElem?, List.getElem?_concat_length]

/-- Witness for the corrected C4 at a concrete unsorted argument pair: the
plain literal of pair 1 and the negated literal of pair 2, which the literal
order swaps (the negator-headed literal comes first across pairs). -/
theorem clause_literals_sorted_witness :
    ∃ cid st' c, mkClause emptyModel [⟨1, true⟩, ⟨2, false⟩] = some (cid, st') ∧
      st'.clauses.get? cid = some c ∧
      c.lits = sortLit [⟨1, true⟩, ⟨2, false⟩] ∧
      c.lits = [⟨2, false⟩, ⟨1, true⟩] ∧
      List.Chain' (fun a b => leLit a b = true) c.lits := by
  obtain ⟨c, hc, h1, h2⟩ :=
    clause_literals_sorted emptyModel [⟨1, true⟩, ⟨2, false⟩] _ _ rfl rfl
  exact ⟨_, _, c, rfl, hc, h1, by rw [h1]; rfl, h2⟩

/-- Counterexample to C4 as stated: the clause built from the duplicated
tuple `(x, x)` stores both copies — its literal tuple is not
duplicate-free. -/
theorem clause_duplicate_literals :
    (mkClause emptyModel [⟨1, true⟩, ⟨1, true⟩]).map
        (fun r => (r.2.clauses.get? r.1).map Clause.lits) =
      some (some [⟨1, true⟩, ⟨1, true⟩]) ∧
    ¬ ([(⟨1, true⟩ : Lit), ⟨1, true⟩].Nodup) :=
  ⟨rfl, by decide⟩

end Protosmt
